import Mathlib

/-! Loop subdivision of a directed-edge surface.

A shallow embedding of `Subdivide.cpp` (one pass of Loop subdivision over a
directed-edge triangle mesh) together with theorems about it.

Conventions of the embedding.

* `std::vector<T>` is a `List T`.  A read `v[i]` is `v[i]?` and a write
  `v[i] = x` is `writeAt v i x`; both fail (`none`) when `i` is out of range,
  which is undefined behaviour in the source.  Every operation therefore
  returns an `Option`, and "the pass runs" means that the result is `some _`.
* `unsigned int` / `int` / `size_t` indices are natural numbers.  The index
  arithmetic of the source never wraps when `12 F` fits in an `int`; this is
  the `fits` component of `WellFormed`.  The value that `-1` takes in an
  `unsigned int` slot is `minusOne = 2^32 - 1`.
* Coordinates live in an arbitrary field `K` (exact arithmetic).  The
  floating-point routines `FindAlpha` and `Cartesian3::unit` are parameters.
* `for (i = 0; i < n; i++) body` is `forLoop n body`; the `while` loop of
  `OneRing` takes a fuel argument counting evaluations of its condition.
-/

namespace LoopSubdivision

/-! ## Data model -/

/-- Modelled from the spec: the 3D vector type `Cartesian3` (its header is not
part of the sources at hand): three coordinates, added componentwise and scaled
by a number. -/
@[ext]
structure Cartesian3 (K : Type) where
  x : K
  y : K
  z : K
deriving DecidableEq

instance {K : Type} [Zero K] : Zero (Cartesian3 K) := ⟨⟨0, 0, 0⟩⟩

instance {K : Type} [Add K] : Add (Cartesian3 K) :=
  ⟨fun a b => ⟨a.x + b.x, a.y + b.y, a.z + b.z⟩⟩

instance {K : Type} [Mul K] : SMul K (Cartesian3 K) :=
  ⟨fun c a => ⟨c * a.x, c * a.y, c * a.z⟩⟩

/-- Modelled from the spec: the mesh handle `DirectedEdgeSurface` (its header is
not part of the sources at hand), reduced to the five arrays that
`Subdivide.cpp` reads and writes. -/
structure DirectedEdgeSurface (K : Type) where
  vertices : List (Cartesian3 K)
  normals : List (Cartesian3 K)
  faceVertices : List Nat
  otherHalf : List Nat
  firstDirectedEdge : List Nat

/-- The object `Subdivide` of `Subdivide.h`: its private fields and the surface
`des` it operates on. -/
structure Subdivide (K : Type) where
  nVerticesOld : Nat
  nFacesOld : Nat
  nEdgesOld : Nat
  edgeNewVertex : List Nat
  newVertexPositions : List (Cartesian3 K)
  firstHalfs : List Nat
  secondHalfs : List Nat
  des : DirectedEdgeSurface K

/-- The constructor `Subdivide::Subdivide(desIn)`: it stores the surface; the
vectors start empty. -/
def Subdivide.new {K : Type} (desIn : DirectedEdgeSurface K) : Subdivide K :=
  { nVerticesOld := 0, nFacesOld := 0, nEdgesOld := 0, edgeNewVertex := [],
    newVertexPositions := [], firstHalfs := [], secondHalfs := [], des := desIn }

/-! ## Vectors, loops and machine constants -/

/-- The value of `-1` once stored in an `unsigned int`. -/
def minusOne : Nat := 4294967295

/-- The write `v[i] = x`; out of range it fails. -/
def writeAt {α : Type} (v : List α) (i : Nat) (x : α) : Option (List α) :=
  if i < v.length then some (v.set i x) else none

/-- The call `v.resize(n)`, new slots holding `d`. -/
def resize {α : Type} (v : List α) (n : Nat) (d : α) : List α :=
  v.take n ++ List.replicate (n - v.length) d

/-- Sequencing of two fallible steps: `andThen o f` fails when `o` failed and
otherwise continues with `f` on the value of `o`. -/
@[noinline]
def andThen {α β : Type} (o : Option α) (f : α → Option β) : Option β :=
  match o with
  | none => none
  | some a => f a

/-- The loop `for (i = 0; i < n; i++) body(i)` over a state: `body 0`, then
`body 1`, up to `body (n - 1)`. -/
def forLoop {σ : Type} (n : Nat) (body : Nat → σ → Option σ) (s : σ) : Option σ :=
  match n with
  | 0 => some s
  | k + 1 => andThen (forLoop k body s) (body k)

/-! ## The operations of `Subdivide.cpp` -/

section Operations

variable {K : Type} [Field K]

/-- The method `Subdivide::CalculateEdgeVertexPosition`. -/
def CalculateEdgeVertexPosition (s : Subdivide K) (e : Nat) : Option (Cartesian3 K) :=
  andThen (s.des.otherHalf[e]?) fun oH =>
  let aE0 := 3 * (e / 3) + (e + 1) % 3
  let aE1 := 3 * (oH / 3) + (oH + 1) % 3
  andThen (s.des.faceVertices[e]?) fun i0 =>
  andThen (s.des.vertices[i0]?) fun v0 =>
  andThen (s.des.faceVertices[oH]?) fun i1 =>
  andThen (s.des.vertices[i1]?) fun v1 =>
  andThen (s.des.faceVertices[aE0]?) fun i2 =>
  andThen (s.des.vertices[i2]?) fun v2 =>
  andThen (s.des.faceVertices[aE1]?) fun i3 =>
  andThen (s.des.vertices[i3]?) fun v3 =>
  some (((3 : K) / 8) • (v0 + v1) + ((1 : K) / 8) • (v2 + v3))

/-- The method `Subdivide::CalculateEdgeVertexNormal`; `unit` is `Cartesian3::unit`. -/
def CalculateEdgeVertexNormal (unit : Cartesian3 K → Cartesian3 K) (s : Subdivide K)
    (e : Nat) : Option (Cartesian3 K) :=
  andThen (s.des.otherHalf[e]?) fun oH =>
  let aE0 := 3 * (e / 3) + (e + 1) % 3
  let aE1 := 3 * (oH / 3) + (oH + 1) % 3
  andThen (s.des.faceVertices[e]?) fun i0 =>
  andThen (s.des.normals[i0]?) fun n0 =>
  andThen (s.des.faceVertices[oH]?) fun i1 =>
  andThen (s.des.normals[i1]?) fun n1 =>
  andThen (s.des.faceVertices[aE0]?) fun i2 =>
  andThen (s.des.normals[i2]?) fun n2 =>
  andThen (s.des.faceVertices[aE1]?) fun i3 =>
  andThen (s.des.normals[i3]?) fun n3 =>
  some (unit (((3 : K) / 8) • (n0 + n1) + ((1 : K) / 8) • (n2 + n3)))

/-- The body of the loop of `InsertEdgeVertices`, at edge `e`; the state is the
object together with the local counter `edgeVertexCount`. -/
def InsertEdgeVertices.body (unit : Cartesian3 K → Cartesian3 K) (e : Nat)
    (st : Subdivide K × Nat) : Option (Subdivide K × Nat) :=
  let s := st.1
  let edgeVertexCount := st.2
  andThen (s.des.otherHalf[e]?) fun oh =>
  if e < oh then
    andThen (CalculateEdgeVertexPosition s e) fun p =>
    andThen (writeAt s.des.vertices (s.nVerticesOld + edgeVertexCount) p) fun vs =>
    let s1 : Subdivide K := { s with des := { s.des with vertices := vs } }
    andThen (CalculateEdgeVertexNormal unit s1 e) fun q =>
    andThen (writeAt s1.des.normals (s1.nVerticesOld + edgeVertexCount) q) fun ns =>
    let s2 : Subdivide K := { s1 with des := { s1.des with normals := ns } }
    andThen (writeAt s2.edgeNewVertex e (edgeVertexCount + s2.nVerticesOld)) fun env1 =>
    andThen (writeAt env1 oh (edgeVertexCount + s2.nVerticesOld)) fun env2 =>
    some ({ s2 with edgeNewVertex := env2 }, edgeVertexCount + 1)
  else some (s, edgeVertexCount)

/-- The method `Subdivide::InsertEdgeVertices`. -/
def InsertEdgeVertices (unit : Cartesian3 K → Cartesian3 K) (s : Subdivide K) :
    Option (Subdivide K) :=
  let nVerticesOld := s.des.vertices.length
  let s1 : Subdivide K :=
    { s with
      nVerticesOld := nVerticesOld
      des := { s.des with
        vertices := resize s.des.vertices (nVerticesOld + s.des.otherHalf.length / 2) 0
        normals := resize s.des.normals (nVerticesOld + s.des.otherHalf.length / 2) 0 }
      edgeNewVertex := List.replicate s.des.otherHalf.length 0 }
  andThen (forLoop s1.des.otherHalf.length (InsertEdgeVertices.body unit) (s1, 0)) fun st =>
  some st.1

/-- The locals of `CalculateFaces` that its loop over the faces updates,
together with the two tables `firstHalfs` and `secondHalfs`. -/
structure FaceState where
  newFaceVertices : List Nat
  firstHalfs : List Nat
  secondHalfs : List Nat
  newFDE : List Nat

/-- The inner loop of `CalculateFaces` at face `f`, for the old vertex `i`. -/
def CalculateFaces.fdeBody (firstDirectedEdge firstHalfs : List Nat) (f : Nat) (i : Nat)
    (newFDE : List Nat) : Option (List Nat) :=
  andThen (firstDirectedEdge[i]?) fun d =>
  andThen (if 3 * f = d then
      andThen (firstHalfs[3 * f]?) fun h => writeAt newFDE i h
    else some newFDE) fun newFDE =>
  andThen (if 3 * f + 1 = d then
      andThen (firstHalfs[3 * f + 1]?) fun h => writeAt newFDE i h
    else some newFDE) fun newFDE =>
  (if 3 * f + 2 = d then
      andThen (firstHalfs[3 * f + 2]?) fun h => writeAt newFDE i h
    else some newFDE)

/-- The statement `if (newFDE[ve] == -1) { newFDE[ve] = e; }`. -/
def CalculateFaces.setIfUnset (newFDE : List Nat) (ve e : Nat) : Option (List Nat) :=
  andThen (newFDE[ve]?) fun cur =>
  if cur = minusOne then writeAt newFDE ve e else some newFDE

/-- The body of the loop over the faces of `CalculateFaces`, at face `f`. -/
def CalculateFaces.body (s : Subdivide K) (nFaceVerts : Nat) (f : Nat) (st : FaceState) :
    Option FaceState :=
  andThen (s.edgeNewVertex[f * 3]?) fun ve0 =>
  andThen (s.edgeNewVertex[f * 3 + 1]?) fun ve1 =>
  andThen (s.edgeNewVertex[f * 3 + 2]?) fun ve2 =>
  andThen (s.des.faceVertices[f * 3]?) fun fv0 =>
  andThen (s.des.faceVertices[f * 3 + 1]?) fun fv1 =>
  andThen (s.des.faceVertices[f * 3 + 2]?) fun fv2 =>
  andThen (writeAt st.newFaceVertices (0 * nFaceVerts + 3 * f) ve0) fun a =>
  andThen (writeAt a (0 * nFaceVerts + 3 * f + 1) ve1) fun a =>
  andThen (writeAt a (0 * nFaceVerts + 3 * f + 2) ve2) fun a =>
  andThen (writeAt a (1 * nFaceVerts + 3 * f) fv0) fun a =>
  andThen (writeAt a (1 * nFaceVerts + 3 * f + 1) ve1) fun a =>
  andThen (writeAt a (1 * nFaceVerts + 3 * f + 2) ve0) fun a =>
  andThen (writeAt a (2 * nFaceVerts + 3 * f) fv1) fun a =>
  andThen (writeAt a (2 * nFaceVerts + 3 * f + 1) ve2) fun a =>
  andThen (writeAt a (2 * nFaceVerts + 3 * f + 2) ve1) fun a =>
  andThen (writeAt a (3 * nFaceVerts + 3 * f) fv2) fun a =>
  andThen (writeAt a (3 * nFaceVerts + 3 * f + 1) ve0) fun a =>
  andThen (writeAt a (3 * nFaceVerts + 3 * f + 2) ve2) fun a =>
  andThen (writeAt st.secondHalfs (3 * f) (1 * nFaceVerts + 3 * f)) fun sh =>
  andThen (writeAt sh (3 * f + 1) (2 * nFaceVerts + 3 * f)) fun sh =>
  andThen (writeAt sh (3 * f + 2) (3 * nFaceVerts + 3 * f)) fun sh =>
  andThen (writeAt st.firstHalfs (3 * f) (3 * nFaceVerts + 3 * f + 1)) fun fh =>
  andThen (writeAt fh (3 * f + 1) (1 * nFaceVerts + 3 * f + 1)) fun fh =>
  andThen (writeAt fh (3 * f + 2) (2 * nFaceVerts + 3 * f + 1)) fun fh =>
  andThen (forLoop s.des.firstDirectedEdge.length
      (CalculateFaces.fdeBody s.des.firstDirectedEdge fh f) st.newFDE) fun d =>
  andThen (CalculateFaces.setIfUnset d ve0 (3 * f + 1)) fun d =>
  andThen (CalculateFaces.setIfUnset d ve1 (3 * f + 2)) fun d =>
  andThen (CalculateFaces.setIfUnset d ve2 (3 * f)) fun d =>
  some { newFaceVertices := a, firstHalfs := fh, secondHalfs := sh, newFDE := d }

/-- The method `Subdivide::CalculateFaces`. -/
def CalculateFaces (s : Subdivide K) : Option (Subdivide K) :=
  let nFaceVerts := s.des.faceVertices.length
  let nFacesOld := nFaceVerts / 3
  let nEdgesOld := nFaceVerts
  let newFaceVertices : List Nat := List.replicate (4 * nFaceVerts) 0
  let firstHalfs : List Nat := List.replicate nEdgesOld 0
  let secondHalfs : List Nat := List.replicate nEdgesOld 0
  let newFDE : List Nat :=
    List.replicate (s.des.firstDirectedEdge.length + s.des.otherHalf.length / 2) 0
  andThen (forLoop newFDE.length (fun i d => writeAt d i minusOne) newFDE) fun newFDE =>
  andThen (forLoop (nFaceVerts / 3) (CalculateFaces.body s nFaceVerts)
      { newFaceVertices := newFaceVertices, firstHalfs := firstHalfs,
        secondHalfs := secondHalfs, newFDE := newFDE }) fun st =>
  some { s with
    nFacesOld := nFacesOld
    nEdgesOld := nEdgesOld
    firstHalfs := st.firstHalfs
    secondHalfs := st.secondHalfs
    des := { s.des with
      faceVertices := st.newFaceVertices
      firstDirectedEdge := st.newFDE } }

/-- The `while` loop of `OneRing`.  `fuel` bounds the number of times the loop
condition is evaluated; when it runs out the result is `none`. -/
def OneRing.loop (s : Subdivide K) (fEdge : Nat) :
    Nat → Nat → Nat → List Nat → Option (List Nat)
  | 0, _, _, _ => none
  | fuel + 1, cEdge, c, thisOneRing =>
    if cEdge ≠ fEdge ∨ c = 0 then
      andThen (s.des.faceVertices[cEdge]?) fun cVert =>
      andThen (s.des.otherHalf[3 * (cEdge / 3) + (cEdge + 2) % 3]?) fun cEdge1 =>
      OneRing.loop s fEdge fuel cEdge1 (c + 1) (thisOneRing ++ [cVert])
    else some thisOneRing

/-- The method `Subdivide::OneRing`. -/
def OneRing (fuel : Nat) (s : Subdivide K) (v : Nat) : Option (List Nat) :=
  andThen (s.des.firstDirectedEdge[v]?) fun fEdge =>
  OneRing.loop s fEdge fuel fEdge 0 []

/-- The first loop of `CalculateOtherHalfs`, at old edge `i`. -/
def CalculateOtherHalfs.splitBody (s : Subdivide K) (i : Nat) (newOtherHalf : List Nat) :
    Option (List Nat) :=
  andThen (s.firstHalfs[i]?) fun fh =>
  andThen (s.des.otherHalf[i]?) fun oh =>
  andThen (s.secondHalfs[oh]?) fun x =>
  andThen (writeAt newOtherHalf fh x) fun a =>
  andThen (s.secondHalfs[i]?) fun sh =>
  andThen (s.firstHalfs[oh]?) fun y =>
  writeAt a sh y

/-- The second loop of `CalculateOtherHalfs`, at centre edge `e`; the state is
the new array and the local `ohVal`, which is declared outside the loop. -/
def CalculateOtherHalfs.centreBody (s : Subdivide K) (e : Nat) (st : List Nat × Nat) :
    Option (List Nat × Nat) :=
  let ohVal := st.2
  let ohVal := if e % 3 = 0 then 3 * s.nEdgesOld + e + 2 else ohVal
  let ohVal := if e % 3 = 1 then 1 * s.nEdgesOld + e + 1 else ohVal
  let ohVal := if e % 3 = 2 then 2 * s.nEdgesOld + e + 0 else ohVal
  andThen (writeAt st.1 e ohVal) fun a =>
  andThen (writeAt a ohVal e) fun a =>
  some (a, ohVal)

/-- The method `Subdivide::CalculateOtherHalfs`. -/
def CalculateOtherHalfs (s : Subdivide K) : Option (Subdivide K) :=
  let ohVal := minusOne
  let newOtherHalf : List Nat := List.replicate s.des.faceVertices.length 0
  andThen (forLoop s.firstHalfs.length (CalculateOtherHalfs.splitBody s) newOtherHalf) fun a =>
  andThen (forLoop (3 * s.nFacesOld) (CalculateOtherHalfs.centreBody s) (a, ohVal)) fun st =>
  some { s with des := { s.des with otherHalf := st.1 } }

/-- The body of the loop of `SmoothVertices`, at vertex `v`; `FindAlpha` is
`Subdivide::FindAlpha`. -/
def SmoothVertices.body (fuel : Nat) (FindAlpha : Nat → K) (s : Subdivide K) (v : Nat)
    (newVertexPositions : List (Cartesian3 K)) : Option (List (Cartesian3 K)) :=
  andThen (OneRing fuel s v) fun oneRing =>
  let n := oneRing.length
  let a := FindAlpha n
  andThen (s.des.vertices[v]?) fun pv =>
  let newPos := (1 - (n : K) * a) • pv
  andThen (forLoop n (fun i newPos =>
      andThen (oneRing[i]?) fun w =>
      andThen (s.des.vertices[w]?) fun pw =>
      some (newPos + a • pw)) newPos) fun newPos =>
  writeAt newVertexPositions v newPos

/-- The method `Subdivide::SmoothVertices`. -/
def SmoothVertices (fuel : Nat) (FindAlpha : Nat → K) (s : Subdivide K) :
    Option (Subdivide K) :=
  let nVertices := s.des.vertices.length
  let newVertexPositions : List (Cartesian3 K) := List.replicate nVertices 0
  andThen (forLoop nVertices (SmoothVertices.body fuel FindAlpha s) newVertexPositions) fun r =>
  some { s with newVertexPositions := r }

/-- The method `Subdivide::ApplyVertexPositions`. -/
def ApplyVertexPositions (s : Subdivide K) : Option (Subdivide K) :=
  andThen (forLoop s.newVertexPositions.length (fun i vs =>
      andThen (s.newVertexPositions[i]?) fun p => writeAt vs i p) s.des.vertices) fun vs =>
  some { s with des := { s.des with vertices := vs } }

/-- The method `Subdivide::StartSubdivision`: the five steps in sequence. -/
def StartSubdivision (fuel : Nat) (FindAlpha : Nat → K) (unit : Cartesian3 K → Cartesian3 K)
    (s : Subdivide K) : Option (Subdivide K) :=
  andThen (SmoothVertices fuel FindAlpha s) fun s =>
  andThen (InsertEdgeVertices unit s) fun s =>
  andThen (CalculateFaces s) fun s =>
  andThen (CalculateOtherHalfs s) fun s =>
  ApplyVertexPositions s

end Operations

/-! ## Well-formed meshes and index arithmetic -/

/-- The edge before `e` in its face, `3 * (e / 3) + (e + 2) % 3`. -/
def prevEdge (e : Nat) : Nat := 3 * (e / 3) + (e + 2) % 3

/-- The edge after `e` in its face, `3 * (e / 3) + (e + 1) % 3`. -/
def nextEdge (e : Nat) : Nat := 3 * (e / 3) + (e + 1) % 3

/-- The input conditions of a pass (section 3 of the specification): the
parallel arrays have matching lengths, the edges come in triples, every stored
index is in range, `otherHalf` is an involution without fixed point, and the
new edge count `12 F` fits in an `int`. -/
structure WellFormed {K : Type} (m : DirectedEdgeSurface K) : Prop where
  normals_length : m.normals.length = m.vertices.length
  firstDirectedEdge_length : m.firstDirectedEdge.length = m.vertices.length
  otherHalf_length : m.otherHalf.length = m.faceVertices.length
  triples : m.faceVertices.length % 3 = 0
  fits : 4 * m.faceVertices.length < 2 ^ 31
  faceVertices_lt : ∀ e, e < m.faceVertices.length →
    m.faceVertices.getD e 0 < m.vertices.length
  otherHalf_lt : ∀ e, e < m.faceVertices.length →
    m.otherHalf.getD e 0 < m.faceVertices.length
  otherHalf_ne : ∀ e, e < m.faceVertices.length → m.otherHalf.getD e 0 ≠ e
  otherHalf_invol : ∀ e, e < m.faceVertices.length →
    m.otherHalf.getD (m.otherHalf.getD e 0) 0 = e
  firstDirectedEdge_lt : ∀ v, v < m.vertices.length →
    m.firstDirectedEdge.getD v 0 < m.faceVertices.length

/-- One step of the walk of `OneRing`: from edge `c` to `otherHalf[prevEdge c]`. -/
def ringStep {K : Type} (m : DirectedEdgeSurface K) (c : Nat) : Nat :=
  m.otherHalf.getD (prevEdge c) 0

/-- The position of vertex `i` in the mesh `m`. -/
def position {K : Type} [Zero K] (m : DirectedEdgeSurface K) (i : Nat) : Cartesian3 K :=
  m.vertices.getD i 0

/-- The sum of the positions of the vertices listed in `ws`. -/
def sumPositions {K : Type} [Field K] (m : DirectedEdgeSurface K) (ws : List Nat) :
    Cartesian3 K :=
  ws.foldr (fun w acc => position m w + acc) 0

/-- The value of the counter `edgeVertexCount` of `InsertEdgeVertices` once
the edges below `k` are processed: the number of edges `e < k` with
`e < otherHalf[e]`. -/
def countLower (oh : List Nat) : Nat → Nat
  | 0 => 0
  | k + 1 => countLower oh k + (if k < oh.getD k 0 then 1 else 0)

/-- The edge of the pair `{e, otherHalf[e]}` at which `InsertEdgeVertices`
creates the vertex: the smaller of the two. -/
def lowerEdge (oh : List Nat) (e : Nat) : Nat :=
  if e < oh.getD e 0 then e else oh.getD e 0

/-- The weighted average that `CalculateEdgeVertexPosition` forms at edge `e`,
over the positions of the mesh `m`. -/
def edgePosition {K : Type} [Field K] (m : DirectedEdgeSurface K) (e : Nat) : Cartesian3 K :=
  ((3 : K) / 8) • (position m (m.faceVertices.getD e 0)
      + position m (m.faceVertices.getD (m.otherHalf.getD e 0) 0))
    + ((1 : K) / 8) • (position m (m.faceVertices.getD (nextEdge e) 0)
      + position m (m.faceVertices.getD (nextEdge (m.otherHalf.getD e 0)) 0))

/-- The weighted sum of normals that `CalculateEdgeVertexNormal` forms at edge
`e` before it normalises it, over the normals of the mesh `m`. -/
def edgeNormalSum {K : Type} [Field K] (m : DirectedEdgeSurface K) (e : Nat) : Cartesian3 K :=
  ((3 : K) / 8) • (m.normals.getD (m.faceVertices.getD e 0) 0
      + m.normals.getD (m.faceVertices.getD (m.otherHalf.getD e 0) 0) 0)
    + ((1 : K) / 8) • (m.normals.getD (m.faceVertices.getD (nextEdge e) 0) 0
      + m.normals.getD (m.faceVertices.getD (nextEdge (m.otherHalf.getD e 0)) 0) 0)

/-- The state of the loop of `InsertEdgeVertices` once the edges below `k` are
processed, starting from the object `s`: the counter, the fields left
untouched, the old entries of `vertices` and `normals`, the new entries written
so far, and the entries of `edgeNewVertex` written so far. -/
structure InsertedUpTo {K : Type} [Field K] (unit : Cartesian3 K → Cartesian3 K)
    (s : Subdivide K) (k : Nat) (st : Subdivide K × Nat) : Prop where
  count : st.2 = countLower s.des.otherHalf k
  nVerticesOld : st.1.nVerticesOld = s.des.vertices.length
  faceVertices : st.1.des.faceVertices = s.des.faceVertices
  otherHalf : st.1.des.otherHalf = s.des.otherHalf
  firstDirectedEdge : st.1.des.firstDirectedEdge = s.des.firstDirectedEdge
  newVertexPositions : st.1.newVertexPositions = s.newVertexPositions
  vertices_length :
    st.1.des.vertices.length = s.des.vertices.length + s.des.otherHalf.length / 2
  normals_length :
    st.1.des.normals.length = s.des.vertices.length + s.des.otherHalf.length / 2
  edgeNewVertex_length : st.1.edgeNewVertex.length = s.des.otherHalf.length
  old_vertices : ∀ i, i < s.des.vertices.length → st.1.des.vertices[i]? = s.des.vertices[i]?
  old_normals : ∀ i, i < s.des.vertices.length → st.1.des.normals[i]? = s.des.normals[i]?
  new_vertices : ∀ e, e < k → e < s.des.otherHalf.getD e 0 →
    st.1.des.vertices[s.des.vertices.length + countLower s.des.otherHalf e]?
      = some (edgePosition s.des e)
  new_normals : ∀ e, e < k → e < s.des.otherHalf.getD e 0 →
    st.1.des.normals[s.des.vertices.length + countLower s.des.otherHalf e]?
      = some (unit (edgeNormalSum s.des e))
  edgeNewVertex : ∀ j, j < s.des.otherHalf.length → lowerEdge s.des.otherHalf j < k →
    st.1.edgeNewVertex[j]?
      = some (s.des.vertices.length + countLower s.des.otherHalf (lowerEdge s.des.otherHalf j))

/-- The entry that `CalculateFaces` stores in `firstHalfs[i]`, for `E` old
edges: with `i = 3 f + c`, the values `3 E + 3 f + 1`, `E + 3 f + 1` and
`2 E + 3 f + 1` for `c = 0, 1, 2`. -/
def firstHalf (E i : Nat) : Nat :=
  if i % 3 = 0 then 3 * E + i + 1 else if i % 3 = 1 then 1 * E + i else 2 * E + i - 1

/-- The entry that `CalculateFaces` stores in `secondHalfs[i]`, for `E` old
edges: with `i = 3 f + c`, the values `E + 3 f`, `2 E + 3 f` and `3 E + 3 f`
for `c = 0, 1, 2`. -/
def secondHalf (E i : Nat) : Nat :=
  if i % 3 = 0 then 1 * E + i else if i % 3 = 1 then 2 * E + i - 1 else 3 * E + i - 2

/-- The value `ohVal` that `CalculateOtherHalfs` pairs with the centre edge `e`,
for `E` old edges. -/
def centreTwin (E e : Nat) : Nat :=
  if e % 3 = 0 then 3 * E + e + 2 else if e % 3 = 1 then 1 * E + e + 1 else 2 * E + e + 0

/-- The entries of `newFDE` for the new vertices `[V, V + half)` once the
statements `if (newFDE[ve] == -1) newFDE[ve] = ...` have run for the old edges
below `n`: a vertex that is the midpoint of none of them is still unset, and any
other one holds the edge after the first old edge that has it as midpoint. -/
structure MidpointsUpTo (env : List Nat) (V half n : Nat) (nf : List Nat) : Prop where
  unset : ∀ m, V ≤ m → m < V + half →
    (∀ e, e < n → env.getD e 0 ≠ m) → nf[m]? = some minusOne
  first : ∀ m, V ≤ m → m < V + half →
    ∀ e, e < n → env.getD e 0 = m → (∀ e1, e1 < e → env.getD e1 0 ≠ m) →
    nf[m]? = some (nextEdge e)

/-- The array `newFaceVertices` once the faces below `k` are written: for each
of them the centre face and the three corner faces, in their four blocks; `fv`
and `env` are the old `faceVertices` and the table `edgeNewVertex`. -/
structure BlocksUpTo (fv env : List Nat) (k : Nat) (a : List Nat) : Prop where
  length : a.length = 4 * fv.length
  centre : ∀ f, f < k →
    a[3 * f]? = some (env.getD (3 * f) 0) ∧
    a[3 * f + 1]? = some (env.getD (3 * f + 1) 0) ∧
    a[3 * f + 2]? = some (env.getD (3 * f + 2) 0)
  corner0 : ∀ f, f < k →
    a[fv.length + 3 * f]? = some (fv.getD (3 * f) 0) ∧
    a[fv.length + 3 * f + 1]? = some (env.getD (3 * f + 1) 0) ∧
    a[fv.length + 3 * f + 2]? = some (env.getD (3 * f) 0)
  corner1 : ∀ f, f < k →
    a[2 * fv.length + 3 * f]? = some (fv.getD (3 * f + 1) 0) ∧
    a[2 * fv.length + 3 * f + 1]? = some (env.getD (3 * f + 2) 0) ∧
    a[2 * fv.length + 3 * f + 2]? = some (env.getD (3 * f + 1) 0)
  corner2 : ∀ f, f < k →
    a[3 * fv.length + 3 * f]? = some (fv.getD (3 * f + 2) 0) ∧
    a[3 * fv.length + 3 * f + 1]? = some (env.getD (3 * f) 0) ∧
    a[3 * fv.length + 3 * f + 2]? = some (env.getD (3 * f + 2) 0)

/-- The state of the loop over the faces of `CalculateFaces` once the faces
below `k` are processed; `fv`, `env` and `fde` are the old `faceVertices`, the
table `edgeNewVertex` and the old `firstDirectedEdge`, and `half` is the number
of new vertices. -/
structure FacesUpTo (fv env fde : List Nat) (half k : Nat) (st : FaceState) : Prop where
  blocks : BlocksUpTo fv env k st.newFaceVertices
  firstHalfs_length : st.firstHalfs.length = fv.length
  secondHalfs_length : st.secondHalfs.length = fv.length
  newFDE_length : st.newFDE.length = fde.length + half
  firstHalfs : ∀ i, i < 3 * k → st.firstHalfs[i]? = some (firstHalf fv.length i)
  secondHalfs : ∀ i, i < 3 * k → st.secondHalfs[i]? = some (secondHalf fv.length i)
  old_fde : ∀ v, v < fde.length → fde.getD v 0 < 3 * k →
    st.newFDE[v]? = some (firstHalf fv.length (fde.getD v 0))
  midpoints : MidpointsUpTo env fde.length half (3 * k) st.newFDE

/-- The array `newOtherHalf` that `CalculateOtherHalfs` builds, for `E` old
edges paired by `oh`: both halves of every old edge are paired with the halves
of its old twin, and every centre edge is paired with its corner edge, in both
directions. -/
structure TwinsBuilt (oh : List Nat) (E : Nat) (a : List Nat) : Prop where
  length : a.length = 4 * E
  split_first : ∀ i, i < E → a[firstHalf E i]? = some (secondHalf E (oh.getD i 0))
  split_second : ∀ i, i < E → a[secondHalf E i]? = some (firstHalf E (oh.getD i 0))
  centre : ∀ e, e < E → a[e]? = some (centreTwin E e)
  centre_back : ∀ e, e < E → a[centreTwin E e]? = some e

/-- The object after `InsertEdgeVertices`, `CalculateFaces` and
`CalculateOtherHalfs` have run in this order from a mesh `m`: what the three
steps leave in `t`. -/
structure Rebuilt {K : Type} [Field K] (unit : Cartesian3 K → Cartesian3 K)
    (m : DirectedEdgeSurface K) (t : Subdivide K) : Prop where
  nVerticesOld : t.nVerticesOld = m.vertices.length
  nEdgesOld : t.nEdgesOld = m.faceVertices.length
  nFacesOld : t.nFacesOld = m.faceVertices.length / 3
  vertices_length : t.des.vertices.length = m.vertices.length + m.faceVertices.length / 2
  normals_length : t.des.normals.length = m.vertices.length + m.faceVertices.length / 2
  old_vertices : ∀ i, i < m.vertices.length → t.des.vertices[i]? = m.vertices[i]?
  old_normals : ∀ i, i < m.vertices.length → t.des.normals[i]? = m.normals[i]?
  new_vertices : ∀ e, e < m.faceVertices.length → e < m.otherHalf.getD e 0 →
    t.des.vertices[m.vertices.length + countLower m.otherHalf e]? = some (edgePosition m e)
  new_normals : ∀ e, e < m.faceVertices.length → e < m.otherHalf.getD e 0 →
    t.des.normals[m.vertices.length + countLower m.otherHalf e]?
      = some (unit (edgeNormalSum m e))
  edgeNewVertex_length : t.edgeNewVertex.length = m.faceVertices.length
  edgeNewVertex : ∀ j, j < m.faceVertices.length →
    t.edgeNewVertex[j]?
      = some (m.vertices.length + countLower m.otherHalf (lowerEdge m.otherHalf j))
  blocks : BlocksUpTo m.faceVertices t.edgeNewVertex (m.faceVertices.length / 3)
    t.des.faceVertices
  firstHalfs_length : t.firstHalfs.length = m.faceVertices.length
  secondHalfs_length : t.secondHalfs.length = m.faceVertices.length
  firstHalfs : ∀ i, i < m.faceVertices.length →
    t.firstHalfs[i]? = some (firstHalf m.faceVertices.length i)
  secondHalfs : ∀ i, i < m.faceVertices.length →
    t.secondHalfs[i]? = some (secondHalf m.faceVertices.length i)
  firstDirectedEdge_length :
    t.des.firstDirectedEdge.length = m.vertices.length + m.faceVertices.length / 2
  old_fde : ∀ v, v < m.vertices.length →
    t.des.firstDirectedEdge[v]?
      = some (firstHalf m.faceVertices.length (m.firstDirectedEdge.getD v 0))
  midpoints : MidpointsUpTo t.edgeNewVertex m.vertices.length (m.faceVertices.length / 2)
    m.faceVertices.length t.des.firstDirectedEdge
  twins : TwinsBuilt m.otherHalf m.faceVertices.length t.des.otherHalf

/-- The number of faces of a mesh, as `CalculateFaces` computes it
(`nFacesOld = nFaceVerts / 3`). -/
def faceCount {K : Type} (m : DirectedEdgeSurface K) : Nat :=
  m.faceVertices.length / 3

/-- The twin pairing is direction-consistent: the twin of every edge `e` points
to the vertex that `e` leaves, `faceVertices[prevEdge e]`. -/
def DirectionConsistent {K : Type} (m : DirectedEdgeSurface K) : Prop :=
  ∀ e, e < m.faceVertices.length →
    m.faceVertices.getD (m.otherHalf.getD e 0) 0 = m.faceVertices.getD (prevEdge e) 0

/-- Every vertex has a first directed edge that leaves it. -/
def FirstEdgesLeave {K : Type} (m : DirectedEdgeSurface K) : Prop :=
  ∀ v, v < m.vertices.length →
    m.faceVertices.getD (prevEdge (m.firstDirectedEdge.getD v 0)) 0 = v

/-- A regular tetrahedron: vertices `0..3`, faces `(0,1,2)`, `(0,3,1)`,
`(0,2,3)`, `(1,3,2)`; edge `e` runs from `faceVertices[prevEdge e]` to
`faceVertices[e]`. -/
def tetrahedron : DirectedEdgeSurface ℚ :=
  { vertices := [⟨1, 1, 1⟩, ⟨1, -1, -1⟩, ⟨-1, 1, -1⟩, ⟨-1, -1, 1⟩]
    normals := [⟨1, 1, 1⟩, ⟨1, -1, -1⟩, ⟨-1, 1, -1⟩, ⟨-1, -1, 1⟩]
    faceVertices := [0, 1, 2, 0, 3, 1, 0, 2, 3, 1, 3, 2]
    otherHalf := [7, 3, 9, 1, 6, 10, 4, 0, 11, 2, 5, 8]
    firstDirectedEdge := [1, 2, 0, 5] }

/-- An icosahedron with the connectivity of the regular one (12 vertices of
valence 5, 20 faces); the coordinates use `8/5` in place of the golden ratio. -/
def icosahedron : DirectedEdgeSurface ℚ :=
  { vertices := [⟨-1, 8 / 5, 0⟩, ⟨1, 8 / 5, 0⟩, ⟨-1, -8 / 5, 0⟩, ⟨1, -8 / 5, 0⟩,
      ⟨0, -1, 8 / 5⟩, ⟨0, 1, 8 / 5⟩, ⟨0, -1, -8 / 5⟩, ⟨0, 1, -8 / 5⟩,
      ⟨8 / 5, 0, -1⟩, ⟨8 / 5, 0, 1⟩, ⟨-8 / 5, 0, -1⟩, ⟨-8 / 5, 0, 1⟩]
    normals := [⟨-1, 8 / 5, 0⟩, ⟨1, 8 / 5, 0⟩, ⟨-1, -8 / 5, 0⟩, ⟨1, -8 / 5, 0⟩,
      ⟨0, -1, 8 / 5⟩, ⟨0, 1, 8 / 5⟩, ⟨0, -1, -8 / 5⟩, ⟨0, 1, -8 / 5⟩,
      ⟨8 / 5, 0, -1⟩, ⟨8 / 5, 0, 1⟩, ⟨-8 / 5, 0, -1⟩, ⟨-8 / 5, 0, 1⟩]
    faceVertices := [0, 11, 5, 0, 5, 1, 0, 1, 7, 0, 7, 10, 0, 10, 11, 1, 5, 9, 5, 11, 4,
      11, 10, 2, 10, 7, 6, 7, 1, 8, 3, 9, 4, 3, 4, 2, 3, 2, 6, 3, 6, 8, 3, 8, 9, 4, 9, 5,
      2, 4, 11, 6, 2, 10, 8, 6, 7, 9, 8, 1]
    otherHalf := [4, 12, 19, 7, 0, 16, 10, 3, 28, 13, 6, 25, 1, 9, 22, 57, 5, 47, 45, 2, 50,
      48, 14, 53, 51, 11, 56, 54, 8, 59, 34, 42, 46, 37, 30, 49, 40, 33, 52, 43, 36, 55, 31,
      39, 58, 18, 32, 17, 21, 35, 20, 24, 38, 23, 27, 41, 26, 15, 44, 29]
    firstDirectedEdge := [1, 3, 21, 31, 18, 0, 24, 6, 27, 15, 9, 2] }

/-- The twin pairing of a mesh alone: `otherHalf` is as long as `faceVertices`,
the edges come in triples, and `otherHalf` is an involution of the edges without
fixed point. -/
structure Paired {K : Type} (m : DirectedEdgeSurface K) : Prop where
  otherHalf_length : m.otherHalf.length = m.faceVertices.length
  triples : m.faceVertices.length % 3 = 0
  otherHalf_lt : ∀ e, e < m.faceVertices.length →
    m.otherHalf.getD e 0 < m.faceVertices.length
  otherHalf_ne : ∀ e, e < m.faceVertices.length → m.otherHalf.getD e 0 ≠ e
  otherHalf_invol : ∀ e, e < m.faceVertices.length →
    m.otherHalf.getD (m.otherHalf.getD e 0) 0 = e

/-- The mesh `m` moved by the vector `t`: `t` is added to every position. -/
def translate {K : Type} [Add K] (t : Cartesian3 K) (m : DirectedEdgeSurface K) :
    DirectedEdgeSurface K :=
  { m with vertices := m.vertices.map (fun p => p + t) }


/-- The state of `InsertEdgeVertices` when its loop is entered: `nVerticesOld`
set, `vertices` and `normals` resized to `V + otherHalf.size() / 2`,
`edgeNewVertex` cleared and resized, and the counter `edgeVertexCount` at 0. -/
def InsertEdgeVertices.start {K : Type} [Field K] (s : Subdivide K) : Subdivide K × Nat :=
  ({ s with
      nVerticesOld := s.des.vertices.length
      des := { s.des with
        vertices := resize s.des.vertices
          (s.des.vertices.length + s.des.otherHalf.length / 2) 0
        normals := resize s.des.normals
          (s.des.vertices.length + s.des.otherHalf.length / 2) 0 }
      edgeNewVertex := List.replicate s.des.otherHalf.length 0 }, 0)

/-- The four writes of one iteration of the loop of `InsertEdgeVertices` at an
edge `e` with `e < otherHalf[e]`, from the state `st`: the position and the
normal computed for `e` go to slot `nVerticesOld + edgeVertexCount` of
`vertices` and of `normals`, that slot is recorded in `edgeNewVertex` for `e`
and for its twin, and the counter is incremented. -/
def InsertEdgeVertices.written {K : Type} [Field K] (unit : Cartesian3 K → Cartesian3 K)
    (e : Nat) (st : Subdivide K × Nat) : Subdivide K × Nat :=
  ({ st.1 with
      des := { st.1.des with
        vertices := st.1.des.vertices.set (st.1.nVerticesOld + st.2)
          (edgePosition st.1.des e)
        normals := st.1.des.normals.set (st.1.nVerticesOld + st.2)
          (unit (edgeNormalSum st.1.des e)) }
      edgeNewVertex := (st.1.edgeNewVertex.set e (st.2 + st.1.nVerticesOld)).set
        (st.1.des.otherHalf.getD e 0) (st.2 + st.1.nVerticesOld) },
    st.2 + 1)

/-- The state of the loop of `InsertEdgeVertices` once the edges below `k` are
processed, on a mesh of which only the twin pairing is known: the state is
the one the loop reaches, the counter is the number of lower edges below `k`,
the connectivity is untouched, the arrays keep their resized lengths, the
entries below `V` are the old ones, every slot written so far still holds what
was written to it, and `edgeNewVertex` holds the slots recorded so far. -/
structure SlotsUpTo {K : Type} [Field K] (unit : Cartesian3 K → Cartesian3 K)
    (s : Subdivide K) (k : Nat) (st : Subdivide K × Nat) : Prop where
  run : forLoop k (InsertEdgeVertices.body unit) (InsertEdgeVertices.start s) = some st
  count : st.2 = countLower s.des.otherHalf k
  nVerticesOld : st.1.nVerticesOld = s.des.vertices.length
  faceVertices : st.1.des.faceVertices = s.des.faceVertices
  otherHalf : st.1.des.otherHalf = s.des.otherHalf
  vertices_length :
    st.1.des.vertices.length = s.des.vertices.length + s.des.otherHalf.length / 2
  normals_length :
    st.1.des.normals.length = s.des.vertices.length + s.des.otherHalf.length / 2
  edgeNewVertex_length : st.1.edgeNewVertex.length = s.des.otherHalf.length
  old_vertices : ∀ i, i < s.des.vertices.length → st.1.des.vertices[i]? = s.des.vertices[i]?
  old_normals : ∀ i, i < s.des.vertices.length →
    st.1.des.normals[i]? = some (s.des.normals.getD i 0)
  kept : ∀ e, e < k → e < s.des.otherHalf.getD e 0 → ∀ ste,
    forLoop e (InsertEdgeVertices.body unit) (InsertEdgeVertices.start s) = some ste →
    st.1.des.vertices[s.des.vertices.length + countLower s.des.otherHalf e]?
      = some (edgePosition ste.1.des e) ∧
    st.1.des.normals[s.des.vertices.length + countLower s.des.otherHalf e]?
      = some (unit (edgeNormalSum ste.1.des e))
  edgeNewVertex : ∀ j, j < s.des.otherHalf.length → lowerEdge s.des.otherHalf j < k →
    st.1.edgeNewVertex[j]?
      = some (s.des.vertices.length + countLower s.des.otherHalf (lowerEdge s.des.otherHalf j))
/-! ## Basic facts about vectors and loops -/

@[simp]
theorem andThen_some {α β : Type} (a : α) (f : α → Option β) : andThen (some a) f = f a := rfl

@[simp]
theorem andThen_none {α β : Type} (f : α → Option β) : andThen none f = none := rfl

theorem andThen_eq_some {α β : Type} {o : Option α} {f : α → Option β} {b : β} :
    andThen o f = some b ↔ ∃ a, o = some a ∧ f a = some b := by
  cases o <;> simp

theorem writeAt_of_lt {α : Type} {v : List α} {i : Nat} (x : α) (h : i < v.length) :
    writeAt v i x = some (v.set i x) := by
  simp [writeAt, h]

theorem getElem?_of_lt_getD {α : Type} {v : List α} {i : Nat} {d : α} (h : i < v.length) :
    v[i]? = some (v.getD i d) := by
  simp [List.getElem?_eq_getElem h]

theorem forLoop_succ {σ : Type} (k : Nat) (body : Nat → σ → Option σ) (s : σ) :
    forLoop (k + 1) body s = andThen (forLoop k body s) (body k) := rfl

/-- The invariant rule for `forLoop`: an invariant that holds initially and
that every iteration re-establishes (running without failure) holds at the
end, and the loop runs without failure. -/
theorem forLoop_inv {σ : Type} (body : Nat → σ → Option σ) (Inv : Nat → σ → Prop) (n : Nat)
    (s : σ) (h0 : Inv 0 s)
    (hstep : ∀ k st, k < n → Inv k st → ∃ st1, body k st = some st1 ∧ Inv (k + 1) st1) :
    ∃ st, forLoop n body s = some st ∧ Inv n st := by
  induction n with
  | zero => exact ⟨s, rfl, h0⟩
  | succ k ih =>
    obtain ⟨st, hst, hinv⟩ := ih (fun j st hj h => hstep j st (Nat.lt_succ_of_lt hj) h)
    obtain ⟨st1, hb, hinv1⟩ := hstep k st (Nat.lt_succ_self k) hinv
    exact ⟨st1, by rw [forLoop_succ, hst, andThen_some, hb], hinv1⟩

theorem length_resize {α : Type} (v : List α) (n : Nat) (d : α) : (resize v n d).length = n := by
  simp [resize]; omega

theorem getElem?_resize_of_lt {α : Type} (v : List α) (n : Nat) (d : α) {i : Nat}
    (hi : i < v.length) (hn : v.length ≤ n) : (resize v n d)[i]? = v[i]? := by
  unfold resize
  rw [List.getElem?_append_left (by simp; omega), List.getElem?_take_of_lt (by omega)]
/-! ## Vector algebra -/

section Algebra

variable {K : Type} [Field K]

@[simp]
theorem Cartesian3.add_x (a b : Cartesian3 K) : (a + b).x = a.x + b.x := rfl

@[simp]
theorem Cartesian3.add_y (a b : Cartesian3 K) : (a + b).y = a.y + b.y := rfl

@[simp]
theorem Cartesian3.add_z (a b : Cartesian3 K) : (a + b).z = a.z + b.z := rfl

@[simp]
theorem Cartesian3.smul_x (c : K) (a : Cartesian3 K) : (c • a).x = c * a.x := rfl

@[simp]
theorem Cartesian3.smul_y (c : K) (a : Cartesian3 K) : (c • a).y = c * a.y := rfl

@[simp]
theorem Cartesian3.smul_z (c : K) (a : Cartesian3 K) : (c • a).z = c * a.z := rfl

@[simp]
theorem Cartesian3.zero_x : (0 : Cartesian3 K).x = 0 := rfl

@[simp]
theorem Cartesian3.zero_y : (0 : Cartesian3 K).y = 0 := rfl

@[simp]
theorem Cartesian3.zero_z : (0 : Cartesian3 K).z = 0 := rfl

theorem Cartesian3.add_assoc3 (a b c : Cartesian3 K) : a + b + c = a + (b + c) := by
  ext <;> simp [add_assoc]

theorem Cartesian3.add_comm3 (a b : Cartesian3 K) : a + b = b + a := by
  ext <;> simp [add_comm]

theorem Cartesian3.add_zero3 (a : Cartesian3 K) : a + 0 = a := by
  ext <;> simp

theorem Cartesian3.smul_add3 (c : K) (a b : Cartesian3 K) : c • (a + b) = c • a + c • b := by
  ext <;> simp [mul_add]

/-- The sum of a list of vectors, from the left. -/
theorem Cartesian3.foldl_add_smul (a : K) (p : Nat → Cartesian3 K) (ws : List Nat)
    (init : Cartesian3 K) :
    ws.foldl (fun acc w => acc + a • p w) init
      = init + a • (ws.foldr (fun w acc => p w + acc) 0) := by
  induction ws generalizing init with
  | nil => ext <;> simp
  | cons w ws ih =>
    rw [List.foldl_cons, ih, List.foldr_cons]
    ext <;> simp [mul_add, add_assoc]

end Algebra

/-! ## The walk of `OneRing` -/

theorem prevEdge_lt {n e : Nat} (h3 : n % 3 = 0) (he : e < n) : prevEdge e < n := by
  unfold prevEdge; omega

theorem nextEdge_lt {n e : Nat} (h3 : n % 3 = 0) (he : e < n) : nextEdge e < n := by
  unfold nextEdge; omega

theorem prevEdge_injective {a b : Nat} (h : prevEdge a = prevEdge b) : a = b := by
  unfold prevEdge at h; omega

theorem prevEdge_nextEdge (e : Nat) : prevEdge (nextEdge e) = e := by
  unfold prevEdge nextEdge; omega

theorem nextEdge_prevEdge (e : Nat) : nextEdge (prevEdge e) = e := by
  unfold prevEdge nextEdge; omega

/-- Iterates of a map of `[0, n)` into itself stay in `[0, n)`. -/
theorem iterate_lt (g : Nat → Nat) (n : Nat) (hmap : ∀ x, x < n → g x < n) (j : Nat) :
    ∀ x, x < n → g^[j] x < n := by
  induction j with
  | zero => intro x hx; simpa using hx
  | succ j ih => intro x hx; rw [Function.iterate_succ_apply]; exact ih _ (hmap x hx)

/-- Iterates of a map that is injective on `[0, n)` can be cancelled. -/
theorem iterate_cancel (g : Nat → Nat) (n : Nat) (hmap : ∀ x, x < n → g x < n)
    (hinj : ∀ x y, x < n → y < n → g x = g y → x = y) (i : Nat) :
    ∀ a b, a < n → b < n → g^[i] a = g^[i] b → a = b := by
  induction i with
  | zero => intro a b _ _ h; simpa using h
  | succ i ih =>
    intro a b ha hb h
    rw [Function.iterate_succ_apply, Function.iterate_succ_apply] at h
    exact hinj a b ha hb (ih _ _ (hmap a ha) (hmap b hb) h)

/-- A map of `[0, n)` into itself that is injective there brings every point
back to itself after at most `n` steps. -/
theorem exists_iterate_return (g : Nat → Nat) (n : Nat) (hmap : ∀ x, x < n → g x < n)
    (hinj : ∀ x y, x < n → y < n → g x = g y → x = y) (x : Nat) (hx : x < n) :
    ∃ k, 0 < k ∧ k ≤ n ∧ g^[k] x = x := by
  have hpig := Finset.exists_ne_map_eq_of_card_lt_of_maps_to
    (s := Finset.range (n + 1)) (t := Finset.range n) (f := fun j => g^[j] x)
    (by simp) (fun j _ => by simpa using iterate_lt g n hmap j x hx)
  obtain ⟨i, hi, j, hj, hne, heq⟩ := hpig
  simp only [Finset.mem_range] at hi hj
  have key : ∀ i j, i < j → j < n + 1 → g^[i] x = g^[j] x → ∃ k, 0 < k ∧ k ≤ n ∧ g^[k] x = x := by
    intro i j hij hj h
    refine ⟨j - i, by omega, by omega, ?_⟩
    have hsplit : g^[j] x = g^[i] (g^[j - i] x) := by
      rw [← Function.iterate_add_apply]; congr 1; omega
    rw [hsplit] at h
    exact (iterate_cancel g n hmap hinj i _ _ hx (iterate_lt g n hmap _ x hx) h).symm
  rcases Nat.lt_or_gt_of_ne hne with h | h
  · exact key i j h hj heq
  · exact key j i h hi heq.symm

/-- The first return: the least positive number of steps after which the walk
is back at its start. -/
theorem exists_first_return (g : Nat → Nat) (n : Nat) (hmap : ∀ x, x < n → g x < n)
    (hinj : ∀ x y, x < n → y < n → g x = g y → x = y) (x : Nat) (hx : x < n) :
    ∃ p, 0 < p ∧ p ≤ n ∧ g^[p] x = x ∧ ∀ j, 0 < j → j < p → g^[j] x ≠ x := by
  classical
  have hex : ∃ k, 0 < k ∧ g^[k] x = x := by
    obtain ⟨k, hk, _, hkx⟩ := exists_iterate_return g n hmap hinj x hx
    exact ⟨k, hk, hkx⟩
  obtain ⟨k, hk, hkn, hkx⟩ := exists_iterate_return g n hmap hinj x hx
  refine ⟨Nat.find hex, (Nat.find_spec hex).1, ?_, (Nat.find_spec hex).2, ?_⟩
  · exact le_trans (Nat.find_min' hex ⟨hk, hkx⟩) hkn
  · intro j hj hjp hjx
    exact Nat.find_min hex hjp ⟨hj, hjx⟩

theorem ringStep_lt {K : Type} {m : DirectedEdgeSurface K} (hwf : WellFormed m) {c : Nat}
    (hc : c < m.faceVertices.length) : ringStep m c < m.faceVertices.length :=
  hwf.otherHalf_lt _ (prevEdge_lt hwf.triples hc)

theorem otherHalf_injective {K : Type} {m : DirectedEdgeSurface K} (hwf : WellFormed m) {a b : Nat}
    (ha : a < m.faceVertices.length) (hb : b < m.faceVertices.length)
    (h : m.otherHalf.getD a 0 = m.otherHalf.getD b 0) : a = b := by
  rw [← hwf.otherHalf_invol a ha, ← hwf.otherHalf_invol b hb, h]

theorem ringStep_injective {K : Type} {m : DirectedEdgeSurface K} (hwf : WellFormed m) {a b : Nat}
    (ha : a < m.faceVertices.length) (hb : b < m.faceVertices.length)
    (h : ringStep m a = ringStep m b) : a = b :=
  prevEdge_injective (otherHalf_injective hwf (prevEdge_lt hwf.triples ha)
    (prevEdge_lt hwf.triples hb) h)

section Walk

variable {K : Type}

/-- The loop of `OneRing`, entered after its first iteration at an edge that
is `p` steps away from the first edge, appends the `p` targets on the way. -/
theorem OneRing_loop_run (s : Subdivide K) (hwf : WellFormed s.des) (fEdge : Nat) :
    ∀ (p fuel cEdge c : Nat) (ring : List Nat), cEdge < s.des.faceVertices.length → c ≠ 0 →
      (∀ j, j < p → (ringStep s.des)^[j] cEdge ≠ fEdge) →
      (ringStep s.des)^[p] cEdge = fEdge → p < fuel →
      OneRing.loop s fEdge fuel cEdge c ring
        = some (ring ++ (List.range p).map
            (fun j => s.des.faceVertices.getD ((ringStep s.des)^[j] cEdge) 0)) := by
  intro p
  induction p with
  | zero =>
    intro fuel cEdge c ring _ hc _ hret hfuel
    obtain ⟨fuel, rfl⟩ : ∃ k, fuel = k + 1 := ⟨fuel - 1, by omega⟩
    have hce : cEdge = fEdge := by simpa using hret
    simp [OneRing.loop, hce, hc]
  | succ p ih =>
    intro fuel cEdge c ring hlt hc hne hret hfuel
    obtain ⟨fuel, rfl⟩ : ∃ k, fuel = k + 1 := ⟨fuel - 1, by omega⟩
    have hce : cEdge ≠ fEdge := by simpa using hne 0 (Nat.succ_pos p)
    have hprev : prevEdge cEdge < s.des.otherHalf.length := by
      rw [hwf.otherHalf_length]; exact prevEdge_lt hwf.triples hlt
    have hstep : ringStep s.des cEdge < s.des.faceVertices.length := ringStep_lt hwf hlt
    have hrec := ih fuel (ringStep s.des cEdge) (c + 1)
      (ring ++ [s.des.faceVertices.getD cEdge 0]) hstep (Nat.succ_ne_zero c)
      (fun j hj => by
        have := hne (j + 1) (by omega)
        rwa [Function.iterate_succ_apply] at this)
      (by rwa [Function.iterate_succ_apply] at hret) (by omega)
    have hread1 : s.des.faceVertices[cEdge]? = some (s.des.faceVertices.getD cEdge 0) :=
      getElem?_of_lt_getD hlt
    have hread2 : s.des.otherHalf[3 * (cEdge / 3) + (cEdge + 2) % 3]?
        = some (ringStep s.des cEdge) := getElem?_of_lt_getD hprev
    rw [OneRing.loop, if_pos (Or.inl hce), hread1, andThen_some, hread2, andThen_some, hrec]
    simp only [List.range_succ_eq_map, List.map_cons, List.map_map, Function.iterate_zero,
      id_eq, List.append_assoc, List.singleton_append, Function.iterate_succ_apply]
    rfl

/-- The walk of `OneRing` terminates on a well-formed mesh: with first return `p ≤ 3 F` of
the walk, every fuel above `p` yields the `p` targets met on the way. -/
theorem OneRing_eq (s : Subdivide K) (hwf : WellFormed s.des) (v : Nat)
    (hv : v < s.des.vertices.length) :
    ∃ p, 0 < p ∧ p ≤ s.des.faceVertices.length ∧
      (ringStep s.des)^[p] (s.des.firstDirectedEdge.getD v 0)
        = s.des.firstDirectedEdge.getD v 0 ∧
      (∀ j, 0 < j → j < p → (ringStep s.des)^[j] (s.des.firstDirectedEdge.getD v 0)
        ≠ s.des.firstDirectedEdge.getD v 0) ∧
      ∀ fuel, p < fuel → OneRing fuel s v
        = some ((List.range p).map (fun j => s.des.faceVertices.getD
            ((ringStep s.des)^[j] (s.des.firstDirectedEdge.getD v 0)) 0)) := by
  have hd := hwf.firstDirectedEdge_lt v hv
  obtain ⟨p, hp, hpn, hret, hmin⟩ := exists_first_return (ringStep s.des)
    s.des.faceVertices.length (fun x hx => ringStep_lt hwf hx)
    (fun x y hx hy h => ringStep_injective hwf hx hy h) _ hd
  refine ⟨p, hp, hpn, hret, hmin, ?_⟩
  intro fuel hfuel
  obtain ⟨fuel, rfl⟩ : ∃ k, fuel = k + 1 := ⟨fuel - 1, by omega⟩
  obtain ⟨q, rfl⟩ : ∃ q, p = q + 1 := ⟨p - 1, by omega⟩
  set d := s.des.firstDirectedEdge.getD v 0 with hdef
  have hread0 : s.des.firstDirectedEdge[v]? = some d :=
    getElem?_of_lt_getD (by rw [hwf.firstDirectedEdge_length]; exact hv)
  have hprev : prevEdge d < s.des.otherHalf.length := by
    rw [hwf.otherHalf_length]; exact prevEdge_lt hwf.triples hd
  have hread1 : s.des.faceVertices[d]? = some (s.des.faceVertices.getD d 0) :=
    getElem?_of_lt_getD hd
  have hread2 : s.des.otherHalf[3 * (d / 3) + (d + 2) % 3]? = some (ringStep s.des d) :=
    getElem?_of_lt_getD hprev
  have hrun := OneRing_loop_run s hwf d q fuel (ringStep s.des d) 1
    ([] ++ [s.des.faceVertices.getD d 0]) (ringStep_lt hwf hd) (by omega)
    (fun j hj => by
      have := hmin (j + 1) (by omega) (by omega)
      rwa [Function.iterate_succ_apply] at this)
    (by rwa [Function.iterate_succ_apply] at hret) (by omega)
  rw [OneRing, hread0, andThen_some, OneRing.loop, if_pos (Or.inr rfl), hread1, andThen_some,
    hread2, andThen_some, hrun]
  simp only [List.range_succ_eq_map, List.map_cons, List.map_map, Function.iterate_zero,
    id_eq, List.nil_append, List.singleton_append, Function.iterate_succ_apply]
  rfl

end Walk

/-! ## `SmoothVertices` -/

section Smooth

variable {K : Type} [Field K]

theorem getElem?_position (m : DirectedEdgeSurface K) {i : Nat} (h : i < m.vertices.length) :
    m.vertices[i]? = some (position m i) :=
  getElem?_of_lt_getD h

/-- The inner loop of `SmoothVertices` adds `a` times the position of every
vertex of the ring, in order. -/
theorem SmoothVertices_inner (m : DirectedEdgeSurface K) (a : K) (ring : List Nat)
    (hring : ∀ w, w ∈ ring → w < m.vertices.length) (init : Cartesian3 K) :
    forLoop ring.length (fun i newPos =>
        andThen (ring[i]?) fun w =>
        andThen (m.vertices[w]?) fun pw =>
        some (newPos + a • pw)) init
      = some (init + a • sumPositions m ring) := by
  obtain ⟨r, hr, hinv⟩ := forLoop_inv
    (fun i newPos =>
        andThen (ring[i]?) fun w =>
        andThen (m.vertices[w]?) fun pw =>
        some (newPos + a • pw))
    (fun k acc => acc = (ring.take k).foldl (fun acc w => acc + a • position m w) init)
    ring.length init (by simp)
    (by
      intro k st hk hst
      have hw : ring[k] ∈ ring := List.getElem_mem hk
      refine ⟨st + a • position m ring[k], ?_, ?_⟩
      · beta_reduce
        rw [List.getElem?_eq_getElem hk, andThen_some,
          getElem?_position m (hring _ hw), andThen_some]
      · beta_reduce
        rw [List.take_succ, List.foldl_append, ← hst, List.getElem?_eq_getElem hk]
        simp)
  rw [hr, hinv, List.take_length, Cartesian3.foldl_add_smul]
  rfl

omit [Field K] in
/-- The entries of the ring are vertex indices. -/
theorem ring_entries_lt {m : DirectedEdgeSurface K} (hwf : WellFormed m) (d p : Nat)
    (hd : d < m.faceVertices.length) :
    ∀ w, w ∈ (List.range p).map (fun j => m.faceVertices.getD ((ringStep m)^[j] d) 0) →
      w < m.vertices.length := by
  intro w hw
  obtain ⟨j, _, rfl⟩ := List.mem_map.1 hw
  exact hwf.faceVertices_lt _
    (iterate_lt (ringStep m) _ (fun x hx => ringStep_lt hwf hx) j d hd)

/-- The step `SmoothVertices` runs on a well-formed mesh, touches only the buffer
`newVertexPositions`, and buffers for every vertex the weighted combination of
its position and of the positions on its ring. -/
theorem SmoothVertices_spec (fuel : Nat) (FindAlpha : Nat → K) (s : Subdivide K)
    (hwf : WellFormed s.des) (hfuel : s.des.faceVertices.length < fuel) :
    ∃ r, SmoothVertices fuel FindAlpha s = some { s with newVertexPositions := r } ∧
      r.length = s.des.vertices.length ∧
      ∀ v, v < s.des.vertices.length → ∃ ring, OneRing fuel s v = some ring ∧
        0 < ring.length ∧ ring.length ≤ s.des.faceVertices.length ∧
        (∀ w, w ∈ ring → w < s.des.vertices.length) ∧
        r[v]? = some ((1 - (ring.length : K) * FindAlpha ring.length) • position s.des v
          + FindAlpha ring.length • sumPositions s.des ring) := by
  have hring : ∀ v, v < s.des.vertices.length → ∃ ring, OneRing fuel s v = some ring ∧
      0 < ring.length ∧ ring.length ≤ s.des.faceVertices.length ∧
      (∀ w, w ∈ ring → w < s.des.vertices.length) := by
    intro v hv
    obtain ⟨p, hp, hpn, _, _, hrun⟩ := OneRing_eq s hwf v hv
    refine ⟨_, hrun fuel (by omega), by simpa using hp, by simpa using hpn, ?_⟩
    exact ring_entries_lt hwf _ p (hwf.firstDirectedEdge_lt v hv)
  obtain ⟨r, hr, hlen, hinv⟩ := forLoop_inv (SmoothVertices.body fuel FindAlpha s)
    (fun k r => r.length = s.des.vertices.length ∧
      ∀ v, v < k → ∃ ring, OneRing fuel s v = some ring ∧
        r[v]? = some ((1 - (ring.length : K) * FindAlpha ring.length) • position s.des v
          + FindAlpha ring.length • sumPositions s.des ring))
    s.des.vertices.length (List.replicate s.des.vertices.length 0)
    ⟨by simp, fun v hv => absurd hv (Nat.not_lt_zero v)⟩
    (by
      intro k st hk ⟨hlen, hst⟩
      obtain ⟨ring, hone, _, _, hlt⟩ := hring k hk
      refine ⟨st.set k ((1 - (ring.length : K) * FindAlpha ring.length) • position s.des k
          + FindAlpha ring.length • sumPositions s.des ring), ?_, by simpa using hlen, ?_⟩
      · rw [SmoothVertices.body, hone, andThen_some]
        dsimp only
        rw [getElem?_position s.des hk, andThen_some]
        rw [SmoothVertices_inner s.des _ ring hlt,
          andThen_some, writeAt_of_lt _ (by omega)]
      · intro v hv
        by_cases hvk : v = k
        · subst hvk
          exact ⟨ring, hone, by rw [List.getElem?_set_self (by omega)]⟩
        · obtain ⟨ring1, h1, h2⟩ := hst v (by omega)
          exact ⟨ring1, h1, by rw [List.getElem?_set_ne (Ne.symm hvk)]; exact h2⟩)
  refine ⟨r, ?_, hlen, ?_⟩
  · rw [SmoothVertices]
    rw [hr, andThen_some]
  · intro v hv
    obtain ⟨ring, hone, hpos, hle, hlt⟩ := hring v hv
    obtain ⟨ring1, h1, h2⟩ := hinv v hv
    have : ring1 = ring := by rw [hone] at h1; exact (Option.some.inj h1).symm
    subst this
    exact ⟨ring1, hone, hpos, hle, hlt, h2⟩

end Smooth

/-! ## Counting the undirected edges -/

theorem countLower_succ (oh : List Nat) (k : Nat) :
    countLower oh (k + 1) = countLower oh k + (if k < oh.getD k 0 then 1 else 0) := rfl

theorem countLower_mono (oh : List Nat) {a b : Nat} (h : a ≤ b) :
    countLower oh a ≤ countLower oh b := by
  induction b with
  | zero =>
    have : a = 0 := by omega
    subst this; exact le_refl _
  | succ b ih =>
    rcases Nat.eq_or_lt_of_le h with h1 | h1
    · subst h1; exact le_refl _
    · have := ih (by omega)
      rw [countLower_succ]; omega

theorem countLower_lt_of_lower (oh : List Nat) {a b : Nat} (h : a < b)
    (ha : a < oh.getD a 0) : countLower oh a < countLower oh b := by
  have h1 := countLower_mono oh (show a + 1 ≤ b from h)
  rw [countLower_succ, if_pos ha] at h1
  omega

theorem countLower_eq_card (oh : List Nat) (k : Nat) :
    countLower oh k = ((Finset.range k).filter (fun e => e < oh.getD e 0)).card := by
  induction k with
  | zero => simp [countLower]
  | succ k ih =>
    rw [countLower_succ, ih, Finset.range_succ, Finset.filter_insert]
    split_ifs with h
    · rw [Finset.card_insert_of_not_mem (by simp)]
    · simp

/-- A fixed-point-free involution of `[0, n)` pairs the indices: exactly half of
them are the smaller one of their pair. -/
theorem two_mul_countLower (oh : List Nat) (n : Nat)
    (hlt : ∀ e, e < n → oh.getD e 0 < n) (hne : ∀ e, e < n → oh.getD e 0 ≠ e)
    (hinv : ∀ e, e < n → oh.getD (oh.getD e 0) 0 = e) : 2 * countLower oh n = n := by
  have hL := countLower_eq_card oh n
  have hU : ((Finset.range n).filter (fun e => ¬ e < oh.getD e 0)).card
      = ((Finset.range n).filter (fun e => e < oh.getD e 0)).card := by
    apply Finset.card_nbij' (fun e => oh.getD e 0) (fun e => oh.getD e 0)
    · intro e he
      simp only [Finset.mem_filter, Finset.mem_range] at he ⊢
      have := hne e he.1
      have := hinv e he.1
      exact ⟨hlt e he.1, by omega⟩
    · intro e he
      simp only [Finset.mem_filter, Finset.mem_range] at he ⊢
      have := hinv e he.1
      exact ⟨hlt e he.1, by omega⟩
    · intro e he
      simp only [Finset.mem_filter, Finset.mem_range] at he
      exact hinv e he.1
    · intro e he
      simp only [Finset.mem_filter, Finset.mem_range] at he
      exact hinv e he.1
  have hsum := Finset.filter_card_add_filter_neg_card_eq_card (s := Finset.range n)
    (fun e => e < oh.getD e 0)
  rw [Finset.card_range] at hsum
  omega

/-- Every value below the final count is the count at exactly one lower edge. -/
theorem exists_lower_of_lt_countLower (oh : List Nat) (n : Nat) :
    ∀ k, k < countLower oh n → ∃ e, e < n ∧ e < oh.getD e 0 ∧ countLower oh e = k := by
  induction n with
  | zero => intro k hk; simp [countLower] at hk
  | succ n ih =>
    intro k hk
    rw [countLower_succ] at hk
    by_cases hlow : n < oh.getD n 0
    · rw [if_pos hlow] at hk
      by_cases hkn : k = countLower oh n
      · exact ⟨n, by omega, hlow, hkn.symm⟩
      · obtain ⟨e, he, h1, h2⟩ := ih k (by omega)
        exact ⟨e, by omega, h1, h2⟩
    · rw [if_neg hlow] at hk
      obtain ⟨e, he, h1, h2⟩ := ih k (by omega)
      exact ⟨e, by omega, h1, h2⟩

/-- The count is injective on the lower edges. -/
theorem countLower_injective_on_lower (oh : List Nat) {a b : Nat}
    (ha : a < oh.getD a 0) (hb : b < oh.getD b 0) (h : countLower oh a = countLower oh b) :
    a = b := by
  rcases Nat.lt_trichotomy a b with hab | hab | hab
  · have := countLower_lt_of_lower oh hab ha; omega
  · exact hab
  · have := countLower_lt_of_lower oh hab hb; omega

/-! ## `InsertEdgeVertices` -/

section Insert

variable {K : Type} [Field K]

theorem CalculateEdgeVertexPosition_eq (t : Subdivide K) (m : DirectedEdgeSurface K)
    (hwf : WellFormed m) (hfv : t.des.faceVertices = m.faceVertices)
    (hoh : t.des.otherHalf = m.otherHalf)
    (hvs : ∀ i, i < m.vertices.length → t.des.vertices[i]? = m.vertices[i]?)
    {e : Nat} (he : e < m.faceVertices.length) :
    CalculateEdgeVertexPosition t e = some (edgePosition m e) := by
  have hE := hwf.otherHalf_length
  have hoe := hwf.otherHalf_lt e he
  have r0 : m.otherHalf[e]? = some (m.otherHalf.getD e 0) := getElem?_of_lt_getD (by omega)
  have rd : ∀ x, x < m.faceVertices.length →
      m.faceVertices[x]? = some (m.faceVertices.getD x 0) := fun x hx => getElem?_of_lt_getD hx
  have rv : ∀ x, x < m.faceVertices.length →
      t.des.vertices[m.faceVertices.getD x 0]? = some (position m (m.faceVertices.getD x 0)) :=
    fun x hx => by
      rw [hvs _ (hwf.faceVertices_lt x hx), getElem?_position m (hwf.faceVertices_lt x hx)]
  have n1 := nextEdge_lt hwf.triples he
  have n2 := nextEdge_lt hwf.triples hoe
  unfold nextEdge at n1 n2
  unfold CalculateEdgeVertexPosition
  rw [hoh, hfv, r0, andThen_some]
  dsimp only
  rw [rd e he, andThen_some, rv e he, andThen_some, rd _ hoe, andThen_some, rv _ hoe,
    andThen_some, rd _ n1, andThen_some, rv _ n1, andThen_some, rd _ n2, andThen_some,
    rv _ n2, andThen_some]
  rfl

theorem CalculateEdgeVertexNormal_eq (unit : Cartesian3 K → Cartesian3 K) (t : Subdivide K)
    (m : DirectedEdgeSurface K)
    (hwf : WellFormed m) (hfv : t.des.faceVertices = m.faceVertices)
    (hoh : t.des.otherHalf = m.otherHalf)
    (hns : ∀ i, i < m.vertices.length → t.des.normals[i]? = m.normals[i]?)
    {e : Nat} (he : e < m.faceVertices.length) :
    CalculateEdgeVertexNormal unit t e = some (unit (edgeNormalSum m e)) := by
  have hE := hwf.otherHalf_length
  have hoe := hwf.otherHalf_lt e he
  have r0 : m.otherHalf[e]? = some (m.otherHalf.getD e 0) := getElem?_of_lt_getD (by omega)
  have rd : ∀ x, x < m.faceVertices.length →
      m.faceVertices[x]? = some (m.faceVertices.getD x 0) := fun x hx => getElem?_of_lt_getD hx
  have rv : ∀ x, x < m.faceVertices.length →
      t.des.normals[m.faceVertices.getD x 0]?
        = some (m.normals.getD (m.faceVertices.getD x 0) 0) :=
    fun x hx => by
      have hlt := hwf.faceVertices_lt x hx
      rw [hns _ hlt]
      exact getElem?_of_lt_getD (by rw [hwf.normals_length]; exact hlt)
  have n1 := nextEdge_lt hwf.triples he
  have n2 := nextEdge_lt hwf.triples hoe
  unfold nextEdge at n1 n2
  unfold CalculateEdgeVertexNormal
  rw [hoh, hfv, r0, andThen_some]
  dsimp only
  rw [rd e he, andThen_some, rv e he, andThen_some, rd _ hoe, andThen_some, rv _ hoe,
    andThen_some, rd _ n1, andThen_some, rv _ n1, andThen_some, rd _ n2, andThen_some,
    rv _ n2, andThen_some]
  rfl


omit [Field K] in
theorem lowerEdge_cases {m : DirectedEdgeSurface K} (hwf : WellFormed m) {j : Nat}
    (hj : j < m.faceVertices.length) :
    (lowerEdge m.otherHalf j = j ∧ j < m.otherHalf.getD j 0) ∨
    (lowerEdge m.otherHalf j = m.otherHalf.getD j 0 ∧ m.otherHalf.getD j 0 < j) := by
  have := hwf.otherHalf_ne j hj
  unfold lowerEdge
  split_ifs with h
  · exact Or.inl ⟨rfl, h⟩
  · exact Or.inr ⟨rfl, by omega⟩

omit [Field K] in
theorem lowerEdge_lower {m : DirectedEdgeSurface K} (hwf : WellFormed m) {j : Nat}
    (hj : j < m.faceVertices.length) :
    lowerEdge m.otherHalf j < m.faceVertices.length ∧
    lowerEdge m.otherHalf j < m.otherHalf.getD (lowerEdge m.otherHalf j) 0 := by
  have h1 := hwf.otherHalf_lt j hj
  have h2 := hwf.otherHalf_invol j hj
  rcases lowerEdge_cases hwf hj with ⟨h, hlt⟩ | ⟨h, hlt⟩
  · rw [h]; exact ⟨hj, hlt⟩
  · rw [h, h2]; exact ⟨h1, hlt⟩

omit [Field K] in
theorem lowerEdge_otherHalf {m : DirectedEdgeSurface K} (hwf : WellFormed m) {j : Nat}
    (hj : j < m.faceVertices.length) :
    lowerEdge m.otherHalf (m.otherHalf.getD j 0) = lowerEdge m.otherHalf j := by
  have h1 := hwf.otherHalf_lt j hj
  have h2 := hwf.otherHalf_invol j hj
  rcases lowerEdge_cases hwf hj with ⟨h, hlt⟩ | ⟨h, hlt⟩ <;>
    rcases lowerEdge_cases hwf h1 with ⟨h', hlt'⟩ | ⟨h', hlt'⟩ <;>
    rw [h, h'] <;> omega

/-- One iteration of the loop of `InsertEdgeVertices`. -/
theorem InsertEdgeVertices_step (unit : Cartesian3 K → Cartesian3 K) (s : Subdivide K)
    (hwf : WellFormed s.des) (k : Nat) (st : Subdivide K × Nat)
    (hk : k < s.des.otherHalf.length) (h : InsertedUpTo unit s k st) :
    ∃ st1, InsertEdgeVertices.body unit k st = some st1 ∧ InsertedUpTo unit s (k + 1) st1 := by
  obtain ⟨t, cnt⟩ := st
  have hE := hwf.otherHalf_length
  have hkE : k < s.des.faceVertices.length := by omega
  have hcount : cnt = countLower s.des.otherHalf k := h.count
  have hnV : t.nVerticesOld = s.des.vertices.length := h.nVerticesOld
  have hohk := hwf.otherHalf_lt k hkE
  have hnek := hwf.otherHalf_ne k hkE
  have hinvk := hwf.otherHalf_invol k hkE
  have hread : t.des.otherHalf[k]? = some (s.des.otherHalf.getD k 0) := by
    rw [h.otherHalf]; exact getElem?_of_lt_getD hk
  have htot := two_mul_countLower s.des.otherHalf s.des.faceVertices.length
    hwf.otherHalf_lt hwf.otherHalf_ne hwf.otherHalf_invol
  unfold InsertEdgeVertices.body
  dsimp only
  rw [hread, andThen_some]
  by_cases hlow : k < s.des.otherHalf.getD k 0
  · have hlt := countLower_lt_of_lower s.des.otherHalf hkE hlow
    have hcnt : cnt < s.des.otherHalf.length / 2 := by omega
    have hvl : t.des.vertices.length
        = s.des.vertices.length + s.des.otherHalf.length / 2 := h.vertices_length
    have hnl : t.des.normals.length
        = s.des.vertices.length + s.des.otherHalf.length / 2 := h.normals_length
    have hel : t.edgeNewVertex.length = s.des.otherHalf.length := h.edgeNewVertex_length
    have hpos := CalculateEdgeVertexPosition_eq t s.des hwf h.faceVertices h.otherHalf
      h.old_vertices hkE
    have hnor := CalculateEdgeVertexNormal_eq unit
      { t with des := { t.des with
          vertices := t.des.vertices.set (t.nVerticesOld + cnt) (edgePosition s.des k) } }
      s.des hwf h.faceVertices h.otherHalf h.old_normals hkE
    rw [if_pos hlow, hpos, andThen_some, writeAt_of_lt _ (by omega), andThen_some, hnor,
      andThen_some, writeAt_of_lt _ (by omega), andThen_some,
      writeAt_of_lt _ (by omega), andThen_some,
      writeAt_of_lt _ (by rw [List.length_set]; omega), andThen_some]
    refine ⟨_, rfl, ?_⟩
    constructor
    · show cnt + 1 = countLower s.des.otherHalf (k + 1)
      rw [countLower_succ, if_pos hlow, hcount]
    · exact h.nVerticesOld
    · exact h.faceVertices
    · exact h.otherHalf
    · exact h.firstDirectedEdge
    · exact h.newVertexPositions
    · show (t.des.vertices.set _ _).length = _
      rw [List.length_set]; exact hvl
    · show (t.des.normals.set _ _).length = _
      rw [List.length_set]; exact hnl
    · show ((t.edgeNewVertex.set _ _).set _ _).length = _
      rw [List.length_set, List.length_set]; exact hel
    · intro i hi
      show (t.des.vertices.set _ _)[i]? = _
      rw [List.getElem?_set_ne (by omega)]; exact h.old_vertices i hi
    · intro i hi
      show (t.des.normals.set _ _)[i]? = _
      rw [List.getElem?_set_ne (by omega)]; exact h.old_normals i hi
    · intro e he hel
      show (t.des.vertices.set _ _)[_]? = _
      by_cases hek : e = k
      · subst hek
        rw [hnV, hcount, List.getElem?_set_self (by omega)]
      · have := countLower_lt_of_lower s.des.otherHalf (show e < k by omega) hel
        rw [List.getElem?_set_ne (by omega)]
        exact h.new_vertices e (by omega) hel
    · intro e he hel
      show (t.des.normals.set _ _)[_]? = _
      dsimp only
      by_cases hek : e = k
      · subst hek
        rw [hnV, hcount, List.getElem?_set_self (by omega)]
      · have := countLower_lt_of_lower s.des.otherHalf (show e < k by omega) hel
        rw [List.getElem?_set_ne (by omega)]
        exact h.new_normals e (by omega) hel
    · intro j hj hjl
      show ((t.edgeNewVertex.set _ _).set _ _)[j]? = _
      dsimp only
      have hjE : j < s.des.faceVertices.length := by omega
      have hinvj := hwf.otherHalf_invol j hjE
      by_cases hj1 : j = s.des.otherHalf.getD k 0
      · have hl : lowerEdge s.des.otherHalf j = k := by
          rw [hj1, lowerEdge_otherHalf hwf hkE]
          unfold lowerEdge; rw [if_pos hlow]
        rw [hl, hj1, List.getElem?_set_self (by rw [List.length_set]; omega), hnV, hcount,
          Nat.add_comm]
      · by_cases hj2 : j = k
        · have hl : lowerEdge s.des.otherHalf j = k := by
            rw [hj2]; unfold lowerEdge; rw [if_pos hlow]
          rw [hl, List.getElem?_set_ne (by omega), hj2, List.getElem?_set_self (by omega),
            hnV, hcount, Nat.add_comm]
        · have hl : lowerEdge s.des.otherHalf j < k := by
            rcases lowerEdge_cases hwf hjE with ⟨hc, _⟩ | ⟨hc, _⟩
            · omega
            · have : lowerEdge s.des.otherHalf j ≠ k := by
                intro hc2
                apply hj1
                rw [← hc2, hc, hinvj]
              omega
          rw [List.getElem?_set_ne (by omega), List.getElem?_set_ne (by omega)]
          exact h.edgeNewVertex j hj hl
  · rw [if_neg hlow]
    refine ⟨_, rfl, ?_⟩
    constructor
    · show cnt = countLower s.des.otherHalf (k + 1)
      rw [countLower_succ, if_neg hlow, hcount]; rfl
    · exact h.nVerticesOld
    · exact h.faceVertices
    · exact h.otherHalf
    · exact h.firstDirectedEdge
    · exact h.newVertexPositions
    · exact h.vertices_length
    · exact h.normals_length
    · exact h.edgeNewVertex_length
    · exact h.old_vertices
    · exact h.old_normals
    · intro e he hel
      have : e ≠ k := fun hc => hlow (hc ▸ hel)
      exact h.new_vertices e (by omega) hel
    · intro e he hel
      have : e ≠ k := fun hc => hlow (hc ▸ hel)
      exact h.new_normals e (by omega) hel
    · intro j hj hjl
      have hjE : j < s.des.faceVertices.length := by omega
      have hll := (lowerEdge_lower hwf hjE).2
      have : lowerEdge s.des.otherHalf j ≠ k := fun hc => hlow (hc ▸ hll)
      exact h.edgeNewVertex j hj (by omega)

/-- The step `InsertEdgeVertices` runs on a well-formed mesh and leaves the state
described by `InsertedUpTo` for all edges, the counter being the number of
undirected edges. -/
theorem InsertEdgeVertices_spec (unit : Cartesian3 K → Cartesian3 K) (s : Subdivide K)
    (hwf : WellFormed s.des) :
    ∃ s1, InsertEdgeVertices unit s = some s1 ∧
      InsertedUpTo unit s s.des.otherHalf.length (s1, s.des.otherHalf.length / 2) := by
  have hE := hwf.otherHalf_length
  have htot := two_mul_countLower s.des.otherHalf s.des.faceVertices.length
    hwf.otherHalf_lt hwf.otherHalf_ne hwf.otherHalf_invol
  obtain ⟨st, hrun, hinv⟩ := forLoop_inv (InsertEdgeVertices.body unit)
    (InsertedUpTo unit s) s.des.otherHalf.length
    (({ s with
      nVerticesOld := s.des.vertices.length
      des := { s.des with
        vertices := resize s.des.vertices
          (s.des.vertices.length + s.des.otherHalf.length / 2) 0
        normals := resize s.des.normals
          (s.des.vertices.length + s.des.otherHalf.length / 2) 0 }
      edgeNewVertex := List.replicate s.des.otherHalf.length 0 } : Subdivide K), 0)
    (by
      constructor
      · rfl
      · rfl
      · rfl
      · rfl
      · rfl
      · rfl
      · exact length_resize _ _ _
      · exact length_resize _ _ _
      · exact List.length_replicate _ _
      · intro i hi
        exact getElem?_resize_of_lt _ _ _ hi (by omega)
      · intro i hi
        exact getElem?_resize_of_lt _ _ _ (by rw [hwf.normals_length]; exact hi)
          (by rw [hwf.normals_length]; omega)
      · intro e he; exact absurd he (Nat.not_lt_zero e)
      · intro e he; exact absurd he (Nat.not_lt_zero e)
      · intro j _ hj; exact absurd hj (Nat.not_lt_zero _))
    (fun k st hk h => InsertEdgeVertices_step unit s hwf k st hk h)
  refine ⟨st.1, ?_, ?_⟩
  · unfold InsertEdgeVertices
    dsimp only
    rw [hrun, andThen_some]
  · have hc : st.2 = s.des.otherHalf.length / 2 := by
      have := hinv.count
      rw [hE] at this ⊢
      omega
    rw [← hc]
    exact hinv

end Insert

/-! ## `CalculateFaces` -/

theorem getElem?_set_of_lt {α : Type} (l : List α) (i j : Nat) (a : α) (h : i < l.length) :
    (l.set i a)[j]? = if i = j then some a else l[j]? := by
  rw [List.getElem?_set, if_pos h]

/-- The loop that fills `newFDE` with `-1`. -/
theorem fill_minusOne (n : Nat) :
    ∃ d, forLoop (List.replicate n 0).length (fun i d => writeAt d i minusOne)
        (List.replicate n 0) = some d ∧
      d.length = n ∧ ∀ j, j < n → d[j]? = some minusOne := by
  obtain ⟨d, hd, hlen, hinv⟩ := forLoop_inv (fun i d => writeAt d i minusOne)
    (fun k (d : List Nat) => d.length = n ∧ ∀ j, j < k → d[j]? = some minusOne)
    (List.replicate n 0).length (List.replicate n 0)
    ⟨by simp, fun j hj => absurd hj (Nat.not_lt_zero j)⟩
    (by
      intro k st hk ⟨hlen, hst⟩
      rw [List.length_replicate] at hk
      refine ⟨st.set k minusOne, writeAt_of_lt _ (by omega), by simpa using hlen, ?_⟩
      intro j hj
      rw [getElem?_set_of_lt _ _ _ _ (by omega)]
      split_ifs with h
      · rfl
      · exact hst j (by omega))
  refine ⟨d, hd, hlen, fun j hj => hinv j ?_⟩
  rw [List.length_replicate]; exact hj

/-- One iteration of the inner loop of `CalculateFaces`: the entry of the old
vertex `i` is set when its first edge belongs to face `f`. -/
theorem CalculateFaces_fdeBody_eq (fde fh : List Nat) (E f i : Nat) (nf : List Nat)
    (hi : i < fde.length) (hnf : i < nf.length)
    (h0 : fh[3 * f]? = some (firstHalf E (3 * f)))
    (h1 : fh[3 * f + 1]? = some (firstHalf E (3 * f + 1)))
    (h2 : fh[3 * f + 2]? = some (firstHalf E (3 * f + 2))) :
    CalculateFaces.fdeBody fde fh f i nf
      = some (if 3 * f ≤ fde.getD i 0 ∧ fde.getD i 0 < 3 * f + 3
          then nf.set i (firstHalf E (fde.getD i 0)) else nf) := by
  have hread : fde[i]? = some (fde.getD i 0) := getElem?_of_lt_getD hi
  unfold CalculateFaces.fdeBody
  rw [hread, andThen_some]
  by_cases c0 : 3 * f = fde.getD i 0
  · rw [if_pos c0, h0, andThen_some, writeAt_of_lt _ hnf, andThen_some,
      if_neg (by omega), andThen_some, if_neg (by omega), if_pos (by omega), ← c0]
  · rw [if_neg c0, andThen_some]
    by_cases c1 : 3 * f + 1 = fde.getD i 0
    · rw [if_pos c1, h1, andThen_some, writeAt_of_lt _ hnf, andThen_some,
        if_neg (by omega), if_pos (by omega), ← c1]
    · rw [if_neg c1, andThen_some]
      by_cases c2 : 3 * f + 2 = fde.getD i 0
      · rw [if_pos c2, h2, andThen_some, writeAt_of_lt _ hnf, if_pos (by omega), ← c2]
      · rw [if_neg c2, if_neg (by omega)]

/-- The inner loop of `CalculateFaces` at face `f`: the old vertices whose
first edge belongs to face `f` receive their new first edge, and nothing else
changes. -/
theorem CalculateFaces_fdeLoop (fde fh : List Nat) (E f : Nat) (nf : List Nat)
    (hnf : fde.length ≤ nf.length)
    (h0 : fh[3 * f]? = some (firstHalf E (3 * f)))
    (h1 : fh[3 * f + 1]? = some (firstHalf E (3 * f + 1)))
    (h2 : fh[3 * f + 2]? = some (firstHalf E (3 * f + 2))) :
    ∃ d, forLoop fde.length (CalculateFaces.fdeBody fde fh f) nf = some d ∧
      d.length = nf.length ∧
      (∀ j, fde.length ≤ j → d[j]? = nf[j]?) ∧
      (∀ v, v < fde.length → d[v]? =
        if 3 * f ≤ fde.getD v 0 ∧ fde.getD v 0 < 3 * f + 3
          then some (firstHalf E (fde.getD v 0)) else nf[v]?) := by
  obtain ⟨d, hd, hlen, hinv⟩ := forLoop_inv (CalculateFaces.fdeBody fde fh f)
    (fun k (d : List Nat) => d.length = nf.length ∧ ∀ j, d[j]? =
      if j < k ∧ 3 * f ≤ fde.getD j 0 ∧ fde.getD j 0 < 3 * f + 3
        then some (firstHalf E (fde.getD j 0)) else nf[j]?)
    fde.length nf
    ⟨rfl, fun j => by rw [if_neg (by omega)]⟩
    (by
      intro k st hk ⟨hlen, hst⟩
      refine ⟨_, CalculateFaces_fdeBody_eq fde fh E f k st hk (by omega) h0 h1 h2, ?_, ?_⟩
      · split_ifs <;> simp [hlen]
      · intro j
        by_cases hc : 3 * f ≤ fde.getD k 0 ∧ fde.getD k 0 < 3 * f + 3
        · rw [if_pos hc, getElem?_set_of_lt _ _ _ _ (by omega)]
          by_cases hjk : k = j
          · subst hjk
            rw [if_pos rfl, if_pos ⟨by omega, hc⟩]
          · rw [if_neg hjk, hst j]
            by_cases hj : j < k ∧ 3 * f ≤ fde.getD j 0 ∧ fde.getD j 0 < 3 * f + 3
            · rw [if_pos hj, if_pos ⟨by omega, hj.2⟩]
            · rw [if_neg hj, if_neg (by
                intro hcon
                exact hj ⟨by omega, hcon.2⟩)]
        · rw [if_neg hc, hst j]
          by_cases hj : j < k ∧ 3 * f ≤ fde.getD j 0 ∧ fde.getD j 0 < 3 * f + 3
          · rw [if_pos hj, if_pos ⟨by omega, hj.2⟩]
          · rw [if_neg hj, if_neg (by
              intro hcon
              by_cases hjk : j = k
              · subst hjk; exact hc hcon.2
              · exact hj ⟨by omega, hcon.2⟩)])
  refine ⟨d, hd, hlen, ?_, ?_⟩
  · intro j hj
    rw [hinv j, if_neg (by omega)]
  · intro v hv
    rw [hinv v]
    by_cases hc : 3 * f ≤ fde.getD v 0 ∧ fde.getD v 0 < 3 * f + 3
    · rw [if_pos ⟨hv, hc⟩, if_pos hc]
    · rw [if_neg (fun hcon => hc hcon.2), if_neg hc]

/-- Among the edges below `n` that have `m` as midpoint there is a first one. -/
theorem exists_first_midpoint (env : List Nat) (n m : Nat)
    (h : ∃ e, e < n ∧ env.getD e 0 = m) :
    ∃ e, e < n ∧ env.getD e 0 = m ∧ ∀ e1, e1 < e → env.getD e1 0 ≠ m := by
  classical
  refine ⟨Nat.find h, (Nat.find_spec h).1, (Nat.find_spec h).2, ?_⟩
  intro e1 he1 hcon
  exact Nat.find_min h he1 ⟨lt_trans he1 (Nat.find_spec h).1, hcon⟩

/-- The statement `if (newFDE[ve] == -1) newFDE[ve] = nextEdge n` for the
midpoint `ve` of the old edge `n`. -/
theorem setIfUnset_step (env : List Nat) (V half n : Nat) (nf : List Nat)
    (hlen : nf.length = V + half)
    (hve : V ≤ env.getD n 0 ∧ env.getD n 0 < V + half)
    (hne : ∀ e, e ≤ n → nextEdge e ≠ minusOne)
    (h : MidpointsUpTo env V half n nf) :
    ∃ d, CalculateFaces.setIfUnset nf (env.getD n 0) (nextEdge n) = some d ∧
      d.length = nf.length ∧ (∀ j, j < V → d[j]? = nf[j]?) ∧
      MidpointsUpTo env V half (n + 1) d := by
  have hread : nf[env.getD n 0]? = some (nf.getD (env.getD n 0) 0) :=
    getElem?_of_lt_getD (by omega)
  unfold CalculateFaces.setIfUnset
  rw [hread, andThen_some]
  by_cases hc : nf.getD (env.getD n 0) 0 = minusOne
  · have hnone : ∀ e, e < n → env.getD e 0 ≠ env.getD n 0 := by
      intro e he hcon
      obtain ⟨e0, he0, hm, hfirst⟩ := exists_first_midpoint env n _ ⟨e, he, hcon⟩
      have := h.first _ hve.1 hve.2 e0 he0 hm hfirst
      rw [hread, hc] at this
      exact hne e0 (by omega) (Option.some.inj this).symm
    rw [if_pos hc, writeAt_of_lt _ (by omega)]
    refine ⟨_, rfl, List.length_set _ _ _, ?_, ?_, ?_⟩
    · intro j hj
      rw [List.getElem?_set_ne (by omega)]
    · intro m hm1 hm2 hall
      have hmne : env.getD n 0 ≠ m := hall n (Nat.lt_succ_self n)
      rw [List.getElem?_set_ne hmne]
      exact h.unset m hm1 hm2 (fun e he => hall e (by omega))
    · intro m hm1 hm2 e he hem hfirst
      by_cases hmv : env.getD n 0 = m
      · have hen : e = n := by
          by_contra hcon
          exact hnone e (by omega) (by rw [hem, hmv])
        rw [hen, ← hmv, List.getElem?_set_self (by omega)]
      · have hen : e ≠ n := fun hcon => hmv (hcon ▸ hem)
        rw [List.getElem?_set_ne hmv]
        exact h.first m hm1 hm2 e (by omega) hem hfirst
  · have hsome : ∃ e, e < n ∧ env.getD e 0 = env.getD n 0 := by
      by_contra hcon
      have := h.unset _ hve.1 hve.2 (fun e he heq => hcon ⟨e, he, heq⟩)
      rw [hread] at this
      exact hc (Option.some.inj this)
    rw [if_neg hc]
    refine ⟨_, rfl, rfl, fun j _ => rfl, ?_, ?_⟩
    · intro m hm1 hm2 hall
      exact h.unset m hm1 hm2 (fun e he => hall e (by omega))
    · intro m hm1 hm2 e he hem hfirst
      have hen : e ≠ n := by
        intro hcon
        obtain ⟨e0, he0, heq⟩ := hsome
        subst hcon
        exact hfirst e0 he0 (by rw [heq, hem])
      exact h.first m hm1 hm2 e (by omega) hem hfirst

theorem firstHalf_three_mul (E f : Nat) : firstHalf E (3 * f) = 3 * E + 3 * f + 1 := by
  unfold firstHalf; rw [if_pos (by omega)]

theorem firstHalf_three_mul_add_one (E f : Nat) :
    firstHalf E (3 * f + 1) = 1 * E + 3 * f + 1 := by
  unfold firstHalf; rw [if_neg (by omega), if_pos (by omega)]; omega

theorem firstHalf_three_mul_add_two (E f : Nat) :
    firstHalf E (3 * f + 2) = 2 * E + 3 * f + 1 := by
  unfold firstHalf; rw [if_neg (by omega), if_neg (by omega)]; omega

theorem secondHalf_three_mul (E f : Nat) : secondHalf E (3 * f) = 1 * E + 3 * f := by
  unfold secondHalf; rw [if_pos (by omega)]

theorem secondHalf_three_mul_add_one (E f : Nat) :
    secondHalf E (3 * f + 1) = 2 * E + 3 * f := by
  unfold secondHalf; rw [if_neg (by omega), if_pos (by omega)]; omega

theorem secondHalf_three_mul_add_two (E f : Nat) :
    secondHalf E (3 * f + 2) = 3 * E + 3 * f := by
  unfold secondHalf; rw [if_neg (by omega), if_neg (by omega)]; omega

theorem nextEdge_three_mul (f : Nat) : nextEdge (3 * f) = 3 * f + 1 := by
  unfold nextEdge; omega

theorem nextEdge_three_mul_add_one (f : Nat) : nextEdge (3 * f + 1) = 3 * f + 2 := by
  unfold nextEdge; omega

theorem nextEdge_three_mul_add_two (f : Nat) : nextEdge (3 * f + 2) = 3 * f := by
  unfold nextEdge; omega

/-- Entries of a vector after three writes. -/
theorem getElem?_set3 {α : Type} (l : List α) (i0 i1 i2 j : Nat) (a0 a1 a2 : α)
    (h0 : i0 < l.length) (h1 : i1 < l.length) (h2 : i2 < l.length) :
    (((l.set i0 a0).set i1 a1).set i2 a2)[j]?
      = if i2 = j then some a2 else if i1 = j then some a1 else if i0 = j then some a0
        else l[j]? := by
  rw [getElem?_set_of_lt _ _ _ _ (by simpa using h2),
    getElem?_set_of_lt _ _ _ _ (by simpa using h1), getElem?_set_of_lt _ _ _ _ h0]

/-- Entries of `newFaceVertices` after the twelve writes of one face. -/
theorem getElem?_set12 (a : List Nat) (E k j : Nat) (ve0 ve1 ve2 fv0 fv1 fv2 : Nat)
    (hl : a.length = 4 * E) (hk : 3 * k + 2 < E) :
    ((((((((((((a.set (0 * E + 3 * k) ve0).set (0 * E + 3 * k + 1) ve1).set
      (0 * E + 3 * k + 2) ve2).set (1 * E + 3 * k) fv0).set (1 * E + 3 * k + 1) ve1).set
      (1 * E + 3 * k + 2) ve0).set (2 * E + 3 * k) fv1).set (2 * E + 3 * k + 1) ve2).set
      (2 * E + 3 * k + 2) ve1).set (3 * E + 3 * k) fv2).set (3 * E + 3 * k + 1) ve0).set
      (3 * E + 3 * k + 2) ve2)[j]?
    = if 3 * E + 3 * k + 2 = j then some ve2 else if 3 * E + 3 * k + 1 = j then some ve0
      else if 3 * E + 3 * k = j then some fv2 else if 2 * E + 3 * k + 2 = j then some ve1
      else if 2 * E + 3 * k + 1 = j then some ve2 else if 2 * E + 3 * k = j then some fv1
      else if 1 * E + 3 * k + 2 = j then some ve0 else if 1 * E + 3 * k + 1 = j then some ve1
      else if 1 * E + 3 * k = j then some fv0 else if 0 * E + 3 * k + 2 = j then some ve2
      else if 0 * E + 3 * k + 1 = j then some ve1 else if 0 * E + 3 * k = j then some ve0
      else a[j]? := by
  rw [getElem?_set3 _ _ _ _ _ _ _ _ (by simp only [List.length_set]; omega)
      (by simp only [List.length_set]; omega) (by simp only [List.length_set]; omega),
    getElem?_set3 _ _ _ _ _ _ _ _ (by simp only [List.length_set]; omega)
      (by simp only [List.length_set]; omega) (by simp only [List.length_set]; omega),
    getElem?_set3 _ _ _ _ _ _ _ _ (by simp only [List.length_set]; omega)
      (by simp only [List.length_set]; omega) (by simp only [List.length_set]; omega),
    getElem?_set3 _ _ _ _ _ _ _ _ (by omega) (by omega) (by omega)]

/-- The twelve writes of face `k` extend `BlocksUpTo` by one face. -/
theorem BlocksUpTo_step (fv env : List Nat) (k : Nat) (a : List Nat)
    (hk : 3 * k + 2 < fv.length) (h : BlocksUpTo fv env k a) :
    BlocksUpTo fv env (k + 1)
      ((((((((((((a.set (0 * fv.length + 3 * k) (env.getD (3 * k) 0)).set
        (0 * fv.length + 3 * k + 1) (env.getD (3 * k + 1) 0)).set
        (0 * fv.length + 3 * k + 2) (env.getD (3 * k + 2) 0)).set
        (1 * fv.length + 3 * k) (fv.getD (3 * k) 0)).set
        (1 * fv.length + 3 * k + 1) (env.getD (3 * k + 1) 0)).set
        (1 * fv.length + 3 * k + 2) (env.getD (3 * k) 0)).set
        (2 * fv.length + 3 * k) (fv.getD (3 * k + 1) 0)).set
        (2 * fv.length + 3 * k + 1) (env.getD (3 * k + 2) 0)).set
        (2 * fv.length + 3 * k + 2) (env.getD (3 * k + 1) 0)).set
        (3 * fv.length + 3 * k) (fv.getD (3 * k + 2) 0)).set
        (3 * fv.length + 3 * k + 1) (env.getD (3 * k) 0)).set
        (3 * fv.length + 3 * k + 2) (env.getD (3 * k + 2) 0)) := by
  have hl1 := h.length
  have hA := fun j => getElem?_set12 a fv.length k j
    (env.getD (3 * k) 0) (env.getD (3 * k + 1) 0) (env.getD (3 * k + 2) 0)
    (fv.getD (3 * k) 0) (fv.getD (3 * k + 1) 0) (fv.getD (3 * k + 2) 0) hl1 hk
  constructor
  · simp only [List.length_set]; exact hl1
  · intro f hf
    by_cases hfk : f = k
    · subst hfk
      refine ⟨?_, ?_, ?_⟩ <;>
      · rw [hA]
        simp (disch := omega) only [if_pos, if_neg, if_true]
    · obtain ⟨o1, o2, o3⟩ := h.centre f (by omega)
      refine ⟨?_, ?_, ?_⟩ <;>
      · rw [hA]
        simp (disch := omega) only [if_pos, if_neg, o1, o2, o3]
  · intro f hf
    by_cases hfk : f = k
    · subst hfk
      refine ⟨?_, ?_, ?_⟩ <;>
      · rw [hA]
        simp (disch := omega) only [if_pos, if_neg, if_true]
    · obtain ⟨o1, o2, o3⟩ := h.corner0 f (by omega)
      refine ⟨?_, ?_, ?_⟩ <;>
      · rw [hA]
        simp (disch := omega) only [if_pos, if_neg, o1, o2, o3]
  · intro f hf
    by_cases hfk : f = k
    · subst hfk
      refine ⟨?_, ?_, ?_⟩ <;>
      · rw [hA]
        simp (disch := omega) only [if_pos, if_neg, if_true]
    · obtain ⟨o1, o2, o3⟩ := h.corner1 f (by omega)
      refine ⟨?_, ?_, ?_⟩ <;>
      · rw [hA]
        simp (disch := omega) only [if_pos, if_neg, o1, o2, o3]
  · intro f hf
    by_cases hfk : f = k
    · subst hfk
      refine ⟨?_, ?_, ?_⟩ <;>
      · rw [hA]
        simp (disch := omega) only [if_pos, if_neg, if_true]
    · obtain ⟨o1, o2, o3⟩ := h.corner2 f (by omega)
      refine ⟨?_, ?_, ?_⟩ <;>
      · rw [hA]
        simp (disch := omega) only [if_pos, if_neg, o1, o2, o3]

section Faces

variable {K : Type}

/-- One iteration of the loop over the faces of `CalculateFaces`. -/
theorem CalculateFaces_step (s1 : Subdivide K) (half k : Nat) (st : FaceState)
    (henv : s1.edgeNewVertex.length = s1.des.faceVertices.length)
    (hrng : ∀ e, e < s1.des.faceVertices.length →
      s1.des.firstDirectedEdge.length ≤ s1.edgeNewVertex.getD e 0 ∧
      s1.edgeNewVertex.getD e 0 < s1.des.firstDirectedEdge.length + half)
    (hfits : 4 * s1.des.faceVertices.length < 2 ^ 31)
    (hk : 3 * k + 2 < s1.des.faceVertices.length)
    (h : FacesUpTo s1.des.faceVertices s1.edgeNewVertex s1.des.firstDirectedEdge half k st) :
    ∃ st1, CalculateFaces.body s1 s1.des.faceVertices.length k st = some st1 ∧
      FacesUpTo s1.des.faceVertices s1.edgeNewVertex s1.des.firstDirectedEdge half
        (k + 1) st1 := by
  have hl1 := h.blocks.length
  have hl2 := h.firstHalfs_length
  have hl3 := h.secondHalfs_length
  have hl4 := h.newFDE_length
  have re : ∀ c, c < 3 → s1.edgeNewVertex[3 * k + c]?
      = some (s1.edgeNewVertex.getD (3 * k + c) 0) :=
    fun c hc => getElem?_of_lt_getD (by omega)
  have rf : ∀ c, c < 3 → s1.des.faceVertices[3 * k + c]?
      = some (s1.des.faceVertices.getD (3 * k + c) 0) :=
    fun c hc => getElem?_of_lt_getD (by omega)
  have hFH := fun j => getElem?_set3 st.firstHalfs (3 * k) (3 * k + 1) (3 * k + 2) j
    (3 * s1.des.faceVertices.length + 3 * k + 1) (1 * s1.des.faceVertices.length + 3 * k + 1)
    (2 * s1.des.faceVertices.length + 3 * k + 1) (by omega) (by omega) (by omega)
  have hSH := fun j => getElem?_set3 st.secondHalfs (3 * k) (3 * k + 1) (3 * k + 2) j
    (1 * s1.des.faceVertices.length + 3 * k) (2 * s1.des.faceVertices.length + 3 * k)
    (3 * s1.des.faceVertices.length + 3 * k) (by omega) (by omega) (by omega)
  obtain ⟨d0, hd0, hd0len, hd0hi, hd0lo⟩ := CalculateFaces_fdeLoop s1.des.firstDirectedEdge
    (((st.firstHalfs.set (3 * k) (3 * s1.des.faceVertices.length + 3 * k + 1)).set (3 * k + 1)
      (1 * s1.des.faceVertices.length + 3 * k + 1)).set (3 * k + 2)
      (2 * s1.des.faceVertices.length + 3 * k + 1))
    s1.des.faceVertices.length k st.newFDE (by omega)
    (by rw [hFH, if_neg (by omega), if_neg (by omega), if_pos rfl, firstHalf_three_mul])
    (by rw [hFH, if_neg (by omega), if_pos rfl, firstHalf_three_mul_add_one])
    (by rw [hFH, if_pos rfl, firstHalf_three_mul_add_two])
  have hne : ∀ e, e ≤ 3 * k + 2 → nextEdge e ≠ minusOne := by
    intro e he
    have : nextEdge e < 3 * k + 3 := by unfold nextEdge; omega
    unfold minusOne; omega
  have hm0 : MidpointsUpTo s1.edgeNewVertex s1.des.firstDirectedEdge.length half (3 * k) d0 :=
    ⟨fun m a b c => by rw [hd0hi m a]; exact h.midpoints.unset m a b c,
     fun m a b e c f g => by rw [hd0hi m a]; exact h.midpoints.first m a b e c f g⟩
  obtain ⟨d1, hd1, hd1len, hd1lo, hm1⟩ := setIfUnset_step s1.edgeNewVertex
    s1.des.firstDirectedEdge.length half (3 * k) d0 (by omega) (hrng _ (by omega))
    (fun e he => hne e (by omega)) hm0
  obtain ⟨d2, hd2, hd2len, hd2lo, hm2⟩ := setIfUnset_step s1.edgeNewVertex
    s1.des.firstDirectedEdge.length half (3 * k + 1) d1 (by omega) (hrng _ (by omega))
    (fun e he => hne e (by omega)) hm1
  obtain ⟨d3, hd3, hd3len, hd3lo, hm3⟩ := setIfUnset_step s1.edgeNewVertex
    s1.des.firstDirectedEdge.length half (3 * k + 2) d2 (by omega) (hrng _ (by omega))
    (fun e he => hne e (by omega)) hm2
  rw [nextEdge_three_mul] at hd1
  rw [nextEdge_three_mul_add_one] at hd2
  rw [nextEdge_three_mul_add_two] at hd3
  have re0 := re 0 (by omega)
  have rf0 := rf 0 (by omega)
  rw [Nat.add_zero] at re0 rf0
  unfold CalculateFaces.body
  rw [Nat.mul_comm k 3, re0, andThen_some, re 1 (by omega), andThen_some, re 2 (by omega),
    andThen_some, rf0, andThen_some, rf 1 (by omega), andThen_some, rf 2 (by omega),
    andThen_some]
  rw [writeAt_of_lt _ (by omega), andThen_some]
  iterate 11 rw [writeAt_of_lt _ (by simp only [List.length_set]; omega), andThen_some]
  rw [writeAt_of_lt _ (by omega), andThen_some]
  iterate 2 rw [writeAt_of_lt _ (by simp only [List.length_set]; omega), andThen_some]
  rw [writeAt_of_lt _ (by omega), andThen_some]
  iterate 2 rw [writeAt_of_lt _ (by simp only [List.length_set]; omega), andThen_some]
  rw [hd0, andThen_some, hd1, andThen_some, hd2, andThen_some, hd3, andThen_some]
  refine ⟨_, rfl, ?_⟩
  constructor
  · exact BlocksUpTo_step _ _ k _ hk h.blocks
  · simp only [List.length_set]; exact hl2
  · simp only [List.length_set]; exact hl3
  · show d3.length = _
    rw [hd3len, hd2len, hd1len, hd0len]; exact hl4
  · intro i hi
    show (((st.firstHalfs.set _ _).set _ _).set _ _)[i]? = _
    rw [hFH i]
    by_cases c2 : 3 * k + 2 = i
    · rw [if_pos c2, ← c2, firstHalf_three_mul_add_two]
    · rw [if_neg c2]
      by_cases c1 : 3 * k + 1 = i
      · rw [if_pos c1, ← c1, firstHalf_three_mul_add_one]
      · rw [if_neg c1]
        by_cases c0 : 3 * k = i
        · rw [if_pos c0, ← c0, firstHalf_three_mul]
        · rw [if_neg c0]
          exact h.firstHalfs i (by omega)
  · intro i hi
    show (((st.secondHalfs.set _ _).set _ _).set _ _)[i]? = _
    rw [hSH i]
    by_cases c2 : 3 * k + 2 = i
    · rw [if_pos c2, ← c2, secondHalf_three_mul_add_two]
    · rw [if_neg c2]
      by_cases c1 : 3 * k + 1 = i
      · rw [if_pos c1, ← c1, secondHalf_three_mul_add_one]
      · rw [if_neg c1]
        by_cases c0 : 3 * k = i
        · rw [if_pos c0, ← c0, secondHalf_three_mul]
        · rw [if_neg c0]
          exact h.secondHalfs i (by omega)
  · intro v hv hlt
    show d3[v]? = _
    rw [hd3lo v hv, hd2lo v hv, hd1lo v hv, hd0lo v hv]
    by_cases hc : 3 * k ≤ s1.des.firstDirectedEdge.getD v 0 ∧
        s1.des.firstDirectedEdge.getD v 0 < 3 * k + 3
    · rw [if_pos hc]
    · rw [if_neg hc]
      exact h.old_fde v hv (by omega)
  · exact hm3


/-- The step `CalculateFaces` runs whenever the table `edgeNewVertex` covers the old
edges with indices of new vertices, and leaves the state described by
`FacesUpTo` for all faces. -/
theorem CalculateFaces_spec (s1 : Subdivide K)
    (henv : s1.edgeNewVertex.length = s1.des.faceVertices.length)
    (hrng : ∀ e, e < s1.des.faceVertices.length →
      s1.des.firstDirectedEdge.length ≤ s1.edgeNewVertex.getD e 0 ∧
      s1.edgeNewVertex.getD e 0 < s1.des.firstDirectedEdge.length + s1.des.otherHalf.length / 2)
    (hfits : 4 * s1.des.faceVertices.length < 2 ^ 31) :
    ∃ st, CalculateFaces s1 = some { s1 with
        nFacesOld := s1.des.faceVertices.length / 3
        nEdgesOld := s1.des.faceVertices.length
        firstHalfs := st.firstHalfs
        secondHalfs := st.secondHalfs
        des := { s1.des with
          faceVertices := st.newFaceVertices
          firstDirectedEdge := st.newFDE } } ∧
      FacesUpTo s1.des.faceVertices s1.edgeNewVertex s1.des.firstDirectedEdge
        (s1.des.otherHalf.length / 2) (s1.des.faceVertices.length / 3) st := by
  obtain ⟨d, hd, hdlen, hdall⟩ :=
    fill_minusOne (s1.des.firstDirectedEdge.length + s1.des.otherHalf.length / 2)
  obtain ⟨st, hst, hinv⟩ := forLoop_inv
    (CalculateFaces.body s1 s1.des.faceVertices.length)
    (FacesUpTo s1.des.faceVertices s1.edgeNewVertex s1.des.firstDirectedEdge
      (s1.des.otherHalf.length / 2))
    (s1.des.faceVertices.length / 3)
    { newFaceVertices := List.replicate (4 * s1.des.faceVertices.length) 0
      firstHalfs := List.replicate s1.des.faceVertices.length 0
      secondHalfs := List.replicate s1.des.faceVertices.length 0
      newFDE := d }
    (by
      constructor
      · constructor
        · exact List.length_replicate _ _
        · intro f hf; exact absurd hf (Nat.not_lt_zero f)
        · intro f hf; exact absurd hf (Nat.not_lt_zero f)
        · intro f hf; exact absurd hf (Nat.not_lt_zero f)
        · intro f hf; exact absurd hf (Nat.not_lt_zero f)
      · exact List.length_replicate _ _
      · exact List.length_replicate _ _
      · exact hdlen
      · intro i hi; exact absurd hi (Nat.not_lt_zero i)
      · intro i hi; exact absurd hi (Nat.not_lt_zero i)
      · intro v _ hv; exact absurd hv (Nat.not_lt_zero _)
      · constructor
        · intro m _ hm _; exact hdall m hm
        · intro m _ _ e he; exact absurd he (Nat.not_lt_zero e))
    (fun k st hk h => CalculateFaces_step s1 _ k st henv hrng hfits (by omega) h)
  refine ⟨st, ?_, hinv⟩
  unfold CalculateFaces
  dsimp only
  rw [hd, andThen_some, hst, andThen_some]

end Faces

/-! ## `CalculateOtherHalfs` -/

theorem firstHalf_lt {E i : Nat} (h3 : E % 3 = 0) (hi : i < E) : firstHalf E i < 4 * E := by
  unfold firstHalf; split_ifs <;> omega

theorem secondHalf_lt {E i : Nat} (h3 : E % 3 = 0) (hi : i < E) : secondHalf E i < 4 * E := by
  unfold secondHalf; split_ifs <;> omega

theorem centreTwin_lt {E e : Nat} (h3 : E % 3 = 0) (he : e < E) : centreTwin E e < 4 * E := by
  unfold centreTwin; split_ifs <;> omega

theorem le_firstHalf {E i : Nat} (hi : i < E) : E ≤ firstHalf E i := by
  unfold firstHalf; split_ifs <;> omega

theorem le_secondHalf {E i : Nat} (hi : i < E) : E ≤ secondHalf E i := by
  unfold secondHalf; split_ifs <;> omega

theorem le_centreTwin (E e : Nat) : E ≤ centreTwin E e := by
  unfold centreTwin; split_ifs <;> omega

theorem firstHalf_injective {E i j : Nat} (h3 : E % 3 = 0) (hi : i < E) (hj : j < E)
    (h : firstHalf E i = firstHalf E j) : i = j := by
  unfold firstHalf at h; split_ifs at h <;> omega

theorem secondHalf_injective {E i j : Nat} (h3 : E % 3 = 0) (hi : i < E) (hj : j < E)
    (h : secondHalf E i = secondHalf E j) : i = j := by
  unfold secondHalf at h; split_ifs at h <;> omega

theorem centreTwin_injective {E i j : Nat} (h3 : E % 3 = 0) (hi : i < E) (hj : j < E)
    (h : centreTwin E i = centreTwin E j) : i = j := by
  unfold centreTwin at h; split_ifs at h <;> omega

theorem firstHalf_ne_secondHalf {E i j : Nat} (h3 : E % 3 = 0) (hi : i < E) (hj : j < E) :
    firstHalf E i ≠ secondHalf E j := by
  unfold firstHalf secondHalf; split_ifs <;> omega

theorem firstHalf_ne_centreTwin {E i j : Nat} (h3 : E % 3 = 0) (hi : i < E) (hj : j < E) :
    firstHalf E i ≠ centreTwin E j := by
  unfold firstHalf centreTwin; split_ifs <;> omega

theorem secondHalf_ne_centreTwin {E i j : Nat} (h3 : E % 3 = 0) (hi : i < E) (hj : j < E) :
    secondHalf E i ≠ centreTwin E j := by
  unfold secondHalf centreTwin; split_ifs <;> omega

/-- The three `if` statements that set `ohVal` at centre edge `e`. -/
theorem ohVal_eq_centreTwin (E e old : Nat) :
    (if e % 3 = 2 then 2 * E + e + 0
      else if e % 3 = 1 then 1 * E + e + 1
      else if e % 3 = 0 then 3 * E + e + 2 else old) = centreTwin E e := by
  unfold centreTwin; split_ifs <;> omega

section Twins

variable {K : Type}

/-- The step `CalculateOtherHalfs` runs once the tables `firstHalfs` and `secondHalfs`
are filled, and builds the array described by `TwinsBuilt`. -/
theorem CalculateOtherHalfs_spec (s2 : Subdivide K) (E : Nat) (h3 : E % 3 = 0)
    (hlen : s2.des.faceVertices.length = 4 * E) (hnE : s2.nEdgesOld = E)
    (hnF : s2.nFacesOld = E / 3)
    (hfl : s2.firstHalfs.length = E)
    (hfh : ∀ i, i < E → s2.firstHalfs[i]? = some (firstHalf E i))
    (hsh : ∀ i, i < E → s2.secondHalfs[i]? = some (secondHalf E i))
    (hol : s2.des.otherHalf.length = E)
    (hoh : ∀ i, i < E → s2.des.otherHalf.getD i 0 < E) :
    ∃ a, CalculateOtherHalfs s2 = some { s2 with des := { s2.des with otherHalf := a } } ∧
      TwinsBuilt s2.des.otherHalf E a := by
  obtain ⟨a, ha, hal, hainv⟩ := forLoop_inv (CalculateOtherHalfs.splitBody s2)
    (fun k (a : List Nat) => a.length = 4 * E ∧ ∀ i, i < k →
      a[firstHalf E i]? = some (secondHalf E (s2.des.otherHalf.getD i 0)) ∧
      a[secondHalf E i]? = some (firstHalf E (s2.des.otherHalf.getD i 0)))
    s2.firstHalfs.length (List.replicate s2.des.faceVertices.length 0)
    ⟨by rw [List.length_replicate, hlen], fun i hi => absurd hi (Nat.not_lt_zero i)⟩
    (by
      intro k st hk ⟨hl, hst⟩
      rw [hfl] at hk
      have hok := hoh k hk
      have hread : s2.des.otherHalf[k]? = some (s2.des.otherHalf.getD k 0) :=
        getElem?_of_lt_getD (by omega)
      have b1 := firstHalf_lt h3 hk
      have b2 := secondHalf_lt h3 hk
      refine ⟨(st.set (firstHalf E k) (secondHalf E (s2.des.otherHalf.getD k 0))).set
        (secondHalf E k) (firstHalf E (s2.des.otherHalf.getD k 0)), ?_, ?_, ?_⟩
      · unfold CalculateOtherHalfs.splitBody
        rw [hfh k hk, andThen_some, hread, andThen_some, hsh _ hok, andThen_some,
          writeAt_of_lt _ (by omega), andThen_some, hsh k hk, andThen_some, hfh _ hok,
          andThen_some, writeAt_of_lt _ (by rw [List.length_set]; omega)]
      · rw [List.length_set, List.length_set]; exact hl
      · intro i hi
        by_cases hik : i = k
        · subst hik
          constructor
          · rw [List.getElem?_set_ne (Ne.symm (firstHalf_ne_secondHalf h3 hk hk)),
              List.getElem?_set_self (by omega)]
          · rw [List.getElem?_set_self (by rw [List.length_set]; omega)]
        · have hiE : i < E := by omega
          have n1 : firstHalf E k ≠ firstHalf E i :=
            fun hc => hik (firstHalf_injective h3 hk hiE hc).symm
          have n2 : secondHalf E k ≠ secondHalf E i :=
            fun hc => hik (secondHalf_injective h3 hk hiE hc).symm
          constructor
          · rw [List.getElem?_set_ne (Ne.symm (firstHalf_ne_secondHalf h3 hiE hk)),
              List.getElem?_set_ne n1]
            exact (hst i (by omega)).1
          · rw [List.getElem?_set_ne n2,
              List.getElem?_set_ne (firstHalf_ne_secondHalf h3 hk hiE)]
            exact (hst i (by omega)).2)
  obtain ⟨st, hst, hstl, hsplit, hcentre⟩ := forLoop_inv (CalculateOtherHalfs.centreBody s2)
    (fun k (st : List Nat × Nat) => st.1.length = 4 * E ∧
      (∀ i, i < E →
        st.1[firstHalf E i]? = some (secondHalf E (s2.des.otherHalf.getD i 0)) ∧
        st.1[secondHalf E i]? = some (firstHalf E (s2.des.otherHalf.getD i 0))) ∧
      ∀ e, e < k → st.1[e]? = some (centreTwin E e) ∧ st.1[centreTwin E e]? = some e)
    (3 * s2.nFacesOld) (a, minusOne)
    ⟨hal, fun i hi => hainv i (by rw [hfl]; exact hi),
      fun e he => absurd he (Nat.not_lt_zero e)⟩
    (by
      intro k st hk ⟨hl, hsp, hce⟩
      have hkE : k < E := by rw [hnF] at hk; omega
      have b1 := centreTwin_lt h3 hkE
      have b2 := le_centreTwin E k
      refine ⟨((st.1.set k (centreTwin E k)).set (centreTwin E k) k, centreTwin E k),
        ?_, ?_, ?_, ?_⟩
      · unfold CalculateOtherHalfs.centreBody
        dsimp only
        rw [hnE, ohVal_eq_centreTwin, writeAt_of_lt _ (by omega), andThen_some,
          writeAt_of_lt _ (by rw [List.length_set]; omega), andThen_some]
      · show ((st.1.set _ _).set _ _).length = _
        rw [List.length_set, List.length_set]; exact hl
      · intro i hi
        have c1 := le_firstHalf hi
        have c2 := le_secondHalf hi
        show ((st.1.set _ _).set _ _)[_]? = _ ∧ ((st.1.set _ _).set _ _)[_]? = _
        constructor
        · rw [List.getElem?_set_ne (Ne.symm (firstHalf_ne_centreTwin h3 hi hkE)),
            List.getElem?_set_ne (by omega)]
          exact (hsp i hi).1
        · rw [List.getElem?_set_ne (Ne.symm (secondHalf_ne_centreTwin h3 hi hkE)),
            List.getElem?_set_ne (by omega)]
          exact (hsp i hi).2
      · intro e he
        show ((st.1.set _ _).set _ _)[_]? = _ ∧ ((st.1.set _ _).set _ _)[_]? = _
        by_cases hek : e = k
        · subst hek
          constructor
          · rw [List.getElem?_set_ne (by omega), List.getElem?_set_self (by omega)]
          · rw [List.getElem?_set_self (by rw [List.length_set]; omega)]
        · have heE : e < E := by omega
          have c1 := le_centreTwin E e
          have n1 : centreTwin E k ≠ centreTwin E e :=
            fun hc => hek (centreTwin_injective h3 hkE heE hc).symm
          constructor
          · rw [List.getElem?_set_ne (by omega), List.getElem?_set_ne (Ne.symm hek)]
            exact (hce e (by omega)).1
          · rw [List.getElem?_set_ne n1, List.getElem?_set_ne (by omega)]
            exact (hce e (by omega)).2)
  refine ⟨st.1, ?_, hstl, fun i hi => (hsplit i hi).1, fun i hi => (hsplit i hi).2,
    fun e he => (hcentre e (by rw [hnF]; omega)).1,
    fun e he => (hcentre e (by rw [hnF]; omega)).2⟩
  unfold CalculateOtherHalfs
  dsimp only
  rw [ha, andThen_some, hst, andThen_some]

end Twins

/-! ## The whole pass -/

section Pass

variable {K : Type} [Field K]

omit [Field K] in
theorem countLower_lowerEdge_lt {m : DirectedEdgeSurface K} (hwf : WellFormed m) {j : Nat}
    (hj : j < m.faceVertices.length) :
    countLower m.otherHalf (lowerEdge m.otherHalf j) < m.faceVertices.length / 2 := by
  have htot := two_mul_countLower m.otherHalf m.faceVertices.length
    hwf.otherHalf_lt hwf.otherHalf_ne hwf.otherHalf_invol
  obtain ⟨h1, h2⟩ := lowerEdge_lower hwf hj
  have := countLower_lt_of_lower m.otherHalf h1 h2
  omega

/-- The three connectivity steps run in sequence on a well-formed mesh. -/
theorem rebuild_spec (unit : Cartesian3 K → Cartesian3 K) (s : Subdivide K)
    (hwf : WellFormed s.des) :
    ∃ s1 s2 s3, InsertEdgeVertices unit s = some s1 ∧ CalculateFaces s1 = some s2 ∧
      CalculateOtherHalfs s2 = some s3 ∧
      InsertedUpTo unit s s.des.otherHalf.length (s1, s.des.otherHalf.length / 2) ∧
      s2.edgeNewVertex = s1.edgeNewVertex ∧ s2.des.vertices = s1.des.vertices ∧
      s2.des.otherHalf = s.des.otherHalf ∧
      s3 = { s2 with des := { s2.des with otherHalf := s3.des.otherHalf } } ∧
      s3.newVertexPositions = s.newVertexPositions ∧
      Rebuilt unit s.des s3 := by
  have hE := hwf.otherHalf_length
  obtain ⟨s1, hs1, hins⟩ := InsertEdgeVertices_spec unit s hwf
  have e1 : s1.des.faceVertices = s.des.faceVertices := hins.faceVertices
  have e2 : s1.des.otherHalf = s.des.otherHalf := hins.otherHalf
  have e3 : s1.des.firstDirectedEdge = s.des.firstDirectedEdge := hins.firstDirectedEdge
  have e4 : s1.edgeNewVertex.length = s.des.otherHalf.length := hins.edgeNewVertex_length
  have henv : ∀ j, j < s.des.faceVertices.length → s1.edgeNewVertex[j]?
      = some (s.des.vertices.length
          + countLower s.des.otherHalf (lowerEdge s.des.otherHalf j)) := by
    intro j hj
    exact hins.edgeNewVertex j (by omega) (by
      have := (lowerEdge_lower hwf hj).1
      omega)
  have henvD : ∀ j, j < s.des.faceVertices.length → s1.edgeNewVertex.getD j 0
      = s.des.vertices.length
          + countLower s.des.otherHalf (lowerEdge s.des.otherHalf j) := by
    intro j hj
    rw [List.getD_eq_getElem?_getD, henv j hj]; rfl
  obtain ⟨st, hs2, hfaces⟩ := CalculateFaces_spec s1 (by rw [e4, e1, hE])
    (by
      intro e he
      rw [e1] at he
      have := countLower_lowerEdge_lt hwf he
      rw [e3, e2, henvD e he, hwf.firstDirectedEdge_length, hE]
      omega)
    (by rw [e1]; exact hwf.fits)
  rw [e1, e2, e3] at hfaces
  have hq : 3 * (s.des.faceVertices.length / 3) = s.des.faceVertices.length := by
    have := hwf.triples
    omega
  obtain ⟨a, hs3, htw⟩ := CalculateOtherHalfs_spec
    ({ s1 with
        nFacesOld := s1.des.faceVertices.length / 3
        nEdgesOld := s1.des.faceVertices.length
        firstHalfs := st.firstHalfs
        secondHalfs := st.secondHalfs
        des := { s1.des with
          faceVertices := st.newFaceVertices
          firstDirectedEdge := st.newFDE } } : Subdivide K)
    s.des.faceVertices.length hwf.triples hfaces.blocks.length
    (by rw [← e1]) (by rw [← e1]) hfaces.firstHalfs_length
    (fun i hi => hfaces.firstHalfs i (by omega))
    (fun i hi => hfaces.secondHalfs i (by omega))
    (by show s1.des.otherHalf.length = _; rw [e2, hE])
    (by
      intro i hi
      show s1.des.otherHalf.getD i 0 < _
      rw [e2]; exact hwf.otherHalf_lt i hi)
  refine ⟨s1, _, _, hs1, hs2, hs3, hins, rfl, rfl, e2, rfl, hins.newVertexPositions, ?_⟩
  constructor
  · exact hins.nVerticesOld
  · exact e1 ▸ rfl
  · exact e1 ▸ rfl
  · show s1.des.vertices.length = _
    rw [hins.vertices_length, hE]
  · show s1.des.normals.length = _
    rw [hins.normals_length, hE]
  · exact hins.old_vertices
  · exact hins.old_normals
  · intro e he hl
    exact hins.new_vertices e (by omega) hl
  · intro e he hl
    exact hins.new_normals e (by omega) hl
  · show s1.edgeNewVertex.length = _
    rw [e4, hE]
  · exact henv
  · exact hfaces.blocks
  · exact hfaces.firstHalfs_length
  · exact hfaces.secondHalfs_length
  · intro i hi; exact hfaces.firstHalfs i (by omega)
  · intro i hi; exact hfaces.secondHalfs i (by omega)
  · show st.newFDE.length = _
    rw [hfaces.newFDE_length, hwf.firstDirectedEdge_length, hE]
  · intro v hv
    exact hfaces.old_fde v (by rw [hwf.firstDirectedEdge_length]; exact hv)
      (by have := hwf.firstDirectedEdge_lt v hv; omega)
  · have := hfaces.midpoints
    rw [hwf.firstDirectedEdge_length, hE, hq] at this
    exact this
  · have : TwinsBuilt s1.des.otherHalf s.des.faceVertices.length a := htw
    rw [e2] at this
    exact this


omit [Field K] in
/-- The step `ApplyVertexPositions` overwrites the first entries of `vertices` with the
buffer and nothing else. -/
theorem ApplyVertexPositions_spec (t : Subdivide K)
    (hlen : t.newVertexPositions.length ≤ t.des.vertices.length) :
    ∃ vs, ApplyVertexPositions t = some { t with des := { t.des with vertices := vs } } ∧
      vs.length = t.des.vertices.length ∧
      (∀ i, i < t.newVertexPositions.length → vs[i]? = t.newVertexPositions[i]?) ∧
      (∀ i, t.newVertexPositions.length ≤ i → vs[i]? = t.des.vertices[i]?) := by
  obtain ⟨vs, hvs, hl, hinv⟩ := forLoop_inv
    (fun i vs => andThen (t.newVertexPositions[i]?) fun p => writeAt vs i p)
    (fun k (vs : List (Cartesian3 K)) => vs.length = t.des.vertices.length ∧
      ∀ i, vs[i]? = if i < k then t.newVertexPositions[i]? else t.des.vertices[i]?)
    t.newVertexPositions.length t.des.vertices
    ⟨rfl, fun i => by rw [if_neg (Nat.not_lt_zero i)]⟩
    (by
      intro k st hk ⟨hl, hst⟩
      refine ⟨st.set k t.newVertexPositions[k], ?_, by rw [List.length_set]; exact hl, ?_⟩
      · beta_reduce
        rw [List.getElem?_eq_getElem hk, andThen_some, writeAt_of_lt _ (by omega)]
      · intro i
        rw [getElem?_set_of_lt _ _ _ _ (by omega)]
        by_cases hik : k = i
        · subst hik
          rw [if_pos rfl, if_pos (Nat.lt_succ_self _), List.getElem?_eq_getElem hk]
        · rw [if_neg hik, hst i]
          by_cases hlt : i < k
          · rw [if_pos hlt, if_pos (by omega)]
          · rw [if_neg hlt, if_neg (by omega)])
  refine ⟨vs, ?_, hl, fun i hi => by rw [hinv i, if_pos hi],
    fun i hi => by rw [hinv i, if_neg (by omega)]⟩
  unfold ApplyVertexPositions
  rw [hvs, andThen_some]

/-- The whole pass runs on a well-formed mesh, given fuel above the number of
directed edges.  The five steps run through the states `s0`, `s1`, `s2`, `t` and
the result; the connectivity of the result is the one left by the three
rebuilding steps in `t`, the old vertices hold their smoothed positions, and
the vertices beyond them are those of `t`. -/
theorem StartSubdivision_spec (fuel : Nat) (FindAlpha : Nat → K)
    (unit : Cartesian3 K → Cartesian3 K) (s : Subdivide K) (hwf : WellFormed s.des)
    (hfuel : s.des.faceVertices.length < fuel) :
    ∃ s0 s1 s2 t vs, SmoothVertices fuel FindAlpha s = some s0 ∧
      InsertEdgeVertices unit s0 = some s1 ∧ CalculateFaces s1 = some s2 ∧
      CalculateOtherHalfs s2 = some t ∧
      ApplyVertexPositions t = some { t with des := { t.des with vertices := vs } } ∧
      StartSubdivision fuel FindAlpha unit s
        = some { t with des := { t.des with vertices := vs } } ∧
      s0 = { s with newVertexPositions := t.newVertexPositions } ∧
      Rebuilt unit s.des t ∧
      vs.length = s.des.vertices.length + s.des.faceVertices.length / 2 ∧
      (∀ v, v < s.des.vertices.length → ∃ ring, OneRing fuel s v = some ring ∧
        0 < ring.length ∧ ring.length ≤ s.des.faceVertices.length ∧
        (∀ w, w ∈ ring → w < s.des.vertices.length) ∧
        t.newVertexPositions[v]?
          = some ((1 - (ring.length : K) * FindAlpha ring.length) • position s.des v
            + FindAlpha ring.length • sumPositions s.des ring) ∧
        vs[v]? = t.newVertexPositions[v]?) ∧
      (∀ i, s.des.vertices.length ≤ i → vs[i]? = t.des.vertices[i]?) := by
  obtain ⟨r, hsm, hrl, hr⟩ := SmoothVertices_spec fuel FindAlpha s hwf hfuel
  obtain ⟨s1, s2, s3, h1, h2, h3, _, _, _, _, _, hnp, hreb⟩ :=
    rebuild_spec unit ({ s with newVertexPositions := r } : Subdivide K) hwf
  have hnp1 : s3.newVertexPositions = r := hnp
  obtain ⟨vs, h4, hvl, hlo, hhi⟩ := ApplyVertexPositions_spec s3
    (by rw [hnp1, hrl, hreb.vertices_length]; exact Nat.le_add_right _ _)
  refine ⟨_, s1, s2, s3, vs, hsm, h1, h2, h3, h4, ?_, by rw [hnp1], hreb,
    by rw [hvl]; exact hreb.vertices_length, ?_, ?_⟩
  · unfold StartSubdivision
    rw [hsm, andThen_some, h1, andThen_some, h2, andThen_some, h3, andThen_some, h4]
  · intro v hv
    obtain ⟨ring, g1, g2, g3, g4, g5⟩ := hr v hv
    exact ⟨ring, g1, g2, g3, g4, by rw [hnp1]; exact g5,
      hlo v (by rw [hnp1, hrl]; exact hv)⟩
  · intro i hi
    exact hhi i (by rw [hnp1, hrl]; exact hi)

end Pass

/-! ## The new edges, one by one -/

/-- Every new edge is a centre edge, the corner edge paired with a centre
edge, the first half of an old edge or the second half of an old edge. -/
theorem edge_cases {E e : Nat} (h3 : E % 3 = 0) (he : e < 4 * E) :
    e < E ∨ (∃ c, c < E ∧ e = centreTwin E c) ∨ (∃ i, i < E ∧ e = firstHalf E i) ∨
      (∃ i, i < E ∧ e = secondHalf E i) := by
  by_cases h0 : e < E
  · exact Or.inl h0
  · right
    by_cases h1 : e < 2 * E
    · rcases (show (e - E) % 3 = 0 ∨ (e - E) % 3 = 1 ∨ (e - E) % 3 = 2 by omega) with r | r | r
      · exact Or.inr (Or.inr ⟨e - E, by omega, by unfold secondHalf; split_ifs; omega⟩)
      · exact Or.inr (Or.inl ⟨e - E, by omega, by unfold firstHalf; split_ifs <;> omega⟩)
      · exact Or.inl ⟨e - E - 1, by omega, by unfold centreTwin; split_ifs <;> omega⟩
    · by_cases h2 : e < 3 * E
      · rcases (show (e - 2 * E) % 3 = 0 ∨ (e - 2 * E) % 3 = 1 ∨ (e - 2 * E) % 3 = 2 by omega)
          with r | r | r
        · exact Or.inr (Or.inr ⟨e - 2 * E + 1, by omega,
            by unfold secondHalf; split_ifs <;> omega⟩)
        · exact Or.inr (Or.inl ⟨e - 2 * E + 1, by omega,
            by unfold firstHalf; split_ifs <;> omega⟩)
        · exact Or.inl ⟨e - 2 * E, by omega, by unfold centreTwin; split_ifs <;> omega⟩
      · rcases (show (e - 3 * E) % 3 = 0 ∨ (e - 3 * E) % 3 = 1 ∨ (e - 3 * E) % 3 = 2 by omega)
          with r | r | r
        · exact Or.inr (Or.inr ⟨e - 3 * E + 2, by omega,
            by unfold secondHalf; split_ifs <;> omega⟩)
        · exact Or.inr (Or.inl ⟨e - 3 * E - 1, by omega,
            by unfold firstHalf; split_ifs <;> omega⟩)
        · exact Or.inl ⟨e - 3 * E - 2, by omega, by unfold centreTwin; split_ifs <;> omega⟩

/-- The endpoints of the new edges, read off the four blocks: a centre edge
`c` points to the midpoint of the old edge `c`; the first half of an old edge
`i` runs from the source of `i` to its midpoint, the second half from the
midpoint to the target of `i`; the corner edge paired with the centre edge `i`
runs from the midpoint of `i` to the midpoint of the edge before `i`. -/
theorem BlocksUpTo.edges {fv env a : List Nat} (h3 : fv.length % 3 = 0)
    (h : BlocksUpTo fv env (fv.length / 3) a) {i : Nat} (hi : i < fv.length) :
    a[i]? = some (env.getD i 0) ∧
    a[firstHalf fv.length i]? = some (env.getD i 0) ∧
    a[prevEdge (firstHalf fv.length i)]? = some (fv.getD (prevEdge i) 0) ∧
    a[secondHalf fv.length i]? = some (fv.getD i 0) ∧
    a[prevEdge (secondHalf fv.length i)]? = some (env.getD i 0) ∧
    a[centreTwin fv.length i]? = some (env.getD (prevEdge i) 0) ∧
    a[prevEdge (centreTwin fv.length i)]? = some (env.getD i 0) := by
  rcases (show i % 3 = 0 ∨ i % 3 = 1 ∨ i % 3 = 2 by omega) with r | r | r
  · obtain ⟨f, rfl⟩ : ∃ f, i = 3 * f := ⟨i / 3, by omega⟩
    have hf : f < fv.length / 3 := by omega
    obtain ⟨c0, _, _⟩ := h.centre f hf
    obtain ⟨p0, _, p2⟩ := h.corner0 f hf
    obtain ⟨r0, r1, r2⟩ := h.corner2 f hf
    have e1 : firstHalf fv.length (3 * f) = 3 * fv.length + 3 * f + 1 := by
      unfold firstHalf; split_ifs; omega
    have e2 : prevEdge (3 * fv.length + 3 * f + 1) = 3 * fv.length + 3 * f := by
      unfold prevEdge; omega
    have e3 : secondHalf fv.length (3 * f) = fv.length + 3 * f := by
      unfold secondHalf; split_ifs; omega
    have e4 : prevEdge (fv.length + 3 * f) = fv.length + 3 * f + 2 := by
      unfold prevEdge; omega
    have e5 : centreTwin fv.length (3 * f) = 3 * fv.length + 3 * f + 2 := by
      unfold centreTwin; split_ifs; omega
    have e6 : prevEdge (3 * fv.length + 3 * f + 2) = 3 * fv.length + 3 * f + 1 := by
      unfold prevEdge; omega
    have e7 : prevEdge (3 * f) = 3 * f + 2 := by unfold prevEdge; omega
    rw [e1, e2, e3, e4, e5, e6, e7]
    exact ⟨c0, r1, r0, p0, p2, r2, r1⟩
  · obtain ⟨f, rfl⟩ : ∃ f, i = 3 * f + 1 := ⟨i / 3, by omega⟩
    have hf : f < fv.length / 3 := by omega
    obtain ⟨_, c1, _⟩ := h.centre f hf
    obtain ⟨p0, p1, p2⟩ := h.corner0 f hf
    obtain ⟨q0, _, q2⟩ := h.corner1 f hf
    have e1 : firstHalf fv.length (3 * f + 1) = fv.length + 3 * f + 1 := by
      unfold firstHalf; split_ifs <;> omega
    have e2 : prevEdge (fv.length + 3 * f + 1) = fv.length + 3 * f := by
      unfold prevEdge; omega
    have e3 : secondHalf fv.length (3 * f + 1) = 2 * fv.length + 3 * f := by
      unfold secondHalf; split_ifs <;> omega
    have e4 : prevEdge (2 * fv.length + 3 * f) = 2 * fv.length + 3 * f + 2 := by
      unfold prevEdge; omega
    have e5 : centreTwin fv.length (3 * f + 1) = fv.length + 3 * f + 2 := by
      unfold centreTwin; split_ifs <;> omega
    have e6 : prevEdge (fv.length + 3 * f + 2) = fv.length + 3 * f + 1 := by
      unfold prevEdge; omega
    have e7 : prevEdge (3 * f + 1) = 3 * f := by unfold prevEdge; omega
    rw [e1, e2, e3, e4, e5, e6, e7]
    exact ⟨c1, p1, p0, q0, q2, p2, p1⟩
  · obtain ⟨f, rfl⟩ : ∃ f, i = 3 * f + 2 := ⟨i / 3, by omega⟩
    have hf : f < fv.length / 3 := by omega
    obtain ⟨_, _, c2⟩ := h.centre f hf
    obtain ⟨q0, q1, q2⟩ := h.corner1 f hf
    obtain ⟨r0, _, r2⟩ := h.corner2 f hf
    have e1 : firstHalf fv.length (3 * f + 2) = 2 * fv.length + 3 * f + 1 := by
      unfold firstHalf; split_ifs <;> omega
    have e2 : prevEdge (2 * fv.length + 3 * f + 1) = 2 * fv.length + 3 * f := by
      unfold prevEdge; omega
    have e3 : secondHalf fv.length (3 * f + 2) = 3 * fv.length + 3 * f := by
      unfold secondHalf; split_ifs <;> omega
    have e4 : prevEdge (3 * fv.length + 3 * f) = 3 * fv.length + 3 * f + 2 := by
      unfold prevEdge; omega
    have e5 : centreTwin fv.length (3 * f + 2) = 2 * fv.length + 3 * f + 2 := by
      unfold centreTwin; split_ifs <;> omega
    have e6 : prevEdge (2 * fv.length + 3 * f + 2) = 2 * fv.length + 3 * f + 1 := by
      unfold prevEdge; omega
    have e7 : prevEdge (3 * f + 2) = 3 * f + 1 := by unfold prevEdge; omega
    rw [e1, e2, e3, e4, e5, e6, e7]
    exact ⟨c2, q1, q0, r0, r2, q2, q1⟩

/-! ## The tetrahedron -/

theorem tetrahedron_wellFormed : WellFormed tetrahedron where
  normals_length := by decide
  firstDirectedEdge_length := by decide
  otherHalf_length := by decide
  triples := by decide
  fits := by decide
  faceVertices_lt := by decide
  otherHalf_lt := by decide
  otherHalf_ne := by decide
  otherHalf_invol := by decide
  firstDirectedEdge_lt := by decide

theorem tetrahedron_directionConsistent : DirectionConsistent tetrahedron := by
  unfold DirectionConsistent; decide

theorem tetrahedron_firstEdgesLeave : FirstEdgesLeave tetrahedron := by
  unfold FirstEdgesLeave; decide

theorem tetrahedron_not_self_glued :
    ∀ e, e < tetrahedron.faceVertices.length → tetrahedron.otherHalf.getD e 0 ≠ nextEdge e := by
  decide

theorem icosahedron_wellFormed : WellFormed icosahedron where
  normals_length := by decide
  firstDirectedEdge_length := by decide
  otherHalf_length := by decide
  triples := by decide
  fits := by decide
  faceVertices_lt := by decide
  otherHalf_lt := by decide
  otherHalf_ne := by decide
  otherHalf_invol := by decide
  firstDirectedEdge_lt := by decide

/-! ## Consequences for the rebuilt mesh -/

theorem getD_of_getElem? {α : Type} {l : List α} {i : Nat} {x d : α} (h : l[i]? = some x) :
    l.getD i d = x := by
  rw [List.getD_eq_getElem?_getD, h]; rfl

theorem twelve_mul_faceCount {K : Type} {m : DirectedEdgeSurface K} (hwf : WellFormed m) :
    12 * faceCount m = 4 * m.faceVertices.length := by
  have := hwf.triples
  unfold faceCount
  omega

/-- The array built by `CalculateOtherHalfs` from a fixed-point-free involution
is a fixed-point-free involution of the new edges. -/
theorem TwinsBuilt.involution {K : Type} {m : DirectedEdgeSurface K} (hwf : WellFormed m)
    {a : List Nat} (h : TwinsBuilt m.otherHalf m.faceVertices.length a) {e : Nat}
    (he : e < 4 * m.faceVertices.length) :
    a.getD e 0 < 4 * m.faceVertices.length ∧ a.getD (a.getD e 0) 0 = e ∧ a.getD e 0 ≠ e := by
  have h3 := hwf.triples
  rcases edge_cases h3 he with hc | ⟨c, hc, rfl⟩ | ⟨i, hi, rfl⟩ | ⟨i, hi, rfl⟩
  · rw [getD_of_getElem? (h.centre e hc), getD_of_getElem? (h.centre_back e hc)]
    have := le_centreTwin m.faceVertices.length e
    exact ⟨centreTwin_lt h3 hc, rfl, by omega⟩
  · rw [getD_of_getElem? (h.centre_back c hc), getD_of_getElem? (h.centre c hc)]
    have := le_centreTwin m.faceVertices.length c
    exact ⟨by omega, rfl, by omega⟩
  · have ho := hwf.otherHalf_lt i hi
    rw [getD_of_getElem? (h.split_first i hi), getD_of_getElem? (h.split_second _ ho),
      hwf.otherHalf_invol i hi]
    exact ⟨secondHalf_lt h3 ho, rfl, Ne.symm (firstHalf_ne_secondHalf h3 hi ho)⟩
  · have ho := hwf.otherHalf_lt i hi
    rw [getD_of_getElem? (h.split_second i hi), getD_of_getElem? (h.split_first _ ho),
      hwf.otherHalf_invol i hi]
    exact ⟨firstHalf_lt h3 ho, rfl, firstHalf_ne_secondHalf h3 ho hi⟩

section Rebuilt

variable {K : Type} [Field K] {unit : Cartesian3 K → Cartesian3 K}
  {m : DirectedEdgeSurface K} {t : Subdivide K}

/-- The entry of `edgeNewVertex` at an old edge. -/
theorem Rebuilt.edgeNewVertex_getD (h : Rebuilt unit m t) {j : Nat}
    (hj : j < m.faceVertices.length) :
    t.edgeNewVertex.getD j 0
      = m.vertices.length + countLower m.otherHalf (lowerEdge m.otherHalf j) :=
  getD_of_getElem? (h.edgeNewVertex j hj)

/-- An old edge and its twin have the same new vertex, which is a new index. -/
theorem Rebuilt.edgeNewVertex_twin (hwf : WellFormed m) (h : Rebuilt unit m t) {j : Nat}
    (hj : j < m.faceVertices.length) :
    t.edgeNewVertex.getD (m.otherHalf.getD j 0) 0 = t.edgeNewVertex.getD j 0 ∧
    m.vertices.length ≤ t.edgeNewVertex.getD j 0 ∧
    t.edgeNewVertex.getD j 0 < m.vertices.length + m.faceVertices.length / 2 := by
  have := countLower_lowerEdge_lt hwf hj
  rw [h.edgeNewVertex_getD hj, h.edgeNewVertex_getD (hwf.otherHalf_lt j hj),
    lowerEdge_otherHalf hwf hj]
  exact ⟨rfl, by omega, by omega⟩

/-- Two old edges with the same new vertex are equal or twins. -/
theorem Rebuilt.edgeNewVertex_injective (hwf : WellFormed m) (h : Rebuilt unit m t)
    {a b : Nat} (ha : a < m.faceVertices.length) (hb : b < m.faceVertices.length)
    (hab : t.edgeNewVertex.getD a 0 = t.edgeNewVertex.getD b 0) :
    b = a ∨ b = m.otherHalf.getD a 0 := by
  rw [h.edgeNewVertex_getD ha, h.edgeNewVertex_getD hb] at hab
  have hl : lowerEdge m.otherHalf a = lowerEdge m.otherHalf b :=
    countLower_injective_on_lower m.otherHalf (lowerEdge_lower hwf ha).2
      (lowerEdge_lower hwf hb).2 (by omega)
  have ia := hwf.otherHalf_invol a ha
  have ib := hwf.otherHalf_invol b hb
  rcases lowerEdge_cases hwf ha with ⟨h1, _⟩ | ⟨h1, _⟩ <;>
    rcases lowerEdge_cases hwf hb with ⟨h2, _⟩ | ⟨h2, _⟩
  · left; omega
  · right; rw [← ib, ← h2, ← hl, h1]
  · right; rw [← h1, hl, h2]
  · left
    have : m.otherHalf.getD a 0 = m.otherHalf.getD b 0 := by omega
    exact (otherHalf_injective hwf ha hb this).symm

/-- The rebuilt mesh is direction-consistent when the old one is. -/
theorem Rebuilt.directionConsistent (hwf : WellFormed m) (h : Rebuilt unit m t)
    (hdc : DirectionConsistent m) {e : Nat} (he : e < 4 * m.faceVertices.length) :
    t.des.faceVertices.getD (t.des.otherHalf.getD e 0) 0
      = t.des.faceVertices.getD (prevEdge e) 0 ∧
    t.des.faceVertices.getD (prevEdge (t.des.otherHalf.getD e 0)) 0
      = t.des.faceVertices.getD e 0 := by
  have h3 := hwf.triples
  have hb := fun i hi => h.blocks.edges (i := i) h3 hi
  rcases edge_cases h3 he with hc | ⟨c, hc, rfl⟩ | ⟨i, hi, rfl⟩ | ⟨i, hi, rfl⟩
  · obtain ⟨b0, _, _, _, _, b5, b6⟩ := hb e hc
    obtain ⟨p0, _⟩ := hb (prevEdge e) (prevEdge_lt h3 hc)
    rw [getD_of_getElem? (h.twins.centre e hc), getD_of_getElem? b5, getD_of_getElem? b6,
      getD_of_getElem? p0, getD_of_getElem? b0]
    exact ⟨rfl, rfl⟩
  · obtain ⟨b0, _, _, _, _, b5, b6⟩ := hb c hc
    obtain ⟨p0, _⟩ := hb (prevEdge c) (prevEdge_lt h3 hc)
    rw [getD_of_getElem? (h.twins.centre_back c hc), getD_of_getElem? b5,
      getD_of_getElem? b6, getD_of_getElem? p0, getD_of_getElem? b0]
    exact ⟨rfl, rfl⟩
  · have ho := hwf.otherHalf_lt i hi
    obtain ⟨_, b1, b2, _⟩ := hb i hi
    obtain ⟨_, _, _, c3, c4, _⟩ := hb _ ho
    rw [getD_of_getElem? (h.twins.split_first i hi), getD_of_getElem? b1,
      getD_of_getElem? b2, getD_of_getElem? c3, getD_of_getElem? c4,
      (h.edgeNewVertex_twin hwf hi).1]
    exact ⟨hdc i hi, rfl⟩
  · have ho := hwf.otherHalf_lt i hi
    obtain ⟨_, _, _, b3, b4, _⟩ := hb i hi
    obtain ⟨_, c1, c2, _⟩ := hb _ ho
    rw [getD_of_getElem? (h.twins.split_second i hi), getD_of_getElem? b3,
      getD_of_getElem? b4, getD_of_getElem? c1, getD_of_getElem? c2,
      (h.edgeNewVertex_twin hwf hi).1]
    have := hdc _ ho
    rw [hwf.otherHalf_invol i hi] at this
    exact ⟨rfl, this.symm⟩


/-- Every entry of the new `faceVertices` is a vertex of the new mesh. -/
theorem Rebuilt.faceVertices_lt (hwf : WellFormed m) (h : Rebuilt unit m t) {e : Nat}
    (he : e < 4 * m.faceVertices.length) :
    t.des.faceVertices.getD e 0 < m.vertices.length + m.faceVertices.length / 2 := by
  have h3 := hwf.triples
  have hb := fun i hi => h.blocks.edges (i := i) h3 hi
  rcases edge_cases h3 he with hc | ⟨c, hc, rfl⟩ | ⟨i, hi, rfl⟩ | ⟨i, hi, rfl⟩
  · obtain ⟨b0, _⟩ := hb e hc
    rw [getD_of_getElem? b0]
    exact (h.edgeNewVertex_twin hwf hc).2.2
  · obtain ⟨_, _, _, _, _, b5, _⟩ := hb c hc
    rw [getD_of_getElem? b5]
    exact (h.edgeNewVertex_twin hwf (prevEdge_lt h3 hc)).2.2
  · obtain ⟨_, b1, _⟩ := hb i hi
    rw [getD_of_getElem? b1]
    exact (h.edgeNewVertex_twin hwf hi).2.2
  · obtain ⟨_, _, _, b3, _⟩ := hb i hi
    rw [getD_of_getElem? b3]
    have := hwf.faceVertices_lt i hi
    omega

/-- Every new vertex is the midpoint of some old edge. -/
theorem Rebuilt.exists_edge_of_new_vertex (hwf : WellFormed m) (h : Rebuilt unit m t)
    {v : Nat} (hv1 : m.vertices.length ≤ v)
    (hv2 : v < m.vertices.length + m.faceVertices.length / 2) :
    ∃ e, e < m.faceVertices.length ∧ t.edgeNewVertex.getD e 0 = v := by
  have htot := two_mul_countLower m.otherHalf m.faceVertices.length
    hwf.otherHalf_lt hwf.otherHalf_ne hwf.otherHalf_invol
  obtain ⟨e, he, hlow, hcnt⟩ := exists_lower_of_lt_countLower m.otherHalf
    m.faceVertices.length (v - m.vertices.length) (by omega)
  refine ⟨e, he, ?_⟩
  have hl : lowerEdge m.otherHalf e = e := by unfold lowerEdge; rw [if_pos hlow]
  rw [h.edgeNewVertex_getD he, hl, hcnt]
  omega

/-- The first directed edge of every vertex of the rebuilt mesh is a new edge,
not the value `-1`, and leaves the vertex. -/
theorem Rebuilt.firstEdge (hwf : WellFormed m) (h : Rebuilt unit m t)
    (hfe : FirstEdgesLeave m) {v : Nat}
    (hv : v < m.vertices.length + m.faceVertices.length / 2) :
    t.des.firstDirectedEdge.getD v 0 < 4 * m.faceVertices.length ∧
    t.des.firstDirectedEdge.getD v 0 ≠ minusOne ∧
    t.des.faceVertices.getD (prevEdge (t.des.firstDirectedEdge.getD v 0)) 0 = v := by
  have h3 := hwf.triples
  have hfits := hwf.fits
  have hb := fun i hi => h.blocks.edges (i := i) h3 hi
  by_cases hold : v < m.vertices.length
  · have hd := hwf.firstDirectedEdge_lt v hold
    obtain ⟨_, _, b2, _⟩ := hb _ hd
    have hlt := firstHalf_lt h3 hd
    rw [getD_of_getElem? (h.old_fde v hold), getD_of_getElem? b2]
    exact ⟨hlt, by unfold minusOne; omega, hfe v hold⟩
  · obtain ⟨e, he, hev⟩ := h.exists_edge_of_new_vertex hwf (by omega) hv
    obtain ⟨e0, he0, hm0, hfirst⟩ := exists_first_midpoint t.edgeNewVertex
      m.faceVertices.length v ⟨e, he, hev⟩
    have hn := nextEdge_lt h3 he0
    obtain ⟨b0, _⟩ := hb e0 he0
    rw [getD_of_getElem? (h.midpoints.first v (by omega) hv e0 he0 hm0 hfirst),
      prevEdge_nextEdge, getD_of_getElem? b0]
    exact ⟨by omega, by unfold minusOne; omega, hm0⟩

/-- In a mesh where no face is glued to itself along consecutive edges, the
first directed edge of every vertex of the rebuilt mesh points to another
vertex. -/
theorem Rebuilt.firstEdge_target_ne (hwf : WellFormed m) (h : Rebuilt unit m t)
    (hng : ∀ e, e < m.faceVertices.length → m.otherHalf.getD e 0 ≠ nextEdge e) {v : Nat}
    (hv : v < m.vertices.length + m.faceVertices.length / 2) :
    t.des.faceVertices.getD (t.des.firstDirectedEdge.getD v 0) 0 ≠ v := by
  have h3 := hwf.triples
  have hb := fun i hi => h.blocks.edges (i := i) h3 hi
  by_cases hold : v < m.vertices.length
  · have hd := hwf.firstDirectedEdge_lt v hold
    obtain ⟨_, b1, _⟩ := hb _ hd
    have := (h.edgeNewVertex_twin hwf hd).2.1
    rw [getD_of_getElem? (h.old_fde v hold), getD_of_getElem? b1]
    omega
  · obtain ⟨e, he, hev⟩ := h.exists_edge_of_new_vertex hwf (by omega) hv
    obtain ⟨e0, he0, hm0, hfirst⟩ := exists_first_midpoint t.edgeNewVertex
      m.faceVertices.length v ⟨e, he, hev⟩
    have hn := nextEdge_lt h3 he0
    obtain ⟨b0, _⟩ := hb _ hn
    rw [getD_of_getElem? (h.midpoints.first v (by omega) hv e0 he0 hm0 hfirst),
      getD_of_getElem? b0, ← hm0]
    intro hcon
    rcases h.edgeNewVertex_injective hwf he0 hn hcon.symm with h1 | h1
    · unfold nextEdge at h1; omega
    · exact hng e0 he0 h1.symm

/-- The weighted average at an edge and at its twin are the same vector. -/
theorem edgePosition_twin (hwf : WellFormed m) {e : Nat} (he : e < m.faceVertices.length) :
    edgePosition m (m.otherHalf.getD e 0) = edgePosition m e := by
  unfold edgePosition
  rw [hwf.otherHalf_invol e he,
    Cartesian3.add_comm3 (position m (m.faceVertices.getD (m.otherHalf.getD e 0) 0)),
    Cartesian3.add_comm3
      (position m (m.faceVertices.getD (nextEdge (m.otherHalf.getD e 0)) 0))]

/-- The position stored for the new vertex of an old edge. -/
theorem Rebuilt.edgeNewVertex_position (hwf : WellFormed m) (h : Rebuilt unit m t) {e : Nat}
    (he : e < m.faceVertices.length) :
    t.des.vertices[t.edgeNewVertex.getD e 0]? = some (edgePosition m e) := by
  rw [h.edgeNewVertex_getD he]
  obtain ⟨h1, h2⟩ := lowerEdge_lower hwf he
  rw [h.new_vertices _ h1 h2]
  rcases lowerEdge_cases hwf he with ⟨hc, _⟩ | ⟨hc, _⟩
  · rw [hc]
  · rw [hc, edgePosition_twin hwf he]

end Rebuilt

/-! ## The claims -/

section Claims

variable {K : Type} [Field K]

/-- C1. On a well-formed mesh with `F` faces (`otherHalf` a fixed-point-free
involution of `[0, 3 F)`), `StartSubdivision` returns and the new `otherHalf`
array has length `12 F` and is again a fixed-point-free involution: for every
`e < 12 F`, `otherHalf[e] < 12 F`, `otherHalf[otherHalf[e]] = e` and
`otherHalf[e] ≠ e`. -/
theorem C1_otherHalf_involution (fuel : Nat) (FindAlpha : Nat → K)
    (unit : Cartesian3 K → Cartesian3 K) (s : Subdivide K) (hwf : WellFormed s.des)
    (hfuel : s.des.faceVertices.length < fuel) :
    ∃ r, StartSubdivision fuel FindAlpha unit s = some r ∧
      r.des.otherHalf.length = 12 * faceCount s.des ∧
      ∀ e, e < 12 * faceCount s.des →
        r.des.otherHalf.getD e 0 < 12 * faceCount s.des ∧
        r.des.otherHalf.getD (r.des.otherHalf.getD e 0) 0 = e ∧
        r.des.otherHalf.getD e 0 ≠ e := by
  obtain ⟨_, _, _, t, vs, _, _, _, _, _, hrun, _, hreb, _⟩ :=
    StartSubdivision_spec fuel FindAlpha unit s hwf hfuel
  refine ⟨_, hrun, ?_, ?_⟩
  · rw [twelve_mul_faceCount hwf]; exact hreb.twins.length
  · intro e he
    rw [twelve_mul_faceCount hwf] at he ⊢
    exact hreb.twins.involution hwf he

/-- C1 at the tetrahedron. -/
theorem C1_otherHalf_involution_witness :
    WellFormed (Subdivide.new tetrahedron).des ∧
    (Subdivide.new tetrahedron).des.faceVertices.length < 13 ∧
    ∃ r, StartSubdivision 13 (fun _ => (3 : ℚ) / 16) id (Subdivide.new tetrahedron) = some r ∧
      r.des.otherHalf.length = 12 * faceCount (Subdivide.new tetrahedron).des ∧
      ∀ e, e < 12 * faceCount (Subdivide.new tetrahedron).des →
        r.des.otherHalf.getD e 0 < 12 * faceCount (Subdivide.new tetrahedron).des ∧
        r.des.otherHalf.getD (r.des.otherHalf.getD e 0) 0 = e ∧
        r.des.otherHalf.getD e 0 ≠ e :=
  ⟨tetrahedron_wellFormed, by decide,
    C1_otherHalf_involution 13 (fun _ => (3 : ℚ) / 16) id (Subdivide.new tetrahedron)
      tetrahedron_wellFormed (by decide)⟩

/-- C2. On a well-formed mesh with `V` vertices, `F` faces and `E = 3 F`
directed edges, `StartSubdivision` returns a mesh in which `vertices`,
`normals` and `firstDirectedEdge` have length `V + E / 2` and `faceVertices`
and `otherHalf` have length `12 F = 4 E`, so that there are `4 F` faces; in
particular `V = 12`, `F = 20` gives 42 vertices and 80 faces. -/
theorem C2_counting_laws (fuel : Nat) (FindAlpha : Nat → K)
    (unit : Cartesian3 K → Cartesian3 K) (s : Subdivide K) (hwf : WellFormed s.des)
    (hfuel : s.des.faceVertices.length < fuel) :
    ∃ r, StartSubdivision fuel FindAlpha unit s = some r ∧
      r.des.vertices.length = s.des.vertices.length + s.des.faceVertices.length / 2 ∧
      r.des.normals.length = s.des.vertices.length + s.des.faceVertices.length / 2 ∧
      r.des.firstDirectedEdge.length
        = s.des.vertices.length + s.des.faceVertices.length / 2 ∧
      r.des.faceVertices.length = 12 * faceCount s.des ∧
      r.des.otherHalf.length = 12 * faceCount s.des ∧
      12 * faceCount s.des = 4 * s.des.faceVertices.length ∧
      faceCount r.des = 4 * faceCount s.des ∧
      (s.des.vertices.length = 12 → faceCount s.des = 20 →
        r.des.vertices.length = 42 ∧ faceCount r.des = 80) := by
  obtain ⟨_, _, _, t, vs, _, _, _, _, _, hrun, _, hreb, hvs, _⟩ :=
    StartSubdivision_spec fuel FindAlpha unit s hwf hfuel
  have h12 := twelve_mul_faceCount hwf
  have h3 := hwf.triples
  have hfv : t.des.faceVertices.length = 4 * s.des.faceVertices.length := hreb.blocks.length
  have hfc : faceCount ({ t with des := { t.des with vertices := vs } } : Subdivide K).des
      = 4 * faceCount s.des := by
    show t.des.faceVertices.length / 3 = 4 * (s.des.faceVertices.length / 3)
    omega
  refine ⟨_, hrun, hvs, hreb.normals_length, hreb.firstDirectedEdge_length,
    by rw [h12]; exact hfv, by rw [h12]; exact hreb.twins.length, h12, hfc, ?_⟩
  intro hV hF
  have hE : s.des.faceVertices.length = 60 := by
    unfold faceCount at hF; omega
  exact ⟨by show vs.length = 42; omega, by rw [hfc]; omega⟩

/-- C2 at the icosahedron (`V = 12`, `F = 20`). -/
theorem C2_counting_laws_witness :
    WellFormed (Subdivide.new icosahedron).des ∧
    (Subdivide.new icosahedron).des.faceVertices.length < 61 ∧
    ∃ r, StartSubdivision 61 (fun _ => (3 : ℚ) / 16) id (Subdivide.new icosahedron) = some r ∧
      r.des.vertices.length = (Subdivide.new icosahedron).des.vertices.length
        + (Subdivide.new icosahedron).des.faceVertices.length / 2 ∧
      r.des.normals.length = (Subdivide.new icosahedron).des.vertices.length
        + (Subdivide.new icosahedron).des.faceVertices.length / 2 ∧
      r.des.firstDirectedEdge.length
        = (Subdivide.new icosahedron).des.vertices.length
          + (Subdivide.new icosahedron).des.faceVertices.length / 2 ∧
      r.des.faceVertices.length = 12 * faceCount (Subdivide.new icosahedron).des ∧
      r.des.otherHalf.length = 12 * faceCount (Subdivide.new icosahedron).des ∧
      12 * faceCount (Subdivide.new icosahedron).des
        = 4 * (Subdivide.new icosahedron).des.faceVertices.length ∧
      faceCount r.des = 4 * faceCount (Subdivide.new icosahedron).des ∧
      ((Subdivide.new icosahedron).des.vertices.length = 12 →
        faceCount (Subdivide.new icosahedron).des = 20 →
        r.des.vertices.length = 42 ∧ faceCount r.des = 80) :=
  ⟨icosahedron_wellFormed, by decide,
    C2_counting_laws 61 (fun _ => (3 : ℚ) / 16) id (Subdivide.new icosahedron)
      icosahedron_wellFormed (by decide)⟩


/-- C3 as stated fails: one pass over the tetrahedron (`V = 4`, `F = 4`, 12
directed edges) yields `4 + 12 / 2 = 10` vertices, not 7, whatever `FindAlpha`
and `unit` are. -/
theorem C3_tetrahedron_counterexample :
    (StartSubdivision 13 (fun _ => (3 : ℚ) / 16) id (Subdivide.new tetrahedron)).map
        (fun r => r.des.vertices.length) = some 10 ∧
    ¬ ∃ (FindAlpha : Nat → ℚ) (unit : Cartesian3 ℚ → Cartesian3 ℚ) (r : Subdivide ℚ),
        StartSubdivision 13 FindAlpha unit (Subdivide.new tetrahedron) = some r ∧
        r.des.vertices.length = 7 := by
  refine ⟨by decide, ?_⟩
  rintro ⟨FindAlpha, unit, r, hr, h7⟩
  obtain ⟨_, _, _, t, vs, _, _, _, _, _, hrun, _, _, hvs, _⟩ :=
    StartSubdivision_spec 13 FindAlpha unit (Subdivide.new tetrahedron)
      tetrahedron_wellFormed (by decide)
  rw [hrun] at hr
  have hr1 := Option.some.inj hr
  rw [← hr1] at h7
  have h10 : vs.length = 10 := hvs
  have h7a : vs.length = 7 := h7
  omega

/-- C3, amended. One pass over the tetrahedron returns a mesh with 10
vertices, 16 faces and 48 directed edges, that is 24 undirected edges; its
`otherHalf` is a fixed-point-free involution of `[0, 48)`; and every vertex `v`
has a first directed edge `d < 48` that leaves `v` and whose target
`faceVertices[d]` is another vertex of the face of `d`. -/
theorem C3_tetrahedron_pass (fuel : Nat) (FindAlpha : Nat → ℚ)
    (unit : Cartesian3 ℚ → Cartesian3 ℚ) (hfuel : 12 < fuel) :
    ∃ r, StartSubdivision fuel FindAlpha unit (Subdivide.new tetrahedron) = some r ∧
      r.des.vertices.length = 10 ∧ faceCount r.des = 16 ∧
      r.des.faceVertices.length = 48 ∧ r.des.otherHalf.length = 48 ∧
      ((Finset.range 48).filter (fun e => e < r.des.otherHalf.getD e 0)).card = 24 ∧
      (∀ e, e < 48 → r.des.otherHalf.getD e 0 < 48 ∧
        r.des.otherHalf.getD (r.des.otherHalf.getD e 0) 0 = e ∧
        r.des.otherHalf.getD e 0 ≠ e) ∧
      r.des.firstDirectedEdge.length = 10 ∧
      ∀ v, v < 10 →
        r.des.firstDirectedEdge.getD v 0 < 48 ∧
        prevEdge (r.des.firstDirectedEdge.getD v 0) / 3
          = r.des.firstDirectedEdge.getD v 0 / 3 ∧
        r.des.faceVertices.getD (prevEdge (r.des.firstDirectedEdge.getD v 0)) 0 = v ∧
        r.des.faceVertices.getD (r.des.firstDirectedEdge.getD v 0) 0 < 10 ∧
        r.des.faceVertices.getD (r.des.firstDirectedEdge.getD v 0) 0 ≠ v := by
  have hwf := tetrahedron_wellFormed
  obtain ⟨_, _, _, t, vs, _, _, _, _, _, hrun, _, hreb, hvs, _⟩ :=
    StartSubdivision_spec fuel FindAlpha unit (Subdivide.new tetrahedron) hwf hfuel
  have hinv : ∀ e, e < 48 → t.des.otherHalf.getD e 0 < 48 ∧
      t.des.otherHalf.getD (t.des.otherHalf.getD e 0) 0 = e ∧
      t.des.otherHalf.getD e 0 ≠ e :=
    fun e he => hreb.twins.involution hwf (e := e) he
  have hfv : t.des.faceVertices.length = 48 := hreb.blocks.length
  refine ⟨_, hrun, hvs, ?_, hfv, hreb.twins.length, ?_, hinv,
    hreb.firstDirectedEdge_length, ?_⟩
  · show t.des.faceVertices.length / 3 = 16
    rw [hfv]
  · have := two_mul_countLower t.des.otherHalf 48 (fun e he => (hinv e he).1)
      (fun e he => (hinv e he).2.2) (fun e he => (hinv e he).2.1)
    show ((Finset.range 48).filter (fun e => e < t.des.otherHalf.getD e 0)).card = 24
    rw [← countLower_eq_card]
    omega
  · intro v hv
    obtain ⟨h1, _, h3⟩ := hreb.firstEdge hwf tetrahedron_firstEdgesLeave (v := v) hv
    have h4 := hreb.faceVertices_lt hwf h1
    have h5 := hreb.firstEdge_target_ne hwf tetrahedron_not_self_glued (v := v) hv
    exact ⟨h1, by unfold prevEdge; omega, h3, h4, h5⟩

/-- C3, amended, at fuel 13. -/
theorem C3_tetrahedron_pass_witness :
    12 < 13 ∧
    ∃ r, StartSubdivision 13 (fun _ => (3 : ℚ) / 16) id (Subdivide.new tetrahedron) = some r ∧
      r.des.vertices.length = 10 ∧ faceCount r.des = 16 ∧
      r.des.faceVertices.length = 48 ∧ r.des.otherHalf.length = 48 ∧
      ((Finset.range 48).filter (fun e => e < r.des.otherHalf.getD e 0)).card = 24 ∧
      (∀ e, e < 48 → r.des.otherHalf.getD e 0 < 48 ∧
        r.des.otherHalf.getD (r.des.otherHalf.getD e 0) 0 = e ∧
        r.des.otherHalf.getD e 0 ≠ e) ∧
      r.des.firstDirectedEdge.length = 10 ∧
      ∀ v, v < 10 →
        r.des.firstDirectedEdge.getD v 0 < 48 ∧
        prevEdge (r.des.firstDirectedEdge.getD v 0) / 3
          = r.des.firstDirectedEdge.getD v 0 / 3 ∧
        r.des.faceVertices.getD (prevEdge (r.des.firstDirectedEdge.getD v 0)) 0 = v ∧
        r.des.faceVertices.getD (r.des.firstDirectedEdge.getD v 0) 0 < 10 ∧
        r.des.faceVertices.getD (r.des.firstDirectedEdge.getD v 0) 0 ≠ v :=
  ⟨by decide, C3_tetrahedron_pass 13 (fun _ => (3 : ℚ) / 16) id (by decide)⟩

/-- C4. On a well-formed, direction-consistent mesh (`otherHalf` a
fixed-point-free involution with `faceVertices[otherHalf[e]] =
faceVertices[prevEdge e]` for every `e`), the mesh returned by
`StartSubdivision` is direction-consistent: for every new edge `e < 12 F`, the
twin `otherHalf[e]` is a new edge, `faceVertices[otherHalf[e]] =
faceVertices[prevEdge e]` and `faceVertices[prevEdge (otherHalf[e])] =
faceVertices[e]`. -/
theorem C4_direction_consistency (fuel : Nat) (FindAlpha : Nat → K)
    (unit : Cartesian3 K → Cartesian3 K) (s : Subdivide K) (hwf : WellFormed s.des)
    (hdc : DirectionConsistent s.des) (hfuel : s.des.faceVertices.length < fuel) :
    ∃ r, StartSubdivision fuel FindAlpha unit s = some r ∧
      r.des.faceVertices.length = 12 * faceCount s.des ∧
      r.des.otherHalf.length = 12 * faceCount s.des ∧
      ∀ e, e < 12 * faceCount s.des →
        r.des.otherHalf.getD e 0 < 12 * faceCount s.des ∧
        r.des.faceVertices.getD (r.des.otherHalf.getD e 0) 0
          = r.des.faceVertices.getD (prevEdge e) 0 ∧
        r.des.faceVertices.getD (prevEdge (r.des.otherHalf.getD e 0)) 0
          = r.des.faceVertices.getD e 0 := by
  obtain ⟨_, _, _, t, vs, _, _, _, _, _, hrun, _, hreb, _⟩ :=
    StartSubdivision_spec fuel FindAlpha unit s hwf hfuel
  have h12 := twelve_mul_faceCount hwf
  refine ⟨_, hrun, by rw [h12]; exact hreb.blocks.length,
    by rw [h12]; exact hreb.twins.length, ?_⟩
  intro e he
  rw [h12] at he ⊢
  exact ⟨(hreb.twins.involution hwf he).1, hreb.directionConsistent hwf hdc he⟩

/-- C4 at the tetrahedron. -/
theorem C4_direction_consistency_witness :
    WellFormed (Subdivide.new tetrahedron).des ∧
    DirectionConsistent (Subdivide.new tetrahedron).des ∧
    (Subdivide.new tetrahedron).des.faceVertices.length < 13 ∧
    ∃ r, StartSubdivision 13 (fun _ => (3 : ℚ) / 16) id (Subdivide.new tetrahedron) = some r ∧
      r.des.faceVertices.length = 12 * faceCount (Subdivide.new tetrahedron).des ∧
      r.des.otherHalf.length = 12 * faceCount (Subdivide.new tetrahedron).des ∧
      ∀ e, e < 12 * faceCount (Subdivide.new tetrahedron).des →
        r.des.otherHalf.getD e 0 < 12 * faceCount (Subdivide.new tetrahedron).des ∧
        r.des.faceVertices.getD (r.des.otherHalf.getD e 0) 0
          = r.des.faceVertices.getD (prevEdge e) 0 ∧
        r.des.faceVertices.getD (prevEdge (r.des.otherHalf.getD e 0)) 0
          = r.des.faceVertices.getD e 0 :=
  ⟨tetrahedron_wellFormed, tetrahedron_directionConsistent, by decide,
    C4_direction_consistency 13 (fun _ => (3 : ℚ) / 16) id (Subdivide.new tetrahedron)
      tetrahedron_wellFormed tetrahedron_directionConsistent (by decide)⟩

/-- C5. On a well-formed mesh in which the first directed edge of every vertex
leaves it (`faceVertices[prevEdge (firstDirectedEdge[v])] = v`), the mesh
returned by `StartSubdivision` has one first directed edge per vertex, old and
new alike, and for every vertex `v` this edge `d` is a new edge (`d < 12 F`),
is not the value `-1`, and leaves `v`: `faceVertices[prevEdge d] = v`, with
`prevEdge d` and `d` two edges of the same face. -/
theorem C5_first_directed_edges (fuel : Nat) (FindAlpha : Nat → K)
    (unit : Cartesian3 K → Cartesian3 K) (s : Subdivide K) (hwf : WellFormed s.des)
    (hfe : FirstEdgesLeave s.des) (hfuel : s.des.faceVertices.length < fuel) :
    ∃ r, StartSubdivision fuel FindAlpha unit s = some r ∧
      r.des.firstDirectedEdge.length = r.des.vertices.length ∧
      r.des.faceVertices.length = 12 * faceCount s.des ∧
      ∀ v, v < r.des.vertices.length →
        r.des.firstDirectedEdge.getD v 0 < 12 * faceCount s.des ∧
        r.des.firstDirectedEdge.getD v 0 ≠ minusOne ∧
        r.des.faceVertices.getD (prevEdge (r.des.firstDirectedEdge.getD v 0)) 0 = v ∧
        prevEdge (r.des.firstDirectedEdge.getD v 0) / 3
          = r.des.firstDirectedEdge.getD v 0 / 3 := by
  obtain ⟨_, _, _, t, vs, _, _, _, _, _, hrun, _, hreb, hvs, _⟩ :=
    StartSubdivision_spec fuel FindAlpha unit s hwf hfuel
  have h12 := twelve_mul_faceCount hwf
  refine ⟨_, hrun, ?_, by rw [h12]; exact hreb.blocks.length, ?_⟩
  · show t.des.firstDirectedEdge.length = vs.length
    rw [hreb.firstDirectedEdge_length, hvs]
  · intro v hv
    have hv1 : v < s.des.vertices.length + s.des.faceVertices.length / 2 := by
      rw [← hvs]; exact hv
    obtain ⟨h1, h2, h3⟩ := hreb.firstEdge hwf hfe hv1
    rw [h12]
    exact ⟨h1, h2, h3, by unfold prevEdge; omega⟩

/-- C5 at the tetrahedron. -/
theorem C5_first_directed_edges_witness :
    WellFormed (Subdivide.new tetrahedron).des ∧
    FirstEdgesLeave (Subdivide.new tetrahedron).des ∧
    (Subdivide.new tetrahedron).des.faceVertices.length < 13 ∧
    ∃ r, StartSubdivision 13 (fun _ => (3 : ℚ) / 16) id (Subdivide.new tetrahedron) = some r ∧
      r.des.firstDirectedEdge.length = r.des.vertices.length ∧
      r.des.faceVertices.length = 12 * faceCount (Subdivide.new tetrahedron).des ∧
      ∀ v, v < r.des.vertices.length →
        r.des.firstDirectedEdge.getD v 0 < 12 * faceCount (Subdivide.new tetrahedron).des ∧
        r.des.firstDirectedEdge.getD v 0 ≠ minusOne ∧
        r.des.faceVertices.getD (prevEdge (r.des.firstDirectedEdge.getD v 0)) 0 = v ∧
        prevEdge (r.des.firstDirectedEdge.getD v 0) / 3
          = r.des.firstDirectedEdge.getD v 0 / 3 :=
  ⟨tetrahedron_wellFormed, tetrahedron_firstEdgesLeave, by decide,
    C5_first_directed_edges 13 (fun _ => (3 : ℚ) / 16) id (Subdivide.new tetrahedron)
      tetrahedron_wellFormed tetrahedron_firstEdgesLeave (by decide)⟩


/-- C7. On a well-formed mesh with `E = 3 F` directed edges, after
`InsertEdgeVertices` and `CalculateFaces` the new `faceVertices` array has
length `4 E` and holds, for every old face `f` with corners `fv0, fv1, fv2`
(`faceVertices[3 f + k]`) and edge vertices `ve0, ve1, ve2`
(`edgeNewVertex[3 f + k]`): `(ve0, ve1, ve2)` at `3 f`, `(fv0, ve1, ve0)` at
`E + 3 f`, `(fv1, ve2, ve1)` at `2 E + 3 f` and `(fv2, ve0, ve2)` at
`3 E + 3 f`.  Every index below `4 E` is `b E + 3 f + k` for some block
`b < 4`, face `f < F` and `k < 3`, and for one such triple only. -/
theorem C7_four_faces_per_face (unit : Cartesian3 K → Cartesian3 K) (s : Subdivide K)
    (hwf : WellFormed s.des) :
    ∃ s1 s2, InsertEdgeVertices unit s = some s1 ∧ CalculateFaces s1 = some s2 ∧
      s1.edgeNewVertex.length = s.des.faceVertices.length ∧
      s2.des.faceVertices.length = 4 * s.des.faceVertices.length ∧
      (∀ f, f < faceCount s.des →
        (s2.des.faceVertices[3 * f]? = some (s1.edgeNewVertex.getD (3 * f) 0) ∧
          s2.des.faceVertices[3 * f + 1]? = some (s1.edgeNewVertex.getD (3 * f + 1) 0) ∧
          s2.des.faceVertices[3 * f + 2]? = some (s1.edgeNewVertex.getD (3 * f + 2) 0)) ∧
        (s2.des.faceVertices[s.des.faceVertices.length + 3 * f]?
            = some (s.des.faceVertices.getD (3 * f) 0) ∧
          s2.des.faceVertices[s.des.faceVertices.length + 3 * f + 1]?
            = some (s1.edgeNewVertex.getD (3 * f + 1) 0) ∧
          s2.des.faceVertices[s.des.faceVertices.length + 3 * f + 2]?
            = some (s1.edgeNewVertex.getD (3 * f) 0)) ∧
        (s2.des.faceVertices[2 * s.des.faceVertices.length + 3 * f]?
            = some (s.des.faceVertices.getD (3 * f + 1) 0) ∧
          s2.des.faceVertices[2 * s.des.faceVertices.length + 3 * f + 1]?
            = some (s1.edgeNewVertex.getD (3 * f + 2) 0) ∧
          s2.des.faceVertices[2 * s.des.faceVertices.length + 3 * f + 2]?
            = some (s1.edgeNewVertex.getD (3 * f + 1) 0)) ∧
        (s2.des.faceVertices[3 * s.des.faceVertices.length + 3 * f]?
            = some (s.des.faceVertices.getD (3 * f + 2) 0) ∧
          s2.des.faceVertices[3 * s.des.faceVertices.length + 3 * f + 1]?
            = some (s1.edgeNewVertex.getD (3 * f) 0) ∧
          s2.des.faceVertices[3 * s.des.faceVertices.length + 3 * f + 2]?
            = some (s1.edgeNewVertex.getD (3 * f + 2) 0))) ∧
      (∀ j, j < 4 * s.des.faceVertices.length → ∃ b f k, b < 4 ∧ f < faceCount s.des ∧
        k < 3 ∧ j = b * s.des.faceVertices.length + 3 * f + k) ∧
      (∀ b f k b1 f1 k1, b < 4 → f < faceCount s.des → k < 3 → b1 < 4 →
        f1 < faceCount s.des → k1 < 3 →
        b * s.des.faceVertices.length + 3 * f + k
          = b1 * s.des.faceVertices.length + 3 * f1 + k1 →
        b = b1 ∧ f = f1 ∧ k = k1) := by
  obtain ⟨s1, s2, s3, h1, h2, _, hins, e1, _, _, e4, _, hreb⟩ := rebuild_spec unit s hwf
  have hE := hwf.otherHalf_length
  have h3 := hwf.triples
  have henv : s3.edgeNewVertex = s1.edgeNewVertex := by rw [e4]; exact e1
  have hfv : s3.des.faceVertices = s2.des.faceVertices := by rw [e4]
  have hb := hreb.blocks
  rw [henv, hfv] at hb
  refine ⟨s1, s2, h1, h2, by rw [hins.edgeNewVertex_length, hE], hb.length, ?_, ?_, ?_⟩
  · intro f hf
    exact ⟨hb.centre f hf, hb.corner0 f hf, hb.corner1 f hf, hb.corner2 f hf⟩
  · intro j hj
    unfold faceCount
    by_cases c0 : j < s.des.faceVertices.length
    · exact ⟨0, j / 3, j % 3, by omega, by omega, by omega, by omega⟩
    · by_cases c1 : j < 2 * s.des.faceVertices.length
      · exact ⟨1, (j - s.des.faceVertices.length) / 3, (j - s.des.faceVertices.length) % 3,
          by omega, by omega, by omega, by omega⟩
      · by_cases c2 : j < 3 * s.des.faceVertices.length
        · exact ⟨2, (j - 2 * s.des.faceVertices.length) / 3,
            (j - 2 * s.des.faceVertices.length) % 3, by omega, by omega, by omega, by omega⟩
        · exact ⟨3, (j - 3 * s.des.faceVertices.length) / 3,
            (j - 3 * s.des.faceVertices.length) % 3, by omega, by omega, by omega, by omega⟩
  · intro b f k b1 f1 k1 hb0 hf hk hb1 hf1 hk1 heq
    unfold faceCount at hf hf1
    interval_cases b <;> interval_cases b1 <;> omega

/-- C7 at the tetrahedron. -/
theorem C7_four_faces_per_face_witness :
    WellFormed (Subdivide.new tetrahedron).des ∧
    ∃ s1 s2, InsertEdgeVertices id (Subdivide.new tetrahedron) = some s1 ∧
      CalculateFaces s1 = some s2 ∧
      s1.edgeNewVertex.length = (Subdivide.new tetrahedron).des.faceVertices.length ∧
      s2.des.faceVertices.length = 4 * (Subdivide.new tetrahedron).des.faceVertices.length ∧
      (∀ f, f < faceCount (Subdivide.new tetrahedron).des →
        (s2.des.faceVertices[3 * f]? = some (s1.edgeNewVertex.getD (3 * f) 0) ∧
          s2.des.faceVertices[3 * f + 1]? = some (s1.edgeNewVertex.getD (3 * f + 1) 0) ∧
          s2.des.faceVertices[3 * f + 2]? = some (s1.edgeNewVertex.getD (3 * f + 2) 0)) ∧
        (s2.des.faceVertices[(Subdivide.new tetrahedron).des.faceVertices.length + 3 * f]?
            = some ((Subdivide.new tetrahedron).des.faceVertices.getD (3 * f) 0) ∧
          s2.des.faceVertices[(Subdivide.new tetrahedron).des.faceVertices.length + 3 * f + 1]?
            = some (s1.edgeNewVertex.getD (3 * f + 1) 0) ∧
          s2.des.faceVertices[(Subdivide.new tetrahedron).des.faceVertices.length + 3 * f + 2]?
            = some (s1.edgeNewVertex.getD (3 * f) 0)) ∧
        (s2.des.faceVertices[2 * (Subdivide.new tetrahedron).des.faceVertices.length + 3 * f]?
            = some ((Subdivide.new tetrahedron).des.faceVertices.getD (3 * f + 1) 0) ∧
          s2.des.faceVertices[
              2 * (Subdivide.new tetrahedron).des.faceVertices.length + 3 * f + 1]?
            = some (s1.edgeNewVertex.getD (3 * f + 2) 0) ∧
          s2.des.faceVertices[
              2 * (Subdivide.new tetrahedron).des.faceVertices.length + 3 * f + 2]?
            = some (s1.edgeNewVertex.getD (3 * f + 1) 0)) ∧
        (s2.des.faceVertices[3 * (Subdivide.new tetrahedron).des.faceVertices.length + 3 * f]?
            = some ((Subdivide.new tetrahedron).des.faceVertices.getD (3 * f + 2) 0) ∧
          s2.des.faceVertices[
              3 * (Subdivide.new tetrahedron).des.faceVertices.length + 3 * f + 1]?
            = some (s1.edgeNewVertex.getD (3 * f) 0) ∧
          s2.des.faceVertices[
              3 * (Subdivide.new tetrahedron).des.faceVertices.length + 3 * f + 2]?
            = some (s1.edgeNewVertex.getD (3 * f + 2) 0))) ∧
      (∀ j, j < 4 * (Subdivide.new tetrahedron).des.faceVertices.length →
        ∃ b f k, b < 4 ∧ f < faceCount (Subdivide.new tetrahedron).des ∧
        k < 3 ∧ j = b * (Subdivide.new tetrahedron).des.faceVertices.length + 3 * f + k) ∧
      (∀ b f k b1 f1 k1, b < 4 → f < faceCount (Subdivide.new tetrahedron).des → k < 3 →
        b1 < 4 → f1 < faceCount (Subdivide.new tetrahedron).des → k1 < 3 →
        b * (Subdivide.new tetrahedron).des.faceVertices.length + 3 * f + k
          = b1 * (Subdivide.new tetrahedron).des.faceVertices.length + 3 * f1 + k1 →
        b = b1 ∧ f = f1 ∧ k = k1) :=
  ⟨tetrahedron_wellFormed,
    C7_four_faces_per_face id (Subdivide.new tetrahedron) tetrahedron_wellFormed⟩


/-- C8. On a well-formed mesh with `E = 3 F` old directed edges, after
`InsertEdgeVertices`, `CalculateFaces` and `CalculateOtherHalfs` the new
`otherHalf` array has length `4 E`; every centre edge `e < E` is paired with
`centreTwin E e`, which is `3 E + e + 2`, `E + e + 1` or `2 E + e` as `e % 3` is
0, 1 or 2, and that edge is paired with `e`; and the entries of the split edges
are intact: for every old edge `i` the entries at `firstHalfs[i]` and
`secondHalfs[i]`, which are neither centre edges nor their partners, hold
`secondHalfs[otherHalf[i]]` and `firstHalfs[otherHalf[i]]`. -/
theorem C8_centre_face_pairing (unit : Cartesian3 K → Cartesian3 K) (s : Subdivide K)
    (hwf : WellFormed s.des) :
    ∃ s1 s2 s3, InsertEdgeVertices unit s = some s1 ∧ CalculateFaces s1 = some s2 ∧
      CalculateOtherHalfs s2 = some s3 ∧
      s3.des.otherHalf.length = 4 * s.des.faceVertices.length ∧
      (∀ e, e < s.des.faceVertices.length →
        centreTwin s.des.faceVertices.length e
          = (if e % 3 = 0 then 3 * s.des.faceVertices.length + e + 2
              else if e % 3 = 1 then s.des.faceVertices.length + e + 1
              else 2 * s.des.faceVertices.length + e) ∧
        s3.des.otherHalf[e]? = some (centreTwin s.des.faceVertices.length e) ∧
        s3.des.otherHalf[centreTwin s.des.faceVertices.length e]? = some e) ∧
      (∀ i, i < s.des.faceVertices.length →
        s3.des.otherHalf[s3.firstHalfs.getD i 0]?
          = some (s3.secondHalfs.getD (s.des.otherHalf.getD i 0) 0) ∧
        s3.des.otherHalf[s3.secondHalfs.getD i 0]?
          = some (s3.firstHalfs.getD (s.des.otherHalf.getD i 0) 0) ∧
        ∀ e, e < s.des.faceVertices.length →
          s3.firstHalfs.getD i 0 ≠ e ∧ s3.secondHalfs.getD i 0 ≠ e ∧
          s3.firstHalfs.getD i 0 ≠ centreTwin s.des.faceVertices.length e ∧
          s3.secondHalfs.getD i 0 ≠ centreTwin s.des.faceVertices.length e) := by
  obtain ⟨s1, s2, s3, h1, h2, h3, _, _, _, _, _, _, hreb⟩ := rebuild_spec unit s hwf
  have h3m := hwf.triples
  refine ⟨s1, s2, s3, h1, h2, h3, hreb.twins.length, ?_, ?_⟩
  · intro e he
    refine ⟨?_, hreb.twins.centre e he, hreb.twins.centre_back e he⟩
    unfold centreTwin
    split_ifs <;> omega
  · intro i hi
    have ho := hwf.otherHalf_lt i hi
    rw [getD_of_getElem? (hreb.firstHalfs i hi), getD_of_getElem? (hreb.secondHalfs i hi),
      getD_of_getElem? (hreb.firstHalfs _ ho), getD_of_getElem? (hreb.secondHalfs _ ho)]
    refine ⟨hreb.twins.split_first i hi, hreb.twins.split_second i hi, ?_⟩
    intro e he
    have a1 := le_firstHalf hi
    have a2 := le_secondHalf hi
    exact ⟨by omega, by omega, firstHalf_ne_centreTwin h3m hi he,
      secondHalf_ne_centreTwin h3m hi he⟩

/-- C8 at the tetrahedron. -/
theorem C8_centre_face_pairing_witness :
    WellFormed (Subdivide.new tetrahedron).des ∧
    ∃ s1 s2 s3, InsertEdgeVertices id (Subdivide.new tetrahedron) = some s1 ∧
      CalculateFaces s1 = some s2 ∧ CalculateOtherHalfs s2 = some s3 ∧
      s3.des.otherHalf.length = 4 * (Subdivide.new tetrahedron).des.faceVertices.length ∧
      (∀ e, e < (Subdivide.new tetrahedron).des.faceVertices.length →
        centreTwin (Subdivide.new tetrahedron).des.faceVertices.length e
          = (if e % 3 = 0 then 3 * (Subdivide.new tetrahedron).des.faceVertices.length + e + 2
              else if e % 3 = 1 then (Subdivide.new tetrahedron).des.faceVertices.length + e + 1
              else 2 * (Subdivide.new tetrahedron).des.faceVertices.length + e) ∧
        s3.des.otherHalf[e]?
          = some (centreTwin (Subdivide.new tetrahedron).des.faceVertices.length e) ∧
        s3.des.otherHalf[centreTwin (Subdivide.new tetrahedron).des.faceVertices.length e]?
          = some e) ∧
      (∀ i, i < (Subdivide.new tetrahedron).des.faceVertices.length →
        s3.des.otherHalf[s3.firstHalfs.getD i 0]?
          = some (s3.secondHalfs.getD ((Subdivide.new tetrahedron).des.otherHalf.getD i 0) 0) ∧
        s3.des.otherHalf[s3.secondHalfs.getD i 0]?
          = some (s3.firstHalfs.getD ((Subdivide.new tetrahedron).des.otherHalf.getD i 0) 0) ∧
        ∀ e, e < (Subdivide.new tetrahedron).des.faceVertices.length →
          s3.firstHalfs.getD i 0 ≠ e ∧ s3.secondHalfs.getD i 0 ≠ e ∧
          s3.firstHalfs.getD i 0
            ≠ centreTwin (Subdivide.new tetrahedron).des.faceVertices.length e ∧
          s3.secondHalfs.getD i 0
            ≠ centreTwin (Subdivide.new tetrahedron).des.faceVertices.length e) :=
  ⟨tetrahedron_wellFormed,
    C8_centre_face_pairing id (Subdivide.new tetrahedron) tetrahedron_wellFormed⟩

/-- C9. Over an exact field, on a well-formed mesh, when `StartSubdivision`
returns, for every old directed edge `e` with twin `t = otherHalf[e]` the
vertex `edgeNewVertex[e]` is a new vertex (index at least `V`) and its position
is `(3/8) (p[faceVertices[e]] + p[faceVertices[t]]) + (1/8)
(p[faceVertices[nextEdge e]] + p[faceVertices[nextEdge t]])`, where `p` and
`faceVertices` are the positions and the connectivity before the pass. -/
theorem C9_edge_vertex_position (fuel : Nat) (FindAlpha : Nat → K)
    (unit : Cartesian3 K → Cartesian3 K) (s : Subdivide K) (hwf : WellFormed s.des)
    (hfuel : s.des.faceVertices.length < fuel) :
    ∃ r, StartSubdivision fuel FindAlpha unit s = some r ∧
      ∀ e, e < s.des.faceVertices.length →
        s.des.vertices.length ≤ r.edgeNewVertex.getD e 0 ∧
        r.edgeNewVertex.getD e 0 < r.des.vertices.length ∧
        r.des.vertices[r.edgeNewVertex.getD e 0]?
          = some (((3 : K) / 8) • (position s.des (s.des.faceVertices.getD e 0)
                + position s.des (s.des.faceVertices.getD (s.des.otherHalf.getD e 0) 0))
              + ((1 : K) / 8) • (position s.des (s.des.faceVertices.getD (nextEdge e) 0)
                + position s.des
                    (s.des.faceVertices.getD (nextEdge (s.des.otherHalf.getD e 0)) 0))) := by
  obtain ⟨_, _, _, t, vs, _, _, _, _, _, hrun, _, hreb, hvs, _, hhi⟩ :=
    StartSubdivision_spec fuel FindAlpha unit s hwf hfuel
  refine ⟨_, hrun, ?_⟩
  intro e he
  obtain ⟨_, hge, hlt⟩ := hreb.edgeNewVertex_twin hwf he
  refine ⟨hge, by show _ < vs.length; rw [hvs]; exact hlt, ?_⟩
  show vs[t.edgeNewVertex.getD e 0]? = _
  rw [hhi _ hge, hreb.edgeNewVertex_position hwf he]
  rfl

/-- C9 at the tetrahedron. -/
theorem C9_edge_vertex_position_witness :
    WellFormed (Subdivide.new tetrahedron).des ∧
    (Subdivide.new tetrahedron).des.faceVertices.length < 13 ∧
    ∃ r, StartSubdivision 13 (fun _ => (3 : ℚ) / 16) id (Subdivide.new tetrahedron) = some r ∧
      ∀ e, e < (Subdivide.new tetrahedron).des.faceVertices.length →
        (Subdivide.new tetrahedron).des.vertices.length ≤ r.edgeNewVertex.getD e 0 ∧
        r.edgeNewVertex.getD e 0 < r.des.vertices.length ∧
        r.des.vertices[r.edgeNewVertex.getD e 0]?
          = some (((3 : ℚ) / 8) • (position (Subdivide.new tetrahedron).des
                  ((Subdivide.new tetrahedron).des.faceVertices.getD e 0)
                + position (Subdivide.new tetrahedron).des
                  ((Subdivide.new tetrahedron).des.faceVertices.getD
                    ((Subdivide.new tetrahedron).des.otherHalf.getD e 0) 0))
              + ((1 : ℚ) / 8) • (position (Subdivide.new tetrahedron).des
                  ((Subdivide.new tetrahedron).des.faceVertices.getD (nextEdge e) 0)
                + position (Subdivide.new tetrahedron).des
                  ((Subdivide.new tetrahedron).des.faceVertices.getD
                    (nextEdge ((Subdivide.new tetrahedron).des.otherHalf.getD e 0)) 0))) :=
  ⟨tetrahedron_wellFormed, by decide,
    C9_edge_vertex_position 13 (fun _ => (3 : ℚ) / 16) id (Subdivide.new tetrahedron)
      tetrahedron_wellFormed (by decide)⟩

/-- C10. Over an exact field, on a well-formed mesh with `V` vertices:
`SmoothVertices` returns a state `s0` with the surface unchanged and a buffer
of length `V` holding, for every `v < V`, `(1 - n a) p[v] + a Σ p[w]`, the sum
over the entries `w` of `OneRing(v)`, `n` its length, `a = FindAlpha n` and `p`
the positions before the pass; the three rebuilding steps lead from `s0` to a
state `t`, the commit `ApplyVertexPositions t` yields the result `r` of
`StartSubdivision`, in which `vertices[v]` is the buffered value for every
`v < V` and every entry at an index `i ≥ V` is the one of `t`. -/
theorem C10_smoothed_positions (fuel : Nat) (FindAlpha : Nat → K)
    (unit : Cartesian3 K → Cartesian3 K) (s : Subdivide K) (hwf : WellFormed s.des)
    (hfuel : s.des.faceVertices.length < fuel) :
    ∃ s0 t r, SmoothVertices fuel FindAlpha s = some s0 ∧ s0.des = s.des ∧
      s0.newVertexPositions.length = s.des.vertices.length ∧
      andThen (InsertEdgeVertices unit s0)
        (fun a => andThen (CalculateFaces a) CalculateOtherHalfs) = some t ∧
      ApplyVertexPositions t = some r ∧
      StartSubdivision fuel FindAlpha unit s = some r ∧
      (∀ v, v < s.des.vertices.length → ∃ ring, OneRing fuel s v = some ring ∧
        s0.newVertexPositions[v]?
          = some ((1 - (ring.length : K) * FindAlpha ring.length) • position s.des v
            + FindAlpha ring.length • sumPositions s.des ring) ∧
        r.des.vertices[v]?
          = some ((1 - (ring.length : K) * FindAlpha ring.length) • position s.des v
            + FindAlpha ring.length • sumPositions s.des ring)) ∧
      (∀ i, s.des.vertices.length ≤ i → r.des.vertices[i]? = t.des.vertices[i]?) := by
  obtain ⟨s0, s1, s2, t, vs, hsm, g1, g2, g3, g4, hrun, hs0, hreb, hvs, hold, hhi⟩ :=
    StartSubdivision_spec fuel FindAlpha unit s hwf hfuel
  obtain ⟨r0, hsm0, hr0len, _⟩ := SmoothVertices_spec fuel FindAlpha s hwf hfuel
  have hnp : s0.newVertexPositions = t.newVertexPositions := by rw [hs0]
  refine ⟨s0, t, _, hsm, by rw [hs0], ?_, ?_, g4, hrun, ?_, hhi⟩
  · rw [hsm] at hsm0
    have := Option.some.inj hsm0
    rw [this]
    exact hr0len
  · rw [g1, andThen_some, g2, andThen_some, g3]
  · intro v hv
    obtain ⟨ring, k1, _, _, _, k5, k6⟩ := hold v hv
    exact ⟨ring, k1, by rw [hnp]; exact k5, by
      show vs[v]? = _
      rw [k6, k5]⟩

/-- C10 at the tetrahedron. -/
theorem C10_smoothed_positions_witness :
    WellFormed (Subdivide.new tetrahedron).des ∧
    (Subdivide.new tetrahedron).des.faceVertices.length < 13 ∧
    ∃ s0 t r, SmoothVertices 13 (fun _ => (3 : ℚ) / 16) (Subdivide.new tetrahedron) = some s0 ∧
      s0.des = (Subdivide.new tetrahedron).des ∧
      s0.newVertexPositions.length = (Subdivide.new tetrahedron).des.vertices.length ∧
      andThen (InsertEdgeVertices id s0)
        (fun a => andThen (CalculateFaces a) CalculateOtherHalfs) = some t ∧
      ApplyVertexPositions t = some r ∧
      StartSubdivision 13 (fun _ => (3 : ℚ) / 16) id (Subdivide.new tetrahedron) = some r ∧
      (∀ v, v < (Subdivide.new tetrahedron).des.vertices.length →
        ∃ ring, OneRing 13 (Subdivide.new tetrahedron) v = some ring ∧
        s0.newVertexPositions[v]?
          = some ((1 - (ring.length : ℚ) * (fun _ => (3 : ℚ) / 16) ring.length)
              • position (Subdivide.new tetrahedron).des v
            + (fun _ => (3 : ℚ) / 16) ring.length
              • sumPositions (Subdivide.new tetrahedron).des ring) ∧
        r.des.vertices[v]?
          = some ((1 - (ring.length : ℚ) * (fun _ => (3 : ℚ) / 16) ring.length)
              • position (Subdivide.new tetrahedron).des v
            + (fun _ => (3 : ℚ) / 16) ring.length
              • sumPositions (Subdivide.new tetrahedron).des ring)) ∧
      (∀ i, (Subdivide.new tetrahedron).des.vertices.length ≤ i →
        r.des.vertices[i]? = t.des.vertices[i]?) :=
  ⟨tetrahedron_wellFormed, by decide,
    C10_smoothed_positions 13 (fun _ => (3 : ℚ) / 16) id (Subdivide.new tetrahedron)
      tetrahedron_wellFormed (by decide)⟩

end Claims

/-! ## The walk of `OneRing` on a paired mesh -/

theorem WellFormed.paired {K : Type} {m : DirectedEdgeSurface K} (hwf : WellFormed m) :
    Paired m :=
  ⟨hwf.otherHalf_length, hwf.triples, hwf.otherHalf_lt, hwf.otherHalf_ne,
    hwf.otherHalf_invol⟩

theorem Paired.step_lt {K : Type} {m : DirectedEdgeSurface K} (hp : Paired m) {c : Nat}
    (hc : c < m.faceVertices.length) : ringStep m c < m.faceVertices.length :=
  hp.otherHalf_lt _ (prevEdge_lt hp.triples hc)

theorem Paired.step_injective {K : Type} {m : DirectedEdgeSurface K} (hp : Paired m)
    {a b : Nat} (ha : a < m.faceVertices.length) (hb : b < m.faceVertices.length)
    (h : ringStep m a = ringStep m b) : a = b := by
  have h1 : m.otherHalf.getD (prevEdge a) 0 = m.otherHalf.getD (prevEdge b) 0 := h
  have h2 := hp.otherHalf_invol _ (prevEdge_lt hp.triples ha)
  have h3 := hp.otherHalf_invol _ (prevEdge_lt hp.triples hb)
  rw [h1, h3] at h2
  exact (prevEdge_injective h2).symm

theorem Paired.iterate_ringStep_lt {K : Type} {m : DirectedEdgeSurface K} (hp : Paired m)
    (j : Nat) {c : Nat} (hc : c < m.faceVertices.length) :
    (ringStep m)^[j] c < m.faceVertices.length :=
  iterate_lt (ringStep m) _ (fun _ hx => hp.step_lt hx) j c hc

/-- Before its first return the walk does not meet an edge twice. -/
theorem Paired.walk_distinct {K : Type} {m : DirectedEdgeSurface K} (hp : Paired m)
    {d p : Nat} (hd : d < m.faceVertices.length)
    (hmin : ∀ j, 0 < j → j < p → (ringStep m)^[j] d ≠ d) {i j : Nat} (hij : i < j)
    (hj : j < p) : (ringStep m)^[i] d ≠ (ringStep m)^[j] d := by
  intro h
  have hsplit : (ringStep m)^[j] d = (ringStep m)^[i] ((ringStep m)^[j - i] d) := by
    rw [← Function.iterate_add_apply]; congr 1; omega
  rw [hsplit] at h
  have := iterate_cancel (ringStep m) _ (fun _ hx => hp.step_lt hx)
    (fun _ _ hx hy h => hp.step_injective hx hy h) i _ _ hd
    (hp.iterate_ringStep_lt _ hd) h
  exact hmin (j - i) (by omega) (by omega) this.symm

section PairedWalk

variable {K : Type}

/-- The loop of `OneRing`, entered after its first iteration at an edge that
is `p` steps away from the first edge, appends the `p` targets on the way. -/
theorem Paired.loop_walk (s : Subdivide K) (hpr : Paired s.des) (fEdge : Nat) :
    ∀ (p fuel cEdge c : Nat) (ring : List Nat), cEdge < s.des.faceVertices.length → c ≠ 0 →
      (∀ j, j < p → (ringStep s.des)^[j] cEdge ≠ fEdge) →
      (ringStep s.des)^[p] cEdge = fEdge → p < fuel →
      OneRing.loop s fEdge fuel cEdge c ring
        = some (ring ++ (List.range p).map
            (fun j => s.des.faceVertices.getD ((ringStep s.des)^[j] cEdge) 0)) := by
  intro p
  induction p with
  | zero =>
    intro fuel cEdge c ring _ hc _ hret hfuel
    obtain ⟨fuel, rfl⟩ : ∃ k, fuel = k + 1 := ⟨fuel - 1, by omega⟩
    have hce : cEdge = fEdge := by simpa using hret
    simp [OneRing.loop, hce, hc]
  | succ p ih =>
    intro fuel cEdge c ring hlt hc hne hret hfuel
    obtain ⟨fuel, rfl⟩ : ∃ k, fuel = k + 1 := ⟨fuel - 1, by omega⟩
    have hce : cEdge ≠ fEdge := by simpa using hne 0 (Nat.succ_pos p)
    have hprev : prevEdge cEdge < s.des.otherHalf.length := by
      rw [hpr.otherHalf_length]; exact prevEdge_lt hpr.triples hlt
    have hstep : ringStep s.des cEdge < s.des.faceVertices.length := hpr.step_lt hlt
    have hrec := ih fuel (ringStep s.des cEdge) (c + 1)
      (ring ++ [s.des.faceVertices.getD cEdge 0]) hstep (Nat.succ_ne_zero c)
      (fun j hj => by
        have := hne (j + 1) (by omega)
        rwa [Function.iterate_succ_apply] at this)
      (by rwa [Function.iterate_succ_apply] at hret) (by omega)
    have hread1 : s.des.faceVertices[cEdge]? = some (s.des.faceVertices.getD cEdge 0) :=
      getElem?_of_lt_getD hlt
    have hread2 : s.des.otherHalf[3 * (cEdge / 3) + (cEdge + 2) % 3]?
        = some (ringStep s.des cEdge) := getElem?_of_lt_getD hprev
    rw [OneRing.loop, if_pos (Or.inl hce), hread1, andThen_some, hread2, andThen_some, hrec]
    simp only [List.range_succ_eq_map, List.map_cons, List.map_map, Function.iterate_zero,
      id_eq, List.append_assoc, List.singleton_append, Function.iterate_succ_apply]
    rfl

/-- The walk of `OneRing` terminates on a paired mesh: with first return `p ≤ 3 F` of
the walk, every fuel above `p` yields the `p` targets met on the way. -/
theorem Paired.OneRing_walk (s : Subdivide K) (hpr : Paired s.des) (v : Nat)
    (hv : v < s.des.firstDirectedEdge.length)
    (hd : s.des.firstDirectedEdge.getD v 0 < s.des.faceVertices.length) :
    ∃ p, 0 < p ∧ p ≤ s.des.faceVertices.length ∧
      (ringStep s.des)^[p] (s.des.firstDirectedEdge.getD v 0)
        = s.des.firstDirectedEdge.getD v 0 ∧
      (∀ j, 0 < j → j < p → (ringStep s.des)^[j] (s.des.firstDirectedEdge.getD v 0)
        ≠ s.des.firstDirectedEdge.getD v 0) ∧
      ∀ fuel, p < fuel → OneRing fuel s v
        = some ((List.range p).map (fun j => s.des.faceVertices.getD
            ((ringStep s.des)^[j] (s.des.firstDirectedEdge.getD v 0)) 0)) := by
  obtain ⟨p, hp, hpn, hret, hmin⟩ := exists_first_return (ringStep s.des)
    s.des.faceVertices.length (fun x hx => hpr.step_lt hx)
    (fun x y hx hy h => hpr.step_injective hx hy h) _ hd
  refine ⟨p, hp, hpn, hret, hmin, ?_⟩
  intro fuel hfuel
  obtain ⟨fuel, rfl⟩ : ∃ k, fuel = k + 1 := ⟨fuel - 1, by omega⟩
  obtain ⟨q, rfl⟩ : ∃ q, p = q + 1 := ⟨p - 1, by omega⟩
  set d := s.des.firstDirectedEdge.getD v 0 with hdef
  have hread0 : s.des.firstDirectedEdge[v]? = some d :=
    getElem?_of_lt_getD hv
  have hprev : prevEdge d < s.des.otherHalf.length := by
    rw [hpr.otherHalf_length]; exact prevEdge_lt hpr.triples hd
  have hread1 : s.des.faceVertices[d]? = some (s.des.faceVertices.getD d 0) :=
    getElem?_of_lt_getD hd
  have hread2 : s.des.otherHalf[3 * (d / 3) + (d + 2) % 3]? = some (ringStep s.des d) :=
    getElem?_of_lt_getD hprev
  have hrun := Paired.loop_walk s hpr d q fuel (ringStep s.des d) 1
    ([] ++ [s.des.faceVertices.getD d 0]) (hpr.step_lt hd) (by omega)
    (fun j hj => by
      have := hmin (j + 1) (by omega) (by omega)
      rwa [Function.iterate_succ_apply] at this)
    (by rwa [Function.iterate_succ_apply] at hret) (by omega)
  rw [OneRing, hread0, andThen_some, OneRing.loop, if_pos (Or.inr rfl), hread1, andThen_some,
    hread2, andThen_some, hrun]
  simp only [List.range_succ_eq_map, List.map_cons, List.map_map, Function.iterate_zero,
    id_eq, List.nil_append, List.singleton_append, Function.iterate_succ_apply]
  rfl

end PairedWalk

/-! ## Facts about the ring of a vertex -/

/-- On a paired mesh the result of `OneRing` does not depend on the fuel, once
the fuel exceeds the length of the ring. -/
theorem Paired.OneRing_fuel {K : Type} (s : Subdivide K) (hpr : Paired s.des) (v : Nat)
    (hv : v < s.des.firstDirectedEdge.length)
    (hd : s.des.firstDirectedEdge.getD v 0 < s.des.faceVertices.length) (f0 : Nat)
    (hf0 : s.des.faceVertices.length < f0) {ring : List Nat}
    (h : OneRing f0 s v = some ring) :
    ∀ fuel, ring.length < fuel → OneRing fuel s v = some ring := by
  obtain ⟨p, _, hpn, _, _, hrun⟩ := Paired.OneRing_walk s hpr v hv hd
  have h0 := hrun f0 (by omega)
  rw [h] at h0
  have hring := Option.some.inj h0
  intro fuel hfuel
  have hlen : ring.length = p := by rw [hring]; simp
  rw [hrun fuel (by omega), ← hring]

/-- In a direction-consistent mesh the twin of an edge leaves the vertex that
the edge points to. -/
theorem source_otherHalf {K : Type} {m : DirectedEdgeSurface K} (hpr : Paired m)
    (hdc : DirectionConsistent m) {e : Nat} (he : e < m.faceVertices.length) :
    m.faceVertices.getD (prevEdge (m.otherHalf.getD e 0)) 0 = m.faceVertices.getD e 0 := by
  have := hdc _ (hpr.otherHalf_lt e he)
  rw [hpr.otherHalf_invol e he] at this
  exact this.symm

/-- In a direction-consistent mesh every edge of the walk around `v` leaves `v`. -/
theorem walk_leaves {K : Type} {m : DirectedEdgeSurface K} (hpr : Paired m)
    (hdc : DirectionConsistent m) {d v : Nat} (hd : d < m.faceVertices.length)
    (hleave : m.faceVertices.getD (prevEdge d) 0 = v) (k : Nat) :
    m.faceVertices.getD (prevEdge ((ringStep m)^[k] d)) 0 = v := by
  induction k with
  | zero => simpa using hleave
  | succ k ih =>
    rw [Function.iterate_succ_apply']
    have hc := hpr.iterate_ringStep_lt k hd
    show m.faceVertices.getD (prevEdge (m.otherHalf.getD
      (prevEdge ((ringStep m)^[k] d)) 0)) 0 = v
    rw [source_otherHalf hpr hdc (prevEdge_lt hpr.triples hc)]
    exact ih

/-- In a direction-consistent mesh the next edge of the walk points to the
third corner of the face of the current edge. -/
theorem walk_next_target {K : Type} {m : DirectedEdgeSurface K} (hpr : Paired m)
    (hdc : DirectionConsistent m) {c : Nat} (hc : c < m.faceVertices.length) :
    m.faceVertices.getD (ringStep m c) 0 = m.faceVertices.getD (nextEdge c) 0 := by
  show m.faceVertices.getD (m.otherHalf.getD (prevEdge c) 0) 0 = _
  rw [hdc _ (prevEdge_lt hpr.triples hc)]
  congr 1
  unfold prevEdge nextEdge
  omega

/-! ## The claims on the ring walk -/

/-- C11. On a mesh whose `otherHalf` is a fixed-point-free involution of its
`3 F` directed edges, for every vertex `v` whose first directed edge `d` is
below `3 F`, the walk `c ↦ otherHalf[prevEdge c]` of `OneRing(v)` returns to `d`
for the first time after `p` steps with `1 ≤ p ≤ 3 F`, meets no edge twice
before, and `OneRing(v)` returns, for every fuel above `p`, the list of the `p`
targets met, so between 1 and `3 F` entries. -/
theorem C11_one_ring_terminates {K : Type} (s : Subdivide K) (hpr : Paired s.des) (v : Nat)
    (hv : v < s.des.firstDirectedEdge.length)
    (hd : s.des.firstDirectedEdge.getD v 0 < s.des.faceVertices.length) :
    ∃ p, 1 ≤ p ∧ p ≤ s.des.faceVertices.length ∧ p ≤ 3 * faceCount s.des ∧
      (ringStep s.des)^[p] (s.des.firstDirectedEdge.getD v 0)
        = s.des.firstDirectedEdge.getD v 0 ∧
      (∀ j, 0 < j → j < p → (ringStep s.des)^[j] (s.des.firstDirectedEdge.getD v 0)
        ≠ s.des.firstDirectedEdge.getD v 0) ∧
      (∀ i j, i < j → j < p → (ringStep s.des)^[i] (s.des.firstDirectedEdge.getD v 0)
        ≠ (ringStep s.des)^[j] (s.des.firstDirectedEdge.getD v 0)) ∧
      ∀ fuel, p < fuel → ∃ ring, OneRing fuel s v = some ring ∧ ring.length = p ∧
        1 ≤ ring.length ∧ ring.length ≤ 3 * faceCount s.des ∧
        ∀ k, k < p → ring[k]? = some (s.des.faceVertices.getD
          ((ringStep s.des)^[k] (s.des.firstDirectedEdge.getD v 0)) 0) := by
  obtain ⟨p, hp, hpn, hret, hmin, hrun⟩ := Paired.OneRing_walk s hpr v hv hd
  have h3 := hpr.triples
  have hF : p ≤ 3 * faceCount s.des := by unfold faceCount; omega
  refine ⟨p, hp, hpn, hF, hret, hmin, fun i j hij hj => hpr.walk_distinct hd hmin hij hj, ?_⟩
  intro fuel hfuel
  refine ⟨_, hrun fuel hfuel, by simp, by simpa using hp, by simpa using hF, ?_⟩
  intro k hk
  rw [List.getElem?_map, List.getElem?_range hk]
  rfl

/-- C11 at vertex 0 of the tetrahedron. -/
theorem C11_one_ring_terminates_witness :
    Paired (Subdivide.new tetrahedron).des ∧
    0 < (Subdivide.new tetrahedron).des.firstDirectedEdge.length ∧
    (Subdivide.new tetrahedron).des.firstDirectedEdge.getD 0 0
      < (Subdivide.new tetrahedron).des.faceVertices.length ∧
    ∃ p, 1 ≤ p ∧ p ≤ (Subdivide.new tetrahedron).des.faceVertices.length ∧
      p ≤ 3 * faceCount (Subdivide.new tetrahedron).des ∧
      (ringStep (Subdivide.new tetrahedron).des)^[p]
          ((Subdivide.new tetrahedron).des.firstDirectedEdge.getD 0 0)
        = (Subdivide.new tetrahedron).des.firstDirectedEdge.getD 0 0 ∧
      (∀ j, 0 < j → j < p → (ringStep (Subdivide.new tetrahedron).des)^[j]
          ((Subdivide.new tetrahedron).des.firstDirectedEdge.getD 0 0)
        ≠ (Subdivide.new tetrahedron).des.firstDirectedEdge.getD 0 0) ∧
      (∀ i j, i < j → j < p → (ringStep (Subdivide.new tetrahedron).des)^[i]
          ((Subdivide.new tetrahedron).des.firstDirectedEdge.getD 0 0)
        ≠ (ringStep (Subdivide.new tetrahedron).des)^[j]
          ((Subdivide.new tetrahedron).des.firstDirectedEdge.getD 0 0)) ∧
      ∀ fuel, p < fuel → ∃ ring, OneRing fuel (Subdivide.new tetrahedron) 0 = some ring ∧
        ring.length = p ∧ 1 ≤ ring.length ∧
        ring.length ≤ 3 * faceCount (Subdivide.new tetrahedron).des ∧
        ∀ k, k < p → ring[k]? = some ((Subdivide.new tetrahedron).des.faceVertices.getD
          ((ringStep (Subdivide.new tetrahedron).des)^[k]
            ((Subdivide.new tetrahedron).des.firstDirectedEdge.getD 0 0)) 0) :=
  ⟨tetrahedron_wellFormed.paired, by decide, by decide,
    C11_one_ring_terminates (Subdivide.new tetrahedron) tetrahedron_wellFormed.paired 0
      (by decide) (by decide)⟩

/-- C12. On a well-formed, direction-consistent mesh, for every vertex `v`
whose first directed edge leaves `v`, `OneRing(v)` returns a list whose `k`-th
entry is the target `faceVertices[c]` of an edge `c` with source
`faceVertices[prevEdge c] = v`, and whose next entry, if any, is the third
corner `faceVertices[nextEdge c]` of the face of `c`.  On the tetrahedron the
rings of the vertices 0, 1, 2, 3 are `[1, 2, 3]`, `[2, 0, 3]`, `[0, 1, 3]` and
`[1, 0, 2]`: three entries, the three other vertices, each once. -/
theorem C12_one_ring_neighbours {K : Type} (s : Subdivide K) (hwf : WellFormed s.des)
    (hdc : DirectionConsistent s.des) (v : Nat) (hv : v < s.des.vertices.length)
    (hleave : s.des.faceVertices.getD (prevEdge (s.des.firstDirectedEdge.getD v 0)) 0 = v)
    (fuel : Nat) (hfuel : s.des.faceVertices.length < fuel) :
    (∃ ring, OneRing fuel s v = some ring ∧
      ∀ k, k < ring.length → ∃ c, c < s.des.faceVertices.length ∧
        s.des.faceVertices.getD (prevEdge c) 0 = v ∧
        ring[k]? = some (s.des.faceVertices.getD c 0) ∧
        (k + 1 < ring.length → ring[k + 1]? = some (s.des.faceVertices.getD (nextEdge c) 0))) ∧
    (∀ fuel1, 3 < fuel1 →
      OneRing fuel1 (Subdivide.new tetrahedron) 0 = some [1, 2, 3] ∧
      OneRing fuel1 (Subdivide.new tetrahedron) 1 = some [2, 0, 3] ∧
      OneRing fuel1 (Subdivide.new tetrahedron) 2 = some [0, 1, 3] ∧
      OneRing fuel1 (Subdivide.new tetrahedron) 3 = some [1, 0, 2]) := by
  constructor
  · have hpr := hwf.paired
    have hd := hwf.firstDirectedEdge_lt v hv
    obtain ⟨p, _, hpn, _, _, hrun⟩ := Paired.OneRing_walk s hpr v
      (by rw [hwf.firstDirectedEdge_length]; exact hv) hd
    refine ⟨_, hrun fuel (by omega), ?_⟩
    intro k hk
    rw [List.length_map, List.length_range] at hk
    have hc := hpr.iterate_ringStep_lt k hd
    refine ⟨_, hc, walk_leaves hpr hdc hd hleave k, ?_, ?_⟩
    · rw [List.getElem?_map, List.getElem?_range hk]; rfl
    · intro hk1
      rw [List.length_map, List.length_range] at hk1
      rw [List.getElem?_map, List.getElem?_range hk1, ← walk_next_target hpr hdc hc,
        ← Function.iterate_succ_apply' (ringStep s.des) k]
      rfl
  · intro fuel1 hfuel1
    have hpr := tetrahedron_wellFormed.paired
    exact ⟨Paired.OneRing_fuel (Subdivide.new tetrahedron) hpr 0 (by decide) (by decide)
        13 (by decide) (by decide) fuel1 hfuel1,
      Paired.OneRing_fuel (Subdivide.new tetrahedron) hpr 1 (by decide) (by decide)
        13 (by decide) (by decide) fuel1 hfuel1,
      Paired.OneRing_fuel (Subdivide.new tetrahedron) hpr 2 (by decide) (by decide)
        13 (by decide) (by decide) fuel1 hfuel1,
      Paired.OneRing_fuel (Subdivide.new tetrahedron) hpr 3 (by decide) (by decide)
        13 (by decide) (by decide) fuel1 hfuel1⟩

/-- C12 at vertex 0 of the tetrahedron. -/
theorem C12_one_ring_neighbours_witness :
    WellFormed (Subdivide.new tetrahedron).des ∧
    DirectionConsistent (Subdivide.new tetrahedron).des ∧
    0 < (Subdivide.new tetrahedron).des.vertices.length ∧
    (Subdivide.new tetrahedron).des.faceVertices.getD
      (prevEdge ((Subdivide.new tetrahedron).des.firstDirectedEdge.getD 0 0)) 0 = 0 ∧
    (Subdivide.new tetrahedron).des.faceVertices.length < 13 ∧
    (∃ ring, OneRing 13 (Subdivide.new tetrahedron) 0 = some ring ∧
      ∀ k, k < ring.length → ∃ c, c < (Subdivide.new tetrahedron).des.faceVertices.length ∧
        (Subdivide.new tetrahedron).des.faceVertices.getD (prevEdge c) 0 = 0 ∧
        ring[k]? = some ((Subdivide.new tetrahedron).des.faceVertices.getD c 0) ∧
        (k + 1 < ring.length →
          ring[k + 1]? = some ((Subdivide.new tetrahedron).des.faceVertices.getD
            (nextEdge c) 0))) ∧
    (∀ fuel1, 3 < fuel1 →
      OneRing fuel1 (Subdivide.new tetrahedron) 0 = some [1, 2, 3] ∧
      OneRing fuel1 (Subdivide.new tetrahedron) 1 = some [2, 0, 3] ∧
      OneRing fuel1 (Subdivide.new tetrahedron) 2 = some [0, 1, 3] ∧
      OneRing fuel1 (Subdivide.new tetrahedron) 3 = some [1, 0, 2]) :=
  ⟨tetrahedron_wellFormed, tetrahedron_directionConsistent, by decide, by decide, by decide,
    C12_one_ring_neighbours (Subdivide.new tetrahedron) tetrahedron_wellFormed
      tetrahedron_directionConsistent 0 (by decide) (by decide) 13 (by decide)⟩

/-! ## The claims on the tables of `CalculateFaces` -/

/-- The two halves of an old edge lie in two different corner blocks. -/
theorem halves_blocks {E i : Nat} (h3 : E % 3 = 0) (hi : i < E) :
    ∃ b1 b2, 1 ≤ b1 ∧ b1 ≤ 3 ∧ 1 ≤ b2 ∧ b2 ≤ 3 ∧ b1 ≠ b2 ∧
      b1 * E ≤ firstHalf E i ∧ firstHalf E i < (b1 + 1) * E ∧
      b2 * E ≤ secondHalf E i ∧ secondHalf E i < (b2 + 1) * E := by
  rcases (show i % 3 = 0 ∨ i % 3 = 1 ∨ i % 3 = 2 by omega) with r | r | r
  · have hf : firstHalf E i = 3 * E + i + 1 := by unfold firstHalf; rw [if_pos r]
    have hs : secondHalf E i = 1 * E + i := by unfold secondHalf; rw [if_pos r]
    exact ⟨3, 1, by omega, by omega, by omega, by omega, by omega, by omega, by omega,
      by omega, by omega⟩
  · have hf : firstHalf E i = 1 * E + i := by
      unfold firstHalf; rw [if_neg (by omega), if_pos r]
    have hs : secondHalf E i = 2 * E + i - 1 := by
      unfold secondHalf; rw [if_neg (by omega), if_pos r]
    exact ⟨1, 2, by omega, by omega, by omega, by omega, by omega, by omega, by omega,
      by omega, by omega⟩
  · have hf : firstHalf E i = 2 * E + i - 1 := by
      unfold firstHalf; rw [if_neg (by omega), if_neg (by omega)]
    have hs : secondHalf E i = 3 * E + i - 2 := by
      unfold secondHalf; rw [if_neg (by omega), if_neg (by omega)]
    exact ⟨2, 3, by omega, by omega, by omega, by omega, by omega, by omega, by omega,
      by omega, by omega⟩

/-- C14. On a well-formed mesh with `V` vertices and `E = 3 F` old directed
edges, after `InsertEdgeVertices` and `CalculateFaces`: for every original
vertex `v` with old first edge `d`, the new `firstDirectedEdge[v]` is
`firstHalfs[d]`, an index in the corner blocks `[E, 4 E)`; for every new vertex
`m` in `[V, V + E / 2)`, with `e0` the first old edge whose midpoint is `m`, the
new `firstDirectedEdge[m]` is the centre edge `nextEdge e0 < E` of the face
`e0 / 3`, the lowest-numbered face that has `m` as a midpoint. -/
theorem C14_first_edge_tables {K : Type} [Field K] (unit : Cartesian3 K → Cartesian3 K)
    (s : Subdivide K) (hwf : WellFormed s.des) :
    ∃ s1 s2, InsertEdgeVertices unit s = some s1 ∧ CalculateFaces s1 = some s2 ∧
      s2.des.firstDirectedEdge.length
        = s.des.vertices.length + s.des.faceVertices.length / 2 ∧
      (∀ v, v < s.des.vertices.length →
        s2.des.firstDirectedEdge[v]?
          = some (s2.firstHalfs.getD (s.des.firstDirectedEdge.getD v 0) 0) ∧
        s.des.faceVertices.length ≤ s2.firstHalfs.getD (s.des.firstDirectedEdge.getD v 0) 0 ∧
        s2.firstHalfs.getD (s.des.firstDirectedEdge.getD v 0) 0
          < 4 * s.des.faceVertices.length) ∧
      (∀ m, s.des.vertices.length ≤ m →
        m < s.des.vertices.length + s.des.faceVertices.length / 2 →
        ∃ e0, e0 < s.des.faceVertices.length ∧ s1.edgeNewVertex.getD e0 0 = m ∧
          (∀ e, e < s.des.faceVertices.length → s1.edgeNewVertex.getD e 0 = m →
            e0 ≤ e ∧ e0 / 3 ≤ e / 3) ∧
          s2.des.firstDirectedEdge[m]? = some (nextEdge e0) ∧
          nextEdge e0 < s.des.faceVertices.length ∧ nextEdge e0 / 3 = e0 / 3) := by
  obtain ⟨s1, s2, s3, h1, h2, _, _, e1, _, _, e4, _, hreb⟩ := rebuild_spec unit s hwf
  have h3 := hwf.triples
  have henv : s3.edgeNewVertex = s1.edgeNewVertex := by rw [e4]; exact e1
  have hfde : s3.des.firstDirectedEdge = s2.des.firstDirectedEdge := by rw [e4]
  have hfh : s3.firstHalfs = s2.firstHalfs := by rw [e4]
  refine ⟨s1, s2, h1, h2, by rw [← hfde]; exact hreb.firstDirectedEdge_length, ?_, ?_⟩
  · intro v hv
    have hd := hwf.firstDirectedEdge_lt v hv
    rw [← hfde, ← hfh, getD_of_getElem? (hreb.firstHalfs _ hd)]
    exact ⟨hreb.old_fde v hv, le_firstHalf hd, firstHalf_lt h3 hd⟩
  · intro m hm1 hm2
    obtain ⟨e, he, hev⟩ := hreb.exists_edge_of_new_vertex hwf hm1 hm2
    obtain ⟨e0, he0, hm0, hfirst⟩ := exists_first_midpoint s3.edgeNewVertex
      s.des.faceVertices.length m ⟨e, he, hev⟩
    have hn := nextEdge_lt h3 he0
    rw [← henv, ← hfde]
    refine ⟨e0, he0, hm0, ?_, hreb.midpoints.first m hm1 hm2 e0 he0 hm0 hfirst, hn,
      by unfold nextEdge; omega⟩
    intro e2 _ hem
    have hle : e0 ≤ e2 := by
      by_contra hcon
      exact hfirst e2 (by omega) hem
    exact ⟨hle, by omega⟩

/-- C14 at the tetrahedron. -/
theorem C14_first_edge_tables_witness :
    WellFormed (Subdivide.new tetrahedron).des ∧
    ∃ s1 s2, InsertEdgeVertices id (Subdivide.new tetrahedron) = some s1 ∧
      CalculateFaces s1 = some s2 ∧
      s2.des.firstDirectedEdge.length
        = (Subdivide.new tetrahedron).des.vertices.length
          + (Subdivide.new tetrahedron).des.faceVertices.length / 2 ∧
      (∀ v, v < (Subdivide.new tetrahedron).des.vertices.length →
        s2.des.firstDirectedEdge[v]?
          = some (s2.firstHalfs.getD
              ((Subdivide.new tetrahedron).des.firstDirectedEdge.getD v 0) 0) ∧
        (Subdivide.new tetrahedron).des.faceVertices.length
          ≤ s2.firstHalfs.getD ((Subdivide.new tetrahedron).des.firstDirectedEdge.getD v 0) 0 ∧
        s2.firstHalfs.getD ((Subdivide.new tetrahedron).des.firstDirectedEdge.getD v 0) 0
          < 4 * (Subdivide.new tetrahedron).des.faceVertices.length) ∧
      (∀ m, (Subdivide.new tetrahedron).des.vertices.length ≤ m →
        m < (Subdivide.new tetrahedron).des.vertices.length
          + (Subdivide.new tetrahedron).des.faceVertices.length / 2 →
        ∃ e0, e0 < (Subdivide.new tetrahedron).des.faceVertices.length ∧
          s1.edgeNewVertex.getD e0 0 = m ∧
          (∀ e, e < (Subdivide.new tetrahedron).des.faceVertices.length →
            s1.edgeNewVertex.getD e 0 = m → e0 ≤ e ∧ e0 / 3 ≤ e / 3) ∧
          s2.des.firstDirectedEdge[m]? = some (nextEdge e0) ∧
          nextEdge e0 < (Subdivide.new tetrahedron).des.faceVertices.length ∧
          nextEdge e0 / 3 = e0 / 3) :=
  ⟨tetrahedron_wellFormed,
    C14_first_edge_tables id (Subdivide.new tetrahedron) tetrahedron_wellFormed⟩

/-- C15. On a well-formed mesh with `E = 3 F` old directed edges, after
`InsertEdgeVertices` and `CalculateFaces`, for every old edge `i` from
`faceVertices[prevEdge i]` to `faceVertices[i]` with midpoint
`edgeNewVertex[i]`: `firstHalfs[i]` is a new edge from the source of `i` to the
midpoint and `secondHalfs[i]` a new edge from the midpoint to the target of
`i`; the two lie in two different corner blocks `[b E, (b + 1) E)`, `b` in
`1..3`; and `firstHalfs` and `secondHalfs` are injective, with images disjoint
from each other and from the centre block `[0, E)`. -/
theorem C15_half_replacements {K : Type} [Field K] (unit : Cartesian3 K → Cartesian3 K)
    (s : Subdivide K) (hwf : WellFormed s.des) :
    ∃ s1 s2, InsertEdgeVertices unit s = some s1 ∧ CalculateFaces s1 = some s2 ∧
      s2.des.faceVertices.length = 4 * s.des.faceVertices.length ∧
      (∀ i, i < s.des.faceVertices.length →
        s2.des.faceVertices[prevEdge (s2.firstHalfs.getD i 0)]?
          = some (s.des.faceVertices.getD (prevEdge i) 0) ∧
        s2.des.faceVertices[s2.firstHalfs.getD i 0]? = some (s1.edgeNewVertex.getD i 0) ∧
        s2.des.faceVertices[prevEdge (s2.secondHalfs.getD i 0)]?
          = some (s1.edgeNewVertex.getD i 0) ∧
        s2.des.faceVertices[s2.secondHalfs.getD i 0]? = some (s.des.faceVertices.getD i 0) ∧
        (∃ b1 b2, 1 ≤ b1 ∧ b1 ≤ 3 ∧ 1 ≤ b2 ∧ b2 ≤ 3 ∧ b1 ≠ b2 ∧
          b1 * s.des.faceVertices.length ≤ s2.firstHalfs.getD i 0 ∧
          s2.firstHalfs.getD i 0 < (b1 + 1) * s.des.faceVertices.length ∧
          b2 * s.des.faceVertices.length ≤ s2.secondHalfs.getD i 0 ∧
          s2.secondHalfs.getD i 0 < (b2 + 1) * s.des.faceVertices.length) ∧
        s.des.faceVertices.length ≤ s2.firstHalfs.getD i 0 ∧
        s.des.faceVertices.length ≤ s2.secondHalfs.getD i 0) ∧
      (∀ i j, i < s.des.faceVertices.length → j < s.des.faceVertices.length →
        (s2.firstHalfs.getD i 0 = s2.firstHalfs.getD j 0 → i = j) ∧
        (s2.secondHalfs.getD i 0 = s2.secondHalfs.getD j 0 → i = j) ∧
        s2.firstHalfs.getD i 0 ≠ s2.secondHalfs.getD j 0) := by
  obtain ⟨s1, s2, s3, h1, h2, _, _, e1, _, _, e4, _, hreb⟩ := rebuild_spec unit s hwf
  have h3 := hwf.triples
  have henv : s3.edgeNewVertex = s1.edgeNewVertex := by rw [e4]; exact e1
  have hfv : s3.des.faceVertices = s2.des.faceVertices := by rw [e4]
  have hfh : s3.firstHalfs = s2.firstHalfs := by rw [e4]
  have hsh : s3.secondHalfs = s2.secondHalfs := by rw [e4]
  have hF : ∀ i, i < s.des.faceVertices.length →
      s2.firstHalfs.getD i 0 = firstHalf s.des.faceVertices.length i :=
    fun i hi => by rw [← hfh]; exact getD_of_getElem? (hreb.firstHalfs i hi)
  have hS : ∀ i, i < s.des.faceVertices.length →
      s2.secondHalfs.getD i 0 = secondHalf s.des.faceVertices.length i :=
    fun i hi => by rw [← hsh]; exact getD_of_getElem? (hreb.secondHalfs i hi)
  refine ⟨s1, s2, h1, h2, by rw [← hfv]; exact hreb.blocks.length, ?_, ?_⟩
  · intro i hi
    obtain ⟨_, b1, b2, b3, b4, _⟩ := hreb.blocks.edges h3 hi
    rw [hF i hi, hS i hi, ← hfv, ← henv]
    exact ⟨b2, b1, b4, b3, halves_blocks h3 hi, le_firstHalf hi, le_secondHalf hi⟩
  · intro i j hi hj
    rw [hF i hi, hF j hj, hS i hi, hS j hj]
    exact ⟨firstHalf_injective h3 hi hj, secondHalf_injective h3 hi hj,
      firstHalf_ne_secondHalf h3 hi hj⟩

/-- C15 at the tetrahedron. -/
theorem C15_half_replacements_witness :
    WellFormed (Subdivide.new tetrahedron).des ∧
    ∃ s1 s2, InsertEdgeVertices id (Subdivide.new tetrahedron) = some s1 ∧
      CalculateFaces s1 = some s2 ∧
      s2.des.faceVertices.length = 4 * (Subdivide.new tetrahedron).des.faceVertices.length ∧
      (∀ i, i < (Subdivide.new tetrahedron).des.faceVertices.length →
        s2.des.faceVertices[prevEdge (s2.firstHalfs.getD i 0)]?
          = some ((Subdivide.new tetrahedron).des.faceVertices.getD (prevEdge i) 0) ∧
        s2.des.faceVertices[s2.firstHalfs.getD i 0]? = some (s1.edgeNewVertex.getD i 0) ∧
        s2.des.faceVertices[prevEdge (s2.secondHalfs.getD i 0)]?
          = some (s1.edgeNewVertex.getD i 0) ∧
        s2.des.faceVertices[s2.secondHalfs.getD i 0]?
          = some ((Subdivide.new tetrahedron).des.faceVertices.getD i 0) ∧
        (∃ b1 b2, 1 ≤ b1 ∧ b1 ≤ 3 ∧ 1 ≤ b2 ∧ b2 ≤ 3 ∧ b1 ≠ b2 ∧
          b1 * (Subdivide.new tetrahedron).des.faceVertices.length
            ≤ s2.firstHalfs.getD i 0 ∧
          s2.firstHalfs.getD i 0
            < (b1 + 1) * (Subdivide.new tetrahedron).des.faceVertices.length ∧
          b2 * (Subdivide.new tetrahedron).des.faceVertices.length
            ≤ s2.secondHalfs.getD i 0 ∧
          s2.secondHalfs.getD i 0
            < (b2 + 1) * (Subdivide.new tetrahedron).des.faceVertices.length) ∧
        (Subdivide.new tetrahedron).des.faceVertices.length ≤ s2.firstHalfs.getD i 0 ∧
        (Subdivide.new tetrahedron).des.faceVertices.length ≤ s2.secondHalfs.getD i 0) ∧
      (∀ i j, i < (Subdivide.new tetrahedron).des.faceVertices.length →
        j < (Subdivide.new tetrahedron).des.faceVertices.length →
        (s2.firstHalfs.getD i 0 = s2.firstHalfs.getD j 0 → i = j) ∧
        (s2.secondHalfs.getD i 0 = s2.secondHalfs.getD j 0 → i = j) ∧
        s2.firstHalfs.getD i 0 ≠ s2.secondHalfs.getD j 0) :=
  ⟨tetrahedron_wellFormed,
    C15_half_replacements id (Subdivide.new tetrahedron) tetrahedron_wellFormed⟩

/-! ## The walk of `OneRing` on the rebuilt mesh -/

theorem prevEdge_firstHalf {E i : Nat} (h3 : E % 3 = 0) (hi : i < E) :
    prevEdge (firstHalf E i) = secondHalf E (prevEdge i) := by
  unfold firstHalf secondHalf prevEdge; split_ifs <;> omega

theorem prevEdge_centreTwin {E i : Nat} (h3 : E % 3 = 0) (hi : i < E) :
    prevEdge (centreTwin E i) = firstHalf E i := by
  unfold firstHalf centreTwin prevEdge; split_ifs <;> omega

theorem prevEdge_secondHalf {E j : Nat} (h3 : E % 3 = 0) (hj : j < E) :
    prevEdge (secondHalf E j) = centreTwin E (nextEdge j) := by
  unfold secondHalf centreTwin prevEdge nextEdge; split_ifs <;> omega

theorem Paired.congr {K : Type} {m m1 : DirectedEdgeSurface K}
    (hfv : m1.faceVertices = m.faceVertices) (hoh : m1.otherHalf = m.otherHalf)
    (h : Paired m) : Paired m1 :=
  ⟨by rw [hfv, hoh]; exact h.otherHalf_length, by rw [hfv]; exact h.triples,
    by rw [hfv, hoh]; exact h.otherHalf_lt, by rw [hfv, hoh]; exact h.otherHalf_ne,
    by rw [hfv, hoh]; exact h.otherHalf_invol⟩

/-- The first return of a walk is determined. -/
theorem first_return_unique (g : Nat → Nat) (x p q : Nat) (hp : 0 < p) (hq : 0 < q)
    (hpx : g^[p] x = x) (hqx : g^[q] x = x)
    (hpm : ∀ j, 0 < j → j < p → g^[j] x ≠ x) (hqm : ∀ j, 0 < j → j < q → g^[j] x ≠ x) :
    p = q := by
  rcases Nat.lt_trichotomy p q with h | h | h
  · exact absurd hpx (hqm p hp h)
  · exact h
  · exact absurd hqx (hpm q hq h)

/-- On a paired mesh, `OneRing` returns the targets met up to the first return
of the walk, whatever way the first return is known. -/
theorem Paired.OneRing_of_first_return {K : Type} (s : Subdivide K) (hpr : Paired s.des)
    (v : Nat) (hv : v < s.des.firstDirectedEdge.length)
    (hd : s.des.firstDirectedEdge.getD v 0 < s.des.faceVertices.length) (p : Nat)
    (hp : 0 < p)
    (hret : (ringStep s.des)^[p] (s.des.firstDirectedEdge.getD v 0)
      = s.des.firstDirectedEdge.getD v 0)
    (hmin : ∀ j, 0 < j → j < p → (ringStep s.des)^[j] (s.des.firstDirectedEdge.getD v 0)
      ≠ s.des.firstDirectedEdge.getD v 0)
    (fuel : Nat) (hfuel : p < fuel) :
    OneRing fuel s v = some ((List.range p).map (fun j => s.des.faceVertices.getD
      ((ringStep s.des)^[j] (s.des.firstDirectedEdge.getD v 0)) 0)) := by
  obtain ⟨q, hq, _, hqret, hqmin, hrun⟩ := Paired.OneRing_walk s hpr v hv hd
  have hpq := first_return_unique (ringStep s.des) _ p q hp hq hret hqret hmin hqmin
  subst hpq
  exact hrun fuel hfuel

section NewWalk

variable {K : Type} [Field K] {unit : Cartesian3 K → Cartesian3 K}
  {m : DirectedEdgeSurface K} {t : Subdivide K}

/-- The rebuilt mesh is paired. -/
theorem Rebuilt.result_paired (hwf : WellFormed m) (h : Rebuilt unit m t) : Paired t.des := by
  have h3 := hwf.triples
  have hl : t.des.faceVertices.length = 4 * m.faceVertices.length := h.blocks.length
  refine ⟨by rw [hl]; exact h.twins.length, by omega, ?_, ?_, ?_⟩
  · intro e he
    rw [hl] at he ⊢
    exact (h.twins.involution hwf he).1
  · intro e he
    rw [hl] at he
    exact (h.twins.involution hwf he).2.2
  · intro e he
    rw [hl] at he
    exact (h.twins.involution hwf he).2.1

/-- A step of the new walk from the first half of an old edge leads to the
first half of the next edge of the old walk. -/
theorem Rebuilt.ringStep_firstHalf (hwf : WellFormed m) (h : Rebuilt unit m t) {i : Nat}
    (hi : i < m.faceVertices.length) :
    ringStep t.des (firstHalf m.faceVertices.length i)
      = firstHalf m.faceVertices.length (ringStep m i) := by
  show t.des.otherHalf.getD (prevEdge (firstHalf m.faceVertices.length i)) 0 = _
  rw [prevEdge_firstHalf hwf.triples hi,
    getD_of_getElem? (h.twins.split_second _ (prevEdge_lt hwf.triples hi))]
  rfl

/-- A step of the new walk from the centre edge after `i` leads to the corner
edge paired with the centre edge `i`. -/
theorem Rebuilt.ringStep_nextEdge (h : Rebuilt unit m t) {i : Nat}
    (hi : i < m.faceVertices.length) :
    ringStep t.des (nextEdge i) = centreTwin m.faceVertices.length i := by
  show t.des.otherHalf.getD (prevEdge (nextEdge i)) 0 = _
  rw [prevEdge_nextEdge, getD_of_getElem? (h.twins.centre i hi)]

/-- A step of the new walk from the corner edge paired with the centre edge
`i` leads to the second half of the twin of `i`. -/
theorem Rebuilt.ringStep_centreTwin (hwf : WellFormed m) (h : Rebuilt unit m t) {i : Nat}
    (hi : i < m.faceVertices.length) :
    ringStep t.des (centreTwin m.faceVertices.length i)
      = secondHalf m.faceVertices.length (m.otherHalf.getD i 0) := by
  show t.des.otherHalf.getD (prevEdge (centreTwin m.faceVertices.length i)) 0 = _
  rw [prevEdge_centreTwin hwf.triples hi, getD_of_getElem? (h.twins.split_first i hi)]

/-- A step of the new walk from the second half of `j` leads to the centre
edge after `j`. -/
theorem Rebuilt.ringStep_secondHalf (hwf : WellFormed m) (h : Rebuilt unit m t) {j : Nat}
    (hj : j < m.faceVertices.length) :
    ringStep t.des (secondHalf m.faceVertices.length j) = nextEdge j := by
  show t.des.otherHalf.getD (prevEdge (secondHalf m.faceVertices.length j)) 0 = _
  rw [prevEdge_secondHalf hwf.triples hj,
    getD_of_getElem? (h.twins.centre_back _ (nextEdge_lt hwf.triples hj))]

/-- The new walk around an old vertex is the image of the old walk under
`firstHalf`. -/
theorem Rebuilt.iterate_firstHalf (hwf : WellFormed m) (h : Rebuilt unit m t) {d : Nat}
    (hd : d < m.faceVertices.length) (k : Nat) :
    (ringStep t.des)^[k] (firstHalf m.faceVertices.length d)
      = firstHalf m.faceVertices.length ((ringStep m)^[k] d) := by
  induction k with
  | zero => rfl
  | succ k ih =>
    rw [Function.iterate_succ_apply', Function.iterate_succ_apply', ih,
      h.ringStep_firstHalf hwf (hwf.paired.iterate_ringStep_lt k hd)]

end NewWalk

/-! ## The claims on the rings of the refined mesh -/

section RefinedRings

variable {K : Type} [Field K]

omit [Field K] in
/-- The loop of `OneRing` reads only `faceVertices` and `otherHalf`. -/
theorem OneRing.loop_congr (s s1 : Subdivide K)
    (hfv : s1.des.faceVertices = s.des.faceVertices)
    (hoh : s1.des.otherHalf = s.des.otherHalf) (fEdge : Nat) :
    ∀ fuel cEdge c ring,
      OneRing.loop s1 fEdge fuel cEdge c ring = OneRing.loop s fEdge fuel cEdge c ring := by
  intro fuel
  induction fuel with
  | zero => intro cEdge c ring; rfl
  | succ fuel ih =>
    intro cEdge c ring
    simp only [OneRing.loop, hfv, hoh, ih]

omit [Field K] in
/-- The method `OneRing` reads only the three connectivity arrays. -/
theorem OneRing_congr (s s1 : Subdivide K)
    (hfv : s1.des.faceVertices = s.des.faceVertices)
    (hoh : s1.des.otherHalf = s.des.otherHalf)
    (hfde : s1.des.firstDirectedEdge = s.des.firstDirectedEdge) (fuel v : Nat) :
    OneRing fuel s1 v = OneRing fuel s v := by
  unfold OneRing
  rw [hfde]
  congr 1
  funext fEdge
  exact OneRing.loop_congr s s1 hfv hoh fEdge fuel fEdge 0 []

/-- The ring of an old vertex `v` in the rebuilt mesh: the walk is the image
under `firstHalf` of the old walk, so it has the same first return `p`, and its
`k`-th entry is the new vertex of the `k`-th edge of the old walk. -/
theorem Rebuilt.oneRing_old {unit : Cartesian3 K → Cartesian3 K} {s t : Subdivide K}
    (hwf : WellFormed s.des) (h : Rebuilt unit s.des t) {v : Nat}
    (hv : v < s.des.vertices.length) :
    ∃ p, 0 < p ∧ p ≤ s.des.faceVertices.length ∧
      (∀ fuel, p < fuel → OneRing fuel s v = some ((List.range p).map (fun k =>
        s.des.faceVertices.getD
          ((ringStep s.des)^[k] (s.des.firstDirectedEdge.getD v 0)) 0))) ∧
      (∀ fuel, p < fuel → OneRing fuel t v = some ((List.range p).map (fun k =>
        t.edgeNewVertex.getD
          ((ringStep s.des)^[k] (s.des.firstDirectedEdge.getD v 0)) 0))) := by
  have h3 := hwf.triples
  have hd := hwf.firstDirectedEdge_lt v hv
  have hpr := hwf.paired
  obtain ⟨p, hp, hpn, hret, hmin, hrun⟩ := Paired.OneRing_walk s hpr v
    (by rw [hwf.firstDirectedEdge_length]; exact hv) hd
  refine ⟨p, hp, hpn, hrun, ?_⟩
  intro fuel hfuel
  have hfd : t.des.firstDirectedEdge.getD v 0
      = firstHalf s.des.faceVertices.length (s.des.firstDirectedEdge.getD v 0) :=
    getD_of_getElem? (h.old_fde v hv)
  have hl : t.des.faceVertices.length = 4 * s.des.faceVertices.length := h.blocks.length
  have hrun1 := Paired.OneRing_of_first_return t (h.result_paired hwf) v
    (by rw [h.firstDirectedEdge_length]; omega)
    (by rw [hfd, hl]; exact firstHalf_lt h3 hd) p hp
    (by rw [hfd, h.iterate_firstHalf hwf hd p, hret])
    (by
      intro j hj0 hjp
      rw [hfd, h.iterate_firstHalf hwf hd j]
      intro hcon
      exact hmin j hj0 hjp
        (firstHalf_injective h3 (hpr.iterate_ringStep_lt j hd) hd hcon))
    fuel hfuel
  rw [hrun1]
  congr 1
  apply List.map_congr_left
  intro k _
  rw [hfd, h.iterate_firstHalf hwf hd k]
  exact getD_of_getElem? (h.blocks.edges h3 (hpr.iterate_ringStep_lt k hd)).2.1

/-- The ring of a new vertex `m` in the rebuilt mesh.  With `i` the first old
edge whose new vertex is `m` and `j` its twin, the walk starts at the centre
edge `nextEdge i`, returns after six steps, and meets the new vertices of the
two other edges of the face of `i`, the target of `j`, the new vertices of the
two other edges of the face of `j`, and the target of `i`. -/
theorem Rebuilt.oneRing_new {unit : Cartesian3 K → Cartesian3 K} {s t : Subdivide K}
    (hwf : WellFormed s.des) (h : Rebuilt unit s.des t) {m : Nat}
    (hm1 : s.des.vertices.length ≤ m)
    (hm2 : m < s.des.vertices.length + s.des.faceVertices.length / 2) :
    ∃ i, i < s.des.faceVertices.length ∧ t.edgeNewVertex.getD i 0 = m ∧
      (∀ e, e < i → t.edgeNewVertex.getD e 0 ≠ m) ∧
      ∀ fuel, 6 < fuel → OneRing fuel t m = some
        [t.edgeNewVertex.getD (nextEdge i) 0, t.edgeNewVertex.getD (prevEdge i) 0,
          s.des.faceVertices.getD (s.des.otherHalf.getD i 0) 0,
          t.edgeNewVertex.getD (nextEdge (s.des.otherHalf.getD i 0)) 0,
          t.edgeNewVertex.getD (prevEdge (s.des.otherHalf.getD i 0)) 0,
          s.des.faceVertices.getD i 0] := by
  have h3 := hwf.triples
  obtain ⟨e, he, hev⟩ := h.exists_edge_of_new_vertex hwf hm1 hm2
  obtain ⟨i, hi, hmi, hfirst⟩ := exists_first_midpoint t.edgeNewVertex
    s.des.faceVertices.length m ⟨e, he, hev⟩
  refine ⟨i, hi, hmi, hfirst, ?_⟩
  intro fuel hfuel
  have hj := hwf.otherHalf_lt i hi
  have hji := hwf.otherHalf_ne i hi
  have hinv := hwf.otherHalf_invol i hi
  have hni := nextEdge_lt h3 hi
  have hnj := nextEdge_lt h3 hj
  have hfd : t.des.firstDirectedEdge.getD m 0 = nextEdge i :=
    getD_of_getElem? (h.midpoints.first m hm1 hm2 i hi hmi hfirst)
  have hl : t.des.faceVertices.length = 4 * s.des.faceVertices.length := h.blocks.length
  have k1 := h.ringStep_nextEdge hi
  have k2 := h.ringStep_centreTwin hwf hi
  have k3 := h.ringStep_secondHalf hwf hj
  have k4 := h.ringStep_nextEdge hj
  have k5 := h.ringStep_centreTwin hwf hj
  rw [hinv] at k5
  have k6 := h.ringStep_secondHalf hwf hi
  have it1 : (ringStep t.des)^[1] (nextEdge i) = centreTwin s.des.faceVertices.length i := k1
  have it2 : (ringStep t.des)^[2] (nextEdge i)
      = secondHalf s.des.faceVertices.length (s.des.otherHalf.getD i 0) := by
    rw [Function.iterate_succ_apply', it1, k2]
  have it3 : (ringStep t.des)^[3] (nextEdge i) = nextEdge (s.des.otherHalf.getD i 0) := by
    rw [Function.iterate_succ_apply', it2, k3]
  have it4 : (ringStep t.des)^[4] (nextEdge i)
      = centreTwin s.des.faceVertices.length (s.des.otherHalf.getD i 0) := by
    rw [Function.iterate_succ_apply', it3, k4]
  have it5 : (ringStep t.des)^[5] (nextEdge i) = secondHalf s.des.faceVertices.length i := by
    rw [Function.iterate_succ_apply', it4, k5]
  have it6 : (ringStep t.des)^[6] (nextEdge i) = nextEdge i := by
    rw [Function.iterate_succ_apply', it5, k6]
  have c1 := le_centreTwin s.des.faceVertices.length i
  have c2 := le_secondHalf hj
  have c4 := le_centreTwin s.des.faceVertices.length (s.des.otherHalf.getD i 0)
  have c5 := le_secondHalf hi
  have c3 : nextEdge (s.des.otherHalf.getD i 0) ≠ nextEdge i := by
    unfold nextEdge; omega
  have hrun := Paired.OneRing_of_first_return t (h.result_paired hwf) m
    (by rw [h.firstDirectedEdge_length]; exact hm2)
    (by rw [hfd, hl]; omega) 6 (by omega)
    (by rw [hfd]; exact it6)
    (by
      intro k hk0 hk6
      rw [hfd]
      interval_cases k
      · rw [it1]; omega
      · rw [it2]; omega
      · rw [it3]; exact c3
      · rw [it4]; omega
      · rw [it5]; omega)
    fuel hfuel
  rw [hrun, hfd]
  have e0 := h.blocks.edges h3 hi
  have e1 := h.blocks.edges h3 hj
  have e2 := h.blocks.edges h3 hni
  have e3 := h.blocks.edges h3 hnj
  have p1 : prevEdge (nextEdge i) = i := prevEdge_nextEdge i
  have p2 : prevEdge (nextEdge (s.des.otherHalf.getD i 0)) = s.des.otherHalf.getD i 0 :=
    prevEdge_nextEdge _
  refine congrArg some ?_
  show [_, _, _, _, _, _] = _
  beta_reduce
  rw [it1, it2, it3, it4, it5]
  congr 1
  · exact getD_of_getElem? e2.1
  · congr 1
    · exact getD_of_getElem? e0.2.2.2.2.2.1
    · congr 1
      · exact getD_of_getElem? e1.2.2.2.1
      · congr 1
        · exact getD_of_getElem? e3.1
        · congr 1
          · exact getD_of_getElem? e1.2.2.2.2.2.1
          · congr 1
            exact getD_of_getElem? e0.2.2.2.1

end RefinedRings

/-! ## The claims on the valences of the refined mesh -/

section ValenceClaims

variable {K : Type} [Field K]

/-- C16. For every well-formed mesh (direction consistency is not needed) and
every original vertex `v`, with `d_k` the `k`-th directed edge met by the walk
of `OneRing(v)` in the old mesh: `OneRing(v)` on the mesh after
`StartSubdivision` returns a list of the same length as `OneRing(v)` before it,
and its `k`-th entry is `edgeNewVertex[d_k]`, a new vertex in `[V, V + E / 2)`,
where the `k`-th entry of the old ring is the target `faceVertices[d_k]`. -/
theorem C16_valence_preserved (fuel : Nat) (FindAlpha : Nat → K)
    (unit : Cartesian3 K → Cartesian3 K) (s : Subdivide K) (hwf : WellFormed s.des)
    (hfuel : s.des.faceVertices.length < fuel) (v : Nat) (hv : v < s.des.vertices.length) :
    ∃ r ringOld ringNew, StartSubdivision fuel FindAlpha unit s = some r ∧
      OneRing fuel s v = some ringOld ∧ OneRing fuel r v = some ringNew ∧
      ringNew.length = ringOld.length ∧
      ∀ k, k < ringOld.length →
        (ringStep s.des)^[k] (s.des.firstDirectedEdge.getD v 0) < s.des.faceVertices.length ∧
        ringOld[k]? = some (s.des.faceVertices.getD
          ((ringStep s.des)^[k] (s.des.firstDirectedEdge.getD v 0)) 0) ∧
        ringNew[k]? = some (r.edgeNewVertex.getD
          ((ringStep s.des)^[k] (s.des.firstDirectedEdge.getD v 0)) 0) ∧
        s.des.vertices.length ≤ r.edgeNewVertex.getD
          ((ringStep s.des)^[k] (s.des.firstDirectedEdge.getD v 0)) 0 ∧
        r.edgeNewVertex.getD ((ringStep s.des)^[k] (s.des.firstDirectedEdge.getD v 0)) 0
          < s.des.vertices.length + s.des.faceVertices.length / 2 := by
  obtain ⟨_, _, _, t, vs, _, _, _, _, _, hrun, _, hreb, _, _, _⟩ :=
    StartSubdivision_spec fuel FindAlpha unit s hwf hfuel
  obtain ⟨p, hp, hpn, hold, hnew⟩ := hreb.oneRing_old hwf hv
  have hr : OneRing fuel { t with des := { t.des with vertices := vs } } v
      = OneRing fuel t v :=
    OneRing_congr t { t with des := { t.des with vertices := vs } } rfl rfl rfl fuel v
  refine ⟨_, _, _, hrun, hold fuel (by omega), hr.trans (hnew fuel (by omega)), by simp, ?_⟩
  intro k hk
  have hkp : k < p := by simpa using hk
  have hdk := hwf.paired.iterate_ringStep_lt k (hwf.firstDirectedEdge_lt v hv)
  refine ⟨hdk, ?_, ?_, (hreb.edgeNewVertex_twin hwf hdk).2⟩
  · rw [List.getElem?_map, List.getElem?_range hkp]
    rfl
  · rw [List.getElem?_map, List.getElem?_range hkp]
    rfl

/-- C16 at vertex 0 of the tetrahedron. -/
theorem C16_valence_preserved_witness :
    WellFormed (Subdivide.new tetrahedron).des ∧
    (Subdivide.new tetrahedron).des.faceVertices.length < 13 ∧
    0 < (Subdivide.new tetrahedron).des.vertices.length ∧
    ∃ r ringOld ringNew,
      StartSubdivision 13 (fun _ => (3 : ℚ) / 16) id (Subdivide.new tetrahedron) = some r ∧
      OneRing 13 (Subdivide.new tetrahedron) 0 = some ringOld ∧
      OneRing 13 r 0 = some ringNew ∧
      ringNew.length = ringOld.length ∧
      ∀ k, k < ringOld.length →
        (ringStep (Subdivide.new tetrahedron).des)^[k]
            ((Subdivide.new tetrahedron).des.firstDirectedEdge.getD 0 0)
          < (Subdivide.new tetrahedron).des.faceVertices.length ∧
        ringOld[k]? = some ((Subdivide.new tetrahedron).des.faceVertices.getD
          ((ringStep (Subdivide.new tetrahedron).des)^[k]
            ((Subdivide.new tetrahedron).des.firstDirectedEdge.getD 0 0)) 0) ∧
        ringNew[k]? = some (r.edgeNewVertex.getD
          ((ringStep (Subdivide.new tetrahedron).des)^[k]
            ((Subdivide.new tetrahedron).des.firstDirectedEdge.getD 0 0)) 0) ∧
        (Subdivide.new tetrahedron).des.vertices.length ≤ r.edgeNewVertex.getD
          ((ringStep (Subdivide.new tetrahedron).des)^[k]
            ((Subdivide.new tetrahedron).des.firstDirectedEdge.getD 0 0)) 0 ∧
        r.edgeNewVertex.getD
          ((ringStep (Subdivide.new tetrahedron).des)^[k]
            ((Subdivide.new tetrahedron).des.firstDirectedEdge.getD 0 0)) 0
          < (Subdivide.new tetrahedron).des.vertices.length
            + (Subdivide.new tetrahedron).des.faceVertices.length / 2 :=
  ⟨tetrahedron_wellFormed, by decide, by decide,
    C16_valence_preserved 13 (fun _ => (3 : ℚ) / 16) id (Subdivide.new tetrahedron)
      tetrahedron_wellFormed (by decide) 0 (by decide)⟩

/-- C17. For every well-formed mesh with `V` vertices and `E` directed edges,
every new vertex `m` in `[V, V + E / 2)` has valence 6 in the mesh after
`StartSubdivision`: for every fuel above 6, `OneRing(m)` on the new mesh returns
a list of exactly six entries.  With `i` the first old edge whose new vertex is
`m` and `j = otherHalf[i]`, the six entries are the new vertices of the two
other edges of the face of `i`, the target of `j`, the new vertices of the two
other edges of the face of `j`, and the target of `i`. -/
theorem C17_new_vertex_valence (fuel : Nat) (FindAlpha : Nat → K)
    (unit : Cartesian3 K → Cartesian3 K) (s : Subdivide K) (hwf : WellFormed s.des)
    (hfuel : s.des.faceVertices.length < fuel) (m : Nat)
    (hm1 : s.des.vertices.length ≤ m)
    (hm2 : m < s.des.vertices.length + s.des.faceVertices.length / 2) :
    ∃ r, StartSubdivision fuel FindAlpha unit s = some r ∧
      ∃ i, i < s.des.faceVertices.length ∧ r.edgeNewVertex.getD i 0 = m ∧
        ∀ fuel1, 6 < fuel1 → ∃ ring, OneRing fuel1 r m = some ring ∧ ring.length = 6 ∧
          ring = [r.edgeNewVertex.getD (nextEdge i) 0, r.edgeNewVertex.getD (prevEdge i) 0,
            s.des.faceVertices.getD (s.des.otherHalf.getD i 0) 0,
            r.edgeNewVertex.getD (nextEdge (s.des.otherHalf.getD i 0)) 0,
            r.edgeNewVertex.getD (prevEdge (s.des.otherHalf.getD i 0)) 0,
            s.des.faceVertices.getD i 0] := by
  obtain ⟨_, _, _, t, vs, _, _, _, _, _, hrun, _, hreb, _, _, _⟩ :=
    StartSubdivision_spec fuel FindAlpha unit s hwf hfuel
  obtain ⟨i, hi, hmi, _, hring⟩ := hreb.oneRing_new hwf hm1 hm2
  refine ⟨_, hrun, i, hi, hmi, ?_⟩
  intro fuel1 hfuel1
  have hr : OneRing fuel1 { t with des := { t.des with vertices := vs } } m
      = OneRing fuel1 t m :=
    OneRing_congr t { t with des := { t.des with vertices := vs } } rfl rfl rfl fuel1 m
  exact ⟨_, hr.trans (hring fuel1 hfuel1), rfl, rfl⟩

/-- C17 at the new vertex 4 of the tetrahedron. -/
theorem C17_new_vertex_valence_witness :
    WellFormed (Subdivide.new tetrahedron).des ∧
    (Subdivide.new tetrahedron).des.faceVertices.length < 13 ∧
    (Subdivide.new tetrahedron).des.vertices.length ≤ 4 ∧
    4 < (Subdivide.new tetrahedron).des.vertices.length
      + (Subdivide.new tetrahedron).des.faceVertices.length / 2 ∧
    ∃ r, StartSubdivision 13 (fun _ => (3 : ℚ) / 16) id (Subdivide.new tetrahedron) = some r ∧
      ∃ i, i < (Subdivide.new tetrahedron).des.faceVertices.length ∧
        r.edgeNewVertex.getD i 0 = 4 ∧
        ∀ fuel1, 6 < fuel1 → ∃ ring, OneRing fuel1 r 4 = some ring ∧ ring.length = 6 ∧
          ring = [r.edgeNewVertex.getD (nextEdge i) 0, r.edgeNewVertex.getD (prevEdge i) 0,
            (Subdivide.new tetrahedron).des.faceVertices.getD
              ((Subdivide.new tetrahedron).des.otherHalf.getD i 0) 0,
            r.edgeNewVertex.getD
              (nextEdge ((Subdivide.new tetrahedron).des.otherHalf.getD i 0)) 0,
            r.edgeNewVertex.getD
              (prevEdge ((Subdivide.new tetrahedron).des.otherHalf.getD i 0)) 0,
            (Subdivide.new tetrahedron).des.faceVertices.getD i 0] :=
  ⟨tetrahedron_wellFormed, by decide, by decide, by decide,
    C17_new_vertex_valence 13 (fun _ => (3 : ℚ) / 16) id (Subdivide.new tetrahedron)
      tetrahedron_wellFormed (by decide) 4 (by decide) (by decide)⟩

end ValenceClaims

/-! ## The claim on the two edges of a pair -/

section TwinSymmetry

variable {K : Type} [Field K]

omit [Field K] in
theorem andThen_fun_none {α β : Type} (o : Option α) :
    andThen o (fun _ => (none : Option β)) = none := by
  cases o <;> rfl

/-- Four reads of an index array followed by four reads of a value array give
the same result when the first two and the last two are exchanged, for a
combination that is symmetric under the two exchanges. -/
theorem reads_symm {β γ : Type} (fv : List Nat) (vals : List β) (a b c d : Nat)
    (f : β → β → β → β → γ) (hf : ∀ x y z w, f x y z w = f y x w z) :
    (andThen (fv[a]?) fun i0 => andThen (vals[i0]?) fun v0 =>
      andThen (fv[b]?) fun i1 => andThen (vals[i1]?) fun v1 =>
      andThen (fv[c]?) fun i2 => andThen (vals[i2]?) fun v2 =>
      andThen (fv[d]?) fun i3 => andThen (vals[i3]?) fun v3 =>
      some (f v0 v1 v2 v3))
    = (andThen (fv[b]?) fun i0 => andThen (vals[i0]?) fun v0 =>
      andThen (fv[a]?) fun i1 => andThen (vals[i1]?) fun v1 =>
      andThen (fv[d]?) fun i2 => andThen (vals[i2]?) fun v2 =>
      andThen (fv[c]?) fun i3 => andThen (vals[i3]?) fun v3 =>
      some (f v0 v1 v2 v3)) := by
  cases fv[a]? with
  | none => simp only [andThen_none, andThen_fun_none]
  | some i0 =>
  cases fv[b]? with
  | none => simp only [andThen_none, andThen_some, andThen_fun_none]
  | some i1 =>
  cases fv[c]? with
  | none => simp only [andThen_none, andThen_some, andThen_fun_none]
  | some i2 =>
  cases fv[d]? with
  | none => simp only [andThen_none, andThen_some, andThen_fun_none]
  | some i3 =>
  simp only [andThen_some]
  cases vals[i0]? with
  | none => simp only [andThen_none, andThen_fun_none]
  | some v0 =>
  cases vals[i1]? with
  | none => simp only [andThen_none, andThen_some, andThen_fun_none]
  | some v1 =>
  cases vals[i2]? with
  | none => simp only [andThen_none, andThen_some, andThen_fun_none]
  | some v2 =>
  cases vals[i3]? with
  | none => simp only [andThen_none, andThen_some, andThen_fun_none]
  | some v3 =>
  simp only [andThen_some]
  rw [hf]

/-- C18. For every mesh and every pair of directed edges `e`, `t` with
`otherHalf[e] = t` and `otherHalf[t] = e`: `CalculateEdgeVertexPosition(e)` and
`CalculateEdgeVertexPosition(t)` are the same, and so are
`CalculateEdgeVertexNormal(e)` and `CalculateEdgeVertexNormal(t)` for every
normalisation `unit`, in particular for `unit = id`, the weighted sum of normals
before it is normalised.  On a well-formed mesh the common values are
`edgePosition e` and `unit (edgeNormalSum e)`. -/
theorem C18_twin_symmetry (s : Subdivide K) (e t : Nat)
    (het : s.des.otherHalf[e]? = some t) (hte : s.des.otherHalf[t]? = some e) :
    CalculateEdgeVertexPosition s e = CalculateEdgeVertexPosition s t ∧
    (∀ unit : Cartesian3 K → Cartesian3 K,
      CalculateEdgeVertexNormal unit s e = CalculateEdgeVertexNormal unit s t) ∧
    CalculateEdgeVertexNormal id s e = CalculateEdgeVertexNormal id s t ∧
    (WellFormed s.des →
      CalculateEdgeVertexPosition s t = some (edgePosition s.des e) ∧
      ∀ unit : Cartesian3 K → Cartesian3 K,
        CalculateEdgeVertexNormal unit s t = some (unit (edgeNormalSum s.des e))) := by
  have hpos : CalculateEdgeVertexPosition s e = CalculateEdgeVertexPosition s t := by
    unfold CalculateEdgeVertexPosition
    rw [het, hte, andThen_some, andThen_some]
    exact reads_symm s.des.faceVertices s.des.vertices e t _ _
      (fun v0 v1 v2 v3 => ((3 : K) / 8) • (v0 + v1) + ((1 : K) / 8) • (v2 + v3))
      (fun x y z w => by
        show _ • (x + y) + _ • (z + w) = _ • (y + x) + _ • (w + z)
        rw [Cartesian3.add_comm3 x y, Cartesian3.add_comm3 z w])
  have hnor : ∀ unit : Cartesian3 K → Cartesian3 K,
      CalculateEdgeVertexNormal unit s e = CalculateEdgeVertexNormal unit s t := by
    intro unit
    unfold CalculateEdgeVertexNormal
    rw [het, hte, andThen_some, andThen_some]
    exact reads_symm s.des.faceVertices s.des.normals e t _ _
      (fun n0 n1 n2 n3 => unit (((3 : K) / 8) • (n0 + n1) + ((1 : K) / 8) • (n2 + n3)))
      (fun x y z w => by
        show unit (_ • (x + y) + _ • (z + w)) = unit (_ • (y + x) + _ • (w + z))
        rw [Cartesian3.add_comm3 x y, Cartesian3.add_comm3 z w])
  refine ⟨hpos, hnor, hnor id, ?_⟩
  intro hwf
  have he : e < s.des.faceVertices.length := by
    have hlt : e < s.des.otherHalf.length := by
      by_contra hcon
      rw [List.getElem?_eq_none (by omega)] at het
      exact Option.noConfusion het
    rw [hwf.otherHalf_length] at hlt
    exact hlt
  refine ⟨?_, ?_⟩
  · rw [← hpos]
    exact CalculateEdgeVertexPosition_eq s s.des hwf rfl rfl (fun _ _ => rfl) he
  · intro unit
    rw [← hnor unit]
    exact CalculateEdgeVertexNormal_eq unit s s.des hwf rfl rfl (fun _ _ => rfl) he

/-- C18 at the edges 0 and 7 of the tetrahedron. -/
theorem C18_twin_symmetry_witness :
    (Subdivide.new tetrahedron).des.otherHalf[0]? = some 7 ∧
    (Subdivide.new tetrahedron).des.otherHalf[7]? = some 0 ∧
    CalculateEdgeVertexPosition (Subdivide.new tetrahedron) 0
      = CalculateEdgeVertexPosition (Subdivide.new tetrahedron) 7 ∧
    (∀ unit : Cartesian3 ℚ → Cartesian3 ℚ,
      CalculateEdgeVertexNormal unit (Subdivide.new tetrahedron) 0
        = CalculateEdgeVertexNormal unit (Subdivide.new tetrahedron) 7) ∧
    CalculateEdgeVertexNormal id (Subdivide.new tetrahedron) 0
      = CalculateEdgeVertexNormal id (Subdivide.new tetrahedron) 7 ∧
    (WellFormed (Subdivide.new tetrahedron).des →
      CalculateEdgeVertexPosition (Subdivide.new tetrahedron) 7
        = some (edgePosition (Subdivide.new tetrahedron).des 0) ∧
      ∀ unit : Cartesian3 ℚ → Cartesian3 ℚ,
        CalculateEdgeVertexNormal unit (Subdivide.new tetrahedron) 7
          = some (unit (edgeNormalSum (Subdivide.new tetrahedron).des 0))) :=
  ⟨rfl, rfl, C18_twin_symmetry (Subdivide.new tetrahedron) 0 7 rfl rfl⟩

end TwinSymmetry

/-! ## The claim on bounds and on the result as an input -/

section Bounds

variable {K : Type} [Field K]

/-- The first directed edge of every vertex of the rebuilt mesh is an edge of
the rebuilt mesh. -/
theorem Rebuilt.firstEdge_lt {unit : Cartesian3 K → Cartesian3 K} {m : DirectedEdgeSurface K}
    {t : Subdivide K} (hwf : WellFormed m) (h : Rebuilt unit m t) {v : Nat}
    (hv : v < m.vertices.length + m.faceVertices.length / 2) :
    t.des.firstDirectedEdge.getD v 0 < 4 * m.faceVertices.length := by
  have h3 := hwf.triples
  by_cases hold : v < m.vertices.length
  · rw [getD_of_getElem? (h.old_fde v hold)]
    exact firstHalf_lt h3 (hwf.firstDirectedEdge_lt v hold)
  · obtain ⟨e, he, hev⟩ := h.exists_edge_of_new_vertex hwf (by omega) hv
    obtain ⟨e0, he0, hm0, hfirst⟩ := exists_first_midpoint t.edgeNewVertex
      m.faceVertices.length v ⟨e, he, hev⟩
    have hn := nextEdge_lt h3 he0
    rw [getD_of_getElem? (h.midpoints.first v (by omega) hv e0 he0 hm0 hfirst)]
    omega

/-- The rebuilt mesh, with any array of `V + E / 2` positions, is well formed
as soon as its edge count fits. -/
theorem Rebuilt.wellFormed {unit : Cartesian3 K → Cartesian3 K} {m : DirectedEdgeSurface K}
    {t : Subdivide K} (hwf : WellFormed m) (h : Rebuilt unit m t)
    (vs : List (Cartesian3 K))
    (hvs : vs.length = m.vertices.length + m.faceVertices.length / 2)
    (hfits : 16 * m.faceVertices.length < 2 ^ 31) :
    WellFormed { t.des with vertices := vs } := by
  have h3 := hwf.triples
  have hl : t.des.faceVertices.length = 4 * m.faceVertices.length := h.blocks.length
  refine ⟨?_, ?_, ?_, ?_, ?_, ?_, ?_, ?_, ?_, ?_⟩
  · show t.des.normals.length = vs.length
    rw [hvs]; exact h.normals_length
  · show t.des.firstDirectedEdge.length = vs.length
    rw [hvs]; exact h.firstDirectedEdge_length
  · show t.des.otherHalf.length = t.des.faceVertices.length
    rw [hl]; exact h.twins.length
  · show t.des.faceVertices.length % 3 = 0
    omega
  · show 4 * t.des.faceVertices.length < 2 ^ 31
    omega
  · intro e he
    show t.des.faceVertices.getD e 0 < vs.length
    rw [hvs]
    exact h.faceVertices_lt hwf (by rw [← hl]; exact he)
  · intro e he
    show t.des.otherHalf.getD e 0 < t.des.faceVertices.length
    rw [hl]
    exact (h.twins.involution hwf (by rw [← hl]; exact he)).1
  · intro e he
    exact (h.twins.involution hwf (by rw [← hl]; exact he)).2.2
  · intro e he
    exact (h.twins.involution hwf (by rw [← hl]; exact he)).2.1
  · intro v hv
    show t.des.firstDirectedEdge.getD v 0 < t.des.faceVertices.length
    rw [hl]
    exact h.firstEdge_lt hwf (by rw [← hvs]; exact hv)

/-- C19. For every well-formed mesh with `V` vertices, `F` faces and `E = 3 F`
directed edges, `StartSubdivision` returns a result, so that every array read
and write of the pass is in bounds.  In the result the arrays `vertices`,
`normals` and `firstDirectedEdge` have `V + E / 2` entries and `faceVertices`
and `otherHalf` have `4 E = 12 F`; every `faceVertices` entry is below
`V + E / 2`; `otherHalf` is a fixed-point-free involution with entries below
`12 F`; every `firstDirectedEdge` entry is below `12 F`.  When the new edge count
again fits (`16 E < 2^31`) the result is well formed and a further pass on it
returns a result. -/
theorem C19_pass_in_bounds (fuel : Nat) (FindAlpha : Nat → K)
    (unit : Cartesian3 K → Cartesian3 K) (s : Subdivide K) (hwf : WellFormed s.des)
    (hfuel : s.des.faceVertices.length < fuel) :
    ∃ r, StartSubdivision fuel FindAlpha unit s = some r ∧
      r.des.vertices.length = s.des.vertices.length + s.des.faceVertices.length / 2 ∧
      r.des.normals.length = r.des.vertices.length ∧
      r.des.firstDirectedEdge.length = r.des.vertices.length ∧
      r.des.faceVertices.length = 12 * faceCount s.des ∧
      r.des.otherHalf.length = r.des.faceVertices.length ∧
      r.des.faceVertices.length % 3 = 0 ∧
      (∀ e, e < r.des.faceVertices.length →
        r.des.faceVertices.getD e 0
          < s.des.vertices.length + s.des.faceVertices.length / 2) ∧
      (∀ e, e < r.des.otherHalf.length →
        r.des.otherHalf.getD e 0 < 12 * faceCount s.des ∧
        r.des.otherHalf.getD e 0 ≠ e ∧
        r.des.otherHalf.getD (r.des.otherHalf.getD e 0) 0 = e) ∧
      (∀ v, v < r.des.vertices.length →
        r.des.firstDirectedEdge.getD v 0 < 12 * faceCount s.des) ∧
      (16 * s.des.faceVertices.length < 2 ^ 31 →
        WellFormed r.des ∧
        ∀ fuel1, r.des.faceVertices.length < fuel1 →
          ∃ r2, StartSubdivision fuel1 FindAlpha unit r = some r2) := by
  obtain ⟨_, _, _, t, vs, _, _, _, _, _, hrun, _, hreb, hvs, _, _⟩ :=
    StartSubdivision_spec fuel FindAlpha unit s hwf hfuel
  have h3 := hwf.triples
  have h12 := twelve_mul_faceCount hwf
  have hl : t.des.faceVertices.length = 4 * s.des.faceVertices.length := hreb.blocks.length
  have hol : t.des.otherHalf.length = 4 * s.des.faceVertices.length := hreb.twins.length
  refine ⟨_, hrun, hvs, ?_, ?_, ?_, ?_, ?_, ?_, ?_, ?_, ?_⟩
  · show t.des.normals.length = vs.length
    rw [hvs]; exact hreb.normals_length
  · show t.des.firstDirectedEdge.length = vs.length
    rw [hvs]; exact hreb.firstDirectedEdge_length
  · show t.des.faceVertices.length = _
    omega
  · show t.des.otherHalf.length = t.des.faceVertices.length
    omega
  · show t.des.faceVertices.length % 3 = 0
    omega
  · intro e he
    exact hreb.faceVertices_lt hwf (by rw [← hl]; exact he)
  · intro e he
    have hinv := hreb.twins.involution hwf (e := e) (by rw [← hol]; exact he)
    exact ⟨by rw [h12]; exact hinv.1, hinv.2.2, hinv.2.1⟩
  · intro v hv
    rw [h12]
    exact hreb.firstEdge_lt hwf (by rw [← hvs]; exact hv)
  · intro hfits
    have hwf1 := hreb.wellFormed hwf vs hvs hfits
    refine ⟨hwf1, ?_⟩
    intro fuel1 hfuel1
    obtain ⟨_, _, _, t2, vs2, _, _, _, _, _, hrun2, _⟩ :=
      StartSubdivision_spec fuel1 FindAlpha unit
        { t with des := { t.des with vertices := vs } } hwf1 hfuel1
    exact ⟨_, hrun2⟩

/-- C19 at the tetrahedron. -/
theorem C19_pass_in_bounds_witness :
    WellFormed (Subdivide.new tetrahedron).des ∧
    (Subdivide.new tetrahedron).des.faceVertices.length < 13 ∧
    ∃ r, StartSubdivision 13 (fun _ => (3 : ℚ) / 16) id (Subdivide.new tetrahedron) = some r ∧
      r.des.vertices.length = (Subdivide.new tetrahedron).des.vertices.length
        + (Subdivide.new tetrahedron).des.faceVertices.length / 2 ∧
      r.des.normals.length = r.des.vertices.length ∧
      r.des.firstDirectedEdge.length = r.des.vertices.length ∧
      r.des.faceVertices.length = 12 * faceCount (Subdivide.new tetrahedron).des ∧
      r.des.otherHalf.length = r.des.faceVertices.length ∧
      r.des.faceVertices.length % 3 = 0 ∧
      (∀ e, e < r.des.faceVertices.length →
        r.des.faceVertices.getD e 0
          < (Subdivide.new tetrahedron).des.vertices.length
            + (Subdivide.new tetrahedron).des.faceVertices.length / 2) ∧
      (∀ e, e < r.des.otherHalf.length →
        r.des.otherHalf.getD e 0 < 12 * faceCount (Subdivide.new tetrahedron).des ∧
        r.des.otherHalf.getD e 0 ≠ e ∧
        r.des.otherHalf.getD (r.des.otherHalf.getD e 0) 0 = e) ∧
      (∀ v, v < r.des.vertices.length →
        r.des.firstDirectedEdge.getD v 0 < 12 * faceCount (Subdivide.new tetrahedron).des) ∧
      (16 * (Subdivide.new tetrahedron).des.faceVertices.length < 2 ^ 31 →
        WellFormed r.des ∧
        ∀ fuel1, r.des.faceVertices.length < fuel1 →
          ∃ r2, StartSubdivision fuel1 (fun _ => (3 : ℚ) / 16) id r = some r2) :=
  ⟨tetrahedron_wellFormed, by decide,
    C19_pass_in_bounds 13 (fun _ => (3 : ℚ) / 16) id (Subdivide.new tetrahedron)
      tetrahedron_wellFormed (by decide)⟩

end Bounds

/-! ## Translation of the input positions -/

section Uniqueness

/-- The four blocks of new faces are determined by the old faces and the table
of new vertices. -/
theorem BlocksUpTo.blocks_unique {fv env a b : List Nat} (h3 : fv.length % 3 = 0)
    (ha : BlocksUpTo fv env (fv.length / 3) a) (hb : BlocksUpTo fv env (fv.length / 3) b) :
    a = b := by
  apply List.ext_getElem?
  intro i
  by_cases hi : i < 4 * fv.length
  · rcases edge_cases h3 hi with hc | ⟨c, hc, rfl⟩ | ⟨j, hj, rfl⟩ | ⟨j, hj, rfl⟩
    · rw [(ha.edges h3 hc).1, (hb.edges h3 hc).1]
    · rw [(ha.edges h3 hc).2.2.2.2.2.1, (hb.edges h3 hc).2.2.2.2.2.1]
    · rw [(ha.edges h3 hj).2.1, (hb.edges h3 hj).2.1]
    · rw [(ha.edges h3 hj).2.2.2.1, (hb.edges h3 hj).2.2.2.1]
  · rw [List.getElem?_eq_none (by rw [ha.length]; omega),
      List.getElem?_eq_none (by rw [hb.length]; omega)]

/-- The new twin array is determined by the old one. -/
theorem TwinsBuilt.twins_unique {oh a b : List Nat} {E : Nat} (h3 : E % 3 = 0)
    (ha : TwinsBuilt oh E a) (hb : TwinsBuilt oh E b) : a = b := by
  apply List.ext_getElem?
  intro i
  by_cases hi : i < 4 * E
  · rcases edge_cases h3 hi with hc | ⟨c, hc, rfl⟩ | ⟨j, hj, rfl⟩ | ⟨j, hj, rfl⟩
    · rw [ha.centre i hc, hb.centre i hc]
    · rw [ha.centre_back c hc, hb.centre_back c hc]
    · rw [ha.split_first j hj, hb.split_first j hj]
    · rw [ha.split_second j hj, hb.split_second j hj]
  · rw [List.getElem?_eq_none (by rw [ha.length]; omega),
      List.getElem?_eq_none (by rw [hb.length]; omega)]

end Uniqueness

section Translate

variable {K : Type} [Field K]

/-- The connectivity of the rebuilt mesh depends only on the connectivity of
the input and on its number of vertices. -/
theorem Rebuilt.connectivity_eq {unit unit1 : Cartesian3 K → Cartesian3 K}
    {m m1 : DirectedEdgeSurface K} {t t1 : Subdivide K} (hwf : WellFormed m)
    (h : Rebuilt unit m t) (h1 : Rebuilt unit1 m1 t1)
    (hV : m1.vertices.length = m.vertices.length) (hfv : m1.faceVertices = m.faceVertices)
    (hoh : m1.otherHalf = m.otherHalf) (hfde : m1.firstDirectedEdge = m.firstDirectedEdge) :
    t1.edgeNewVertex = t.edgeNewVertex ∧ t1.des.faceVertices = t.des.faceVertices ∧
    t1.des.otherHalf = t.des.otherHalf ∧
    t1.des.firstDirectedEdge = t.des.firstDirectedEdge := by
  have h3 := hwf.triples
  have henv : t1.edgeNewVertex = t.edgeNewVertex := by
    apply List.ext_getElem?
    intro i
    by_cases hi : i < m.faceVertices.length
    · have e1 := h1.edgeNewVertex i (by rw [hfv]; exact hi)
      rw [hV, hoh] at e1
      rw [e1, h.edgeNewVertex i hi]
    · have l1 := h1.edgeNewVertex_length
      rw [hfv] at l1
      rw [List.getElem?_eq_none (by rw [l1]; omega),
        List.getElem?_eq_none (by rw [h.edgeNewVertex_length]; omega)]
  have hb1 := h1.blocks
  rw [hfv, henv] at hb1
  have ht1 := h1.twins
  rw [hfv, hoh] at ht1
  refine ⟨henv, BlocksUpTo.blocks_unique h3 hb1 h.blocks, TwinsBuilt.twins_unique h3 ht1 h.twins, ?_⟩
  apply List.ext_getElem?
  intro v
  have hl1 := h1.firstDirectedEdge_length
  rw [hV, hfv] at hl1
  by_cases hold : v < m.vertices.length
  · have e1 := h1.old_fde v (by rw [hV]; exact hold)
    rw [hfv, hfde] at e1
    rw [e1, h.old_fde v hold]
  · by_cases hnew : v < m.vertices.length + m.faceVertices.length / 2
    · obtain ⟨e, he, hev⟩ := h.exists_edge_of_new_vertex hwf (by omega) hnew
      obtain ⟨e0, he0, hm0, hfirst⟩ := exists_first_midpoint t.edgeNewVertex
        m.faceVertices.length v ⟨e, he, hev⟩
      have hm1 := h1.midpoints
      rw [hV, hfv, henv] at hm1
      rw [hm1.first v (by omega) hnew e0 he0 hm0 hfirst,
        h.midpoints.first v (by omega) hnew e0 he0 hm0 hfirst]
    · rw [List.getElem?_eq_none (by rw [hl1]; omega),
        List.getElem?_eq_none (by rw [h.firstDirectedEdge_length]; omega)]

omit [Field K] in
/-- Translation keeps a mesh well formed. -/
theorem WellFormed.translate [Add K] {m : DirectedEdgeSurface K} (hwf : WellFormed m)
    (tv : Cartesian3 K) : WellFormed (translate tv m) := by
  have hl : (LoopSubdivision.translate tv m).vertices.length = m.vertices.length :=
    List.length_map _ _
  refine ⟨?_, ?_, hwf.otherHalf_length, hwf.triples, hwf.fits, ?_, hwf.otherHalf_lt,
    hwf.otherHalf_ne, hwf.otherHalf_invol, ?_⟩
  · rw [hl]; exact hwf.normals_length
  · rw [hl]; exact hwf.firstDirectedEdge_length
  · intro e he
    rw [hl]
    exact hwf.faceVertices_lt e he
  · intro v hv
    rw [hl] at hv
    exact hwf.firstDirectedEdge_lt v hv

/-- The position of a vertex of the translated mesh. -/
theorem position_translate (m : DirectedEdgeSurface K) (tv : Cartesian3 K) {i : Nat}
    (hi : i < m.vertices.length) :
    position (translate tv m) i = position m i + tv := by
  unfold position
  apply getD_of_getElem?
  show (m.vertices.map (fun p => p + tv))[i]? = _
  rw [List.getElem?_map, getElem?_position m hi]
  rfl

/-- The sum of the positions of `n` vertices of the translated mesh moves by
`n` times the translation. -/
theorem sumPositions_translate (m : DirectedEdgeSurface K) (tv : Cartesian3 K)
    (ring : List Nat) (hring : ∀ w, w ∈ ring → w < m.vertices.length) :
    sumPositions (translate tv m) ring
      = sumPositions m ring + (ring.length : K) • tv := by
  induction ring with
  | nil => ext <;> simp [sumPositions]
  | cons w ws ih =>
    have hw := hring w (List.mem_cons_self _ _)
    have ih1 := ih (fun x hx => hring x (List.mem_cons_of_mem _ hx))
    unfold sumPositions at ih1 ⊢
    rw [List.foldr_cons, List.foldr_cons, ih1, position_translate m tv hw]
    ext <;> simp <;> ring

/-- The smoothing rule commutes with translation: its weights `1 - n a` and
`n` times `a` sum to 1. -/
theorem smooth_translate (n : Nat) (a : K) (p sum tv : Cartesian3 K) :
    (1 - (n : K) * a) • (p + tv) + a • (sum + (n : K) • tv)
      = ((1 - (n : K) * a) • p + a • sum) + tv := by
  ext <;> simp <;> ring

/-- The edge rule commutes with translation: its weights sum to 1. -/
theorem edgePosition_translate {m : DirectedEdgeSurface K} (hwf : WellFormed m)
    (h2 : (2 : K) ≠ 0) (tv : Cartesian3 K) {e : Nat} (he : e < m.faceVertices.length) :
    edgePosition (translate tv m) e = edgePosition m e + tv := by
  have h8 : (8 : K) ≠ 0 := by
    have h : (8 : K) = 2 * 2 * 2 := by norm_num
    rw [h]
    exact mul_ne_zero (mul_ne_zero h2 h2) h2
  have ho := hwf.otherHalf_lt e he
  have h3 := hwf.triples
  unfold edgePosition
  show _ • (position (translate tv m) (m.faceVertices.getD e 0)
      + position (translate tv m) (m.faceVertices.getD (m.otherHalf.getD e 0) 0))
    + _ • (position (translate tv m) (m.faceVertices.getD (nextEdge e) 0)
      + position (translate tv m)
        (m.faceVertices.getD (nextEdge (m.otherHalf.getD e 0)) 0)) = _
  rw [position_translate m tv (hwf.faceVertices_lt _ he),
    position_translate m tv (hwf.faceVertices_lt _ ho),
    position_translate m tv (hwf.faceVertices_lt _ (nextEdge_lt h3 he)),
    position_translate m tv (hwf.faceVertices_lt _ (nextEdge_lt h3 ho))]
  ext <;> simp <;> field_simp <;> ring

end Translate

/-! ## The claim on translation -/

section TranslationClaim

variable {K : Type} [Field K]

/-- C20. Over a field `K` in which `2 ≠ 0`, with `FindAlpha` any function of
`n`: the weights of the edge rule sum to 1 (`3/8 + 3/8 + 1/8 + 1/8 = 1`), the
weights of the smoothing rule sum to 1 (`(1 - n a) + n a = 1`), and
`StartSubdivision` commutes with translation: for every well-formed mesh and
every vector `tv`, the pass on the mesh with `tv` added to every position
returns the arrays `faceVertices`, `otherHalf` and `firstDirectedEdge` of the
pass on the mesh itself, and its positions, of old and of new vertices, with
`tv` added to each. -/
theorem C20_translation_invariance (fuel : Nat) (FindAlpha : Nat → K)
    (unit : Cartesian3 K → Cartesian3 K) (s : Subdivide K) (hwf : WellFormed s.des)
    (hfuel : s.des.faceVertices.length < fuel) (h2 : (2 : K) ≠ 0) (tv : Cartesian3 K) :
    (3 : K) / 8 + 3 / 8 + 1 / 8 + 1 / 8 = 1 ∧
    (∀ (n : Nat) (a : K), (1 - (n : K) * a) + (n : K) * a = 1) ∧
    ∃ r r1, StartSubdivision fuel FindAlpha unit s = some r ∧
      StartSubdivision fuel FindAlpha unit { s with des := translate tv s.des } = some r1 ∧
      r1.des.vertices = r.des.vertices.map (fun p => p + tv) ∧
      r1.des.faceVertices = r.des.faceVertices ∧
      r1.des.otherHalf = r.des.otherHalf ∧
      r1.des.firstDirectedEdge = r.des.firstDirectedEdge := by
  have h8 : (8 : K) ≠ 0 := by
    have h : (8 : K) = 2 * 2 * 2 := by norm_num
    rw [h]
    exact mul_ne_zero (mul_ne_zero h2 h2) h2
  have hwf1 : WellFormed (translate tv s.des) := hwf.translate tv
  have hV : (translate tv s.des).vertices.length = s.des.vertices.length :=
    List.length_map _ _
  obtain ⟨_, _, _, t, vs, _, _, _, _, _, hrun, _, hreb, hvs, hold, hhi⟩ :=
    StartSubdivision_spec fuel FindAlpha unit s hwf hfuel
  obtain ⟨_, _, _, t1, vs1, _, _, _, _, _, hrun1, _, hreb1, hvs1, hold1, hhi1⟩ :=
    StartSubdivision_spec fuel FindAlpha unit { s with des := translate tv s.des } hwf1 hfuel
  have hreb2 : Rebuilt unit (translate tv s.des) t1 := hreb1
  obtain ⟨_, hfv, hoh, hfde⟩ := hreb.connectivity_eq hwf hreb2 hV rfl rfl rfl
  refine ⟨by field_simp; norm_num, fun n a => by ring, _, _, hrun, hrun1, ?_, hfv, hoh, hfde⟩
  show vs1 = vs.map (fun p => p + tv)
  apply List.ext_getElem?
  intro i
  rw [List.getElem?_map]
  by_cases hi : i < s.des.vertices.length
  · obtain ⟨ring, g1, _, _, g4, g5, g6⟩ := hold i hi
    obtain ⟨ring1, k1, _, _, _, k5, k6⟩ := hold1 i (by rw [hV]; exact hi)
    have hring : ring1 = ring := by
      have hc := OneRing_congr s { s with des := translate tv s.des } rfl rfl rfl fuel i
      rw [hc, g1] at k1
      exact (Option.some.inj k1).symm
    subst hring
    rw [k6, k5, g6, g5]
    show some ((1 - (ring1.length : K) * FindAlpha ring1.length)
        • position (translate tv s.des) i
      + FindAlpha ring1.length • sumPositions (translate tv s.des) ring1) = _
    rw [position_translate _ _ hi, sumPositions_translate _ _ _ g4, smooth_translate]
    rfl
  · have hhi2 : vs1[i]? = t1.des.vertices[i]? := hhi1 i (by rw [hV]; omega)
    rw [hhi2, hhi i (by omega)]
    by_cases hnew : i < s.des.vertices.length + s.des.faceVertices.length / 2
    · have htot := two_mul_countLower s.des.otherHalf s.des.faceVertices.length
        hwf.otherHalf_lt hwf.otherHalf_ne hwf.otherHalf_invol
      obtain ⟨e, he, hlow, hcnt⟩ := exists_lower_of_lt_countLower s.des.otherHalf
        s.des.faceVertices.length (i - s.des.vertices.length) (by omega)
      have hie : i = s.des.vertices.length + countLower s.des.otherHalf e := by omega
      have n1 : t1.des.vertices[s.des.vertices.length + countLower s.des.otherHalf e]?
          = some (edgePosition (translate tv s.des) e) := by
        have hn := hreb2.new_vertices e he hlow
        rw [hV] at hn
        exact hn
      rw [hie, n1, hreb.new_vertices e he hlow, edgePosition_translate hwf h2 tv he]
      rfl
    · have l1 := hreb2.vertices_length
      rw [hV] at l1
      have l1a : t1.des.vertices.length
          = s.des.vertices.length + s.des.faceVertices.length / 2 := l1
      rw [List.getElem?_eq_none (by rw [l1a]; omega),
        List.getElem?_eq_none (by rw [hreb.vertices_length]; omega)]
      rfl

/-- C20 at the tetrahedron, translated by `(1, 2, 3)`. -/
theorem C20_translation_invariance_witness :
    WellFormed (Subdivide.new tetrahedron).des ∧
    (Subdivide.new tetrahedron).des.faceVertices.length < 13 ∧
    (2 : ℚ) ≠ 0 ∧
    (3 : ℚ) / 8 + 3 / 8 + 1 / 8 + 1 / 8 = 1 ∧
    (∀ (n : Nat) (a : ℚ), (1 - (n : ℚ) * a) + (n : ℚ) * a = 1) ∧
    ∃ r r1, StartSubdivision 13 (fun _ => (3 : ℚ) / 16) id (Subdivide.new tetrahedron)
        = some r ∧
      StartSubdivision 13 (fun _ => (3 : ℚ) / 16) id
        { Subdivide.new tetrahedron with
          des := translate ⟨1, 2, 3⟩ (Subdivide.new tetrahedron).des } = some r1 ∧
      r1.des.vertices = r.des.vertices.map (fun p => p + ⟨1, 2, 3⟩) ∧
      r1.des.faceVertices = r.des.faceVertices ∧
      r1.des.otherHalf = r.des.otherHalf ∧
      r1.des.firstDirectedEdge = r.des.firstDirectedEdge :=
  ⟨tetrahedron_wellFormed, by decide, by norm_num,
    C20_translation_invariance 13 (fun _ => (3 : ℚ) / 16) id (Subdivide.new tetrahedron)
      tetrahedron_wellFormed (by decide) (by norm_num) ⟨1, 2, 3⟩⟩

end TranslationClaim

/-! ## `InsertEdgeVertices` on a mesh of which only the twin pairing is known -/

section InsertPaired

variable {K : Type} [Field K]

omit [Field K] in
theorem getElem?_resize_getD {α : Type} (v : List α) (n : Nat) (d : α) {i : Nat}
    (hi : i < n) : (resize v n d)[i]? = some (v.getD i d) := by
  unfold resize
  by_cases hl : i < v.length
  · rw [List.getElem?_append_left (by simp; omega), List.getElem?_take_of_lt hi]
    exact getElem?_of_lt_getD hl
  · have ht : (v.take n).length = v.length := by simp; omega
    rw [List.getElem?_append_right (by omega), ht,
      List.getD_eq_default _ _ (by omega)]
    exact List.getElem?_replicate_of_lt (by omega)

omit [Field K] in
theorem Paired.lower_cases {m : DirectedEdgeSurface K} (hpr : Paired m) {j : Nat}
    (hj : j < m.faceVertices.length) :
    (lowerEdge m.otherHalf j = j ∧ j < m.otherHalf.getD j 0) ∨
    (lowerEdge m.otherHalf j = m.otherHalf.getD j 0 ∧ m.otherHalf.getD j 0 < j) := by
  have := hpr.otherHalf_ne j hj
  unfold lowerEdge
  split_ifs with h
  · exact Or.inl ⟨rfl, h⟩
  · exact Or.inr ⟨rfl, by omega⟩

omit [Field K] in
theorem Paired.lower_is_lower {m : DirectedEdgeSurface K} (hpr : Paired m) {j : Nat}
    (hj : j < m.faceVertices.length) :
    lowerEdge m.otherHalf j < m.faceVertices.length ∧
    lowerEdge m.otherHalf j < m.otherHalf.getD (lowerEdge m.otherHalf j) 0 := by
  have h1 := hpr.otherHalf_lt j hj
  have h2 := hpr.otherHalf_invol j hj
  rcases hpr.lower_cases hj with ⟨h, hlt⟩ | ⟨h, hlt⟩
  · rw [h]; exact ⟨hj, hlt⟩
  · rw [h, h2]; exact ⟨h1, hlt⟩

omit [Field K] in
theorem Paired.lower_twin {m : DirectedEdgeSurface K} (hpr : Paired m) {j : Nat}
    (hj : j < m.faceVertices.length) :
    lowerEdge m.otherHalf (m.otherHalf.getD j 0) = lowerEdge m.otherHalf j := by
  have h1 := hpr.otherHalf_lt j hj
  have h2 := hpr.otherHalf_invol j hj
  rcases hpr.lower_cases hj with ⟨h, hlt⟩ | ⟨h, hlt⟩ <;>
    rcases hpr.lower_cases h1 with ⟨k, hlt1⟩ | ⟨k, hlt1⟩ <;>
    rw [h, k] <;> omega

omit [Field K] in
theorem Paired.lower_count {m : DirectedEdgeSurface K} (hpr : Paired m) :
    2 * countLower m.otherHalf m.faceVertices.length = m.faceVertices.length :=
  LoopSubdivision.two_mul_countLower m.otherHalf m.faceVertices.length hpr.otherHalf_lt
    hpr.otherHalf_ne hpr.otherHalf_invol

omit [Field K] in
theorem Paired.countLower_lower_lt {m : DirectedEdgeSurface K} (hpr : Paired m) {j : Nat}
    (hj : j < m.faceVertices.length) :
    countLower m.otherHalf (lowerEdge m.otherHalf j) < m.faceVertices.length / 2 := by
  have htot := hpr.lower_count
  obtain ⟨h1, h2⟩ := hpr.lower_is_lower hj
  have := countLower_lt_of_lower m.otherHalf h1 h2
  omega

/-- On a paired mesh whose `faceVertices` entries index `vertices`, every read
of `CalculateEdgeVertexPosition` is in range and the result is the weighted
average over the current positions. -/
theorem CalculateEdgeVertexPosition_run (t : Subdivide K) (hpr : Paired t.des)
    (hfv : ∀ x, x < t.des.faceVertices.length →
      t.des.faceVertices.getD x 0 < t.des.vertices.length)
    {e : Nat} (he : e < t.des.faceVertices.length) :
    CalculateEdgeVertexPosition t e = some (edgePosition t.des e) := by
  have hE := hpr.otherHalf_length
  have hoe := hpr.otherHalf_lt e he
  have r0 : t.des.otherHalf[e]? = some (t.des.otherHalf.getD e 0) :=
    getElem?_of_lt_getD (by omega)
  have rd : ∀ x, x < t.des.faceVertices.length →
      t.des.faceVertices[x]? = some (t.des.faceVertices.getD x 0) :=
    fun x hx => getElem?_of_lt_getD hx
  have rv : ∀ x, x < t.des.faceVertices.length →
      t.des.vertices[t.des.faceVertices.getD x 0]?
        = some (position t.des (t.des.faceVertices.getD x 0)) :=
    fun x hx => getElem?_position t.des (hfv x hx)
  have n1 := nextEdge_lt hpr.triples he
  have n2 := nextEdge_lt hpr.triples hoe
  unfold nextEdge at n1 n2
  unfold CalculateEdgeVertexPosition
  rw [r0, andThen_some]
  dsimp only
  rw [rd e he, andThen_some, rv e he, andThen_some, rd _ hoe, andThen_some, rv _ hoe,
    andThen_some, rd _ n1, andThen_some, rv _ n1, andThen_some, rd _ n2, andThen_some,
    rv _ n2, andThen_some]
  rfl

/-- On a paired mesh whose `faceVertices` entries index `normals`, every read
of `CalculateEdgeVertexNormal` is in range and the result is the normalised
weighted sum over the current normals. -/
theorem CalculateEdgeVertexNormal_run (unit : Cartesian3 K → Cartesian3 K) (t : Subdivide K)
    (hpr : Paired t.des)
    (hfv : ∀ x, x < t.des.faceVertices.length →
      t.des.faceVertices.getD x 0 < t.des.normals.length)
    {e : Nat} (he : e < t.des.faceVertices.length) :
    CalculateEdgeVertexNormal unit t e = some (unit (edgeNormalSum t.des e)) := by
  have hE := hpr.otherHalf_length
  have hoe := hpr.otherHalf_lt e he
  have r0 : t.des.otherHalf[e]? = some (t.des.otherHalf.getD e 0) :=
    getElem?_of_lt_getD (by omega)
  have rd : ∀ x, x < t.des.faceVertices.length →
      t.des.faceVertices[x]? = some (t.des.faceVertices.getD x 0) :=
    fun x hx => getElem?_of_lt_getD hx
  have rv : ∀ x, x < t.des.faceVertices.length →
      t.des.normals[t.des.faceVertices.getD x 0]?
        = some (t.des.normals.getD (t.des.faceVertices.getD x 0) 0) :=
    fun x hx => getElem?_of_lt_getD (hfv x hx)
  have n1 := nextEdge_lt hpr.triples he
  have n2 := nextEdge_lt hpr.triples hoe
  unfold nextEdge at n1 n2
  unfold CalculateEdgeVertexNormal
  rw [r0, andThen_some]
  dsimp only
  rw [rd e he, andThen_some, rv e he, andThen_some, rd _ hoe, andThen_some, rv _ hoe,
    andThen_some, rd _ n1, andThen_some, rv _ n1, andThen_some, rd _ n2, andThen_some,
    rv _ n2, andThen_some]
  rfl

end InsertPaired

section Slots

variable {K : Type} [Field K]

/-- The method `InsertEdgeVertices` is its loop run from the start state. -/
theorem InsertEdgeVertices_eq_loop (unit : Cartesian3 K → Cartesian3 K) (s : Subdivide K) :
    InsertEdgeVertices unit s
      = andThen (forLoop s.des.otherHalf.length (InsertEdgeVertices.body unit)
          (InsertEdgeVertices.start s)) (fun st => some st.1) := rfl

/-- The start state of the loop of `InsertEdgeVertices`. -/
theorem SlotsUpTo.start (unit : Cartesian3 K → Cartesian3 K) (s : Subdivide K) :
    SlotsUpTo unit s 0 (InsertEdgeVertices.start s) := by
  constructor
  · rfl
  · rfl
  · rfl
  · rfl
  · rfl
  · exact length_resize _ _ _
  · exact length_resize _ _ _
  · exact List.length_replicate _ _
  · intro i hi
    exact getElem?_resize_of_lt _ _ _ hi (by omega)
  · intro i hi
    exact getElem?_resize_getD _ _ _ (by omega)
  · intro e he; exact absurd he (Nat.not_lt_zero e)
  · intro j _ hj; exact absurd hj (Nat.not_lt_zero _)

/-- One iteration of the loop of `InsertEdgeVertices` on a paired mesh whose
`faceVertices` entries index the resized arrays: at an edge that is not the
lower one of its pair the state is unchanged, at a lower edge the iteration
makes the four writes of `InsertEdgeVertices.written`, all in range. -/
theorem SlotsUpTo.step (unit : Cartesian3 K → Cartesian3 K) (s : Subdivide K)
    (hpr : Paired s.des)
    (hfv : ∀ x, x < s.des.faceVertices.length →
      s.des.faceVertices.getD x 0 < s.des.vertices.length + s.des.faceVertices.length / 2)
    (k : Nat) (st : Subdivide K × Nat)
    (hk : k < s.des.otherHalf.length) (h : SlotsUpTo unit s k st) :
    ∃ st1, InsertEdgeVertices.body unit k st = some st1 ∧ SlotsUpTo unit s (k + 1) st1 ∧
      (k < s.des.otherHalf.getD k 0 → st1 = InsertEdgeVertices.written unit k st) ∧
      (¬ k < s.des.otherHalf.getD k 0 → st1 = st) := by
  obtain ⟨t, cnt⟩ := st
  have hE := hpr.otherHalf_length
  have hkE : k < s.des.faceVertices.length := by omega
  have hcount : cnt = countLower s.des.otherHalf k := h.count
  have hnV : t.nVerticesOld = s.des.vertices.length := h.nVerticesOld
  have hohk := hpr.otherHalf_lt k hkE
  have hnek := hpr.otherHalf_ne k hkE
  have hinvk := hpr.otherHalf_invol k hkE
  have hfvt : t.des.faceVertices = s.des.faceVertices := h.faceVertices
  have hoht : t.des.otherHalf = s.des.otherHalf := h.otherHalf
  have hread : t.des.otherHalf[k]? = some (t.des.otherHalf.getD k 0) := by
    rw [hoht]; exact getElem?_of_lt_getD hk
  have htot := hpr.lower_count
  have hrun : forLoop k (InsertEdgeVertices.body unit) (InsertEdgeVertices.start s)
      = some (t, cnt) := h.run
  have hvl : t.des.vertices.length
      = s.des.vertices.length + s.des.otherHalf.length / 2 := h.vertices_length
  have hnl : t.des.normals.length
      = s.des.vertices.length + s.des.otherHalf.length / 2 := h.normals_length
  have hel : t.edgeNewVertex.length = s.des.otherHalf.length := h.edgeNewVertex_length
  by_cases hlow : k < s.des.otherHalf.getD k 0
  · have hlt := countLower_lt_of_lower s.des.otherHalf hkE hlow
    have hcnt : cnt < s.des.otherHalf.length / 2 := by omega
    have hprt : Paired t.des := Paired.congr hfvt hoht hpr
    have hpos := CalculateEdgeVertexPosition_run t hprt
      (by rw [hfvt, hvl, hE]; exact hfv) (e := k) (by rw [hfvt]; exact hkE)
    have hnor := CalculateEdgeVertexNormal_run unit
      { t with des := { t.des with
          vertices := t.des.vertices.set (t.nVerticesOld + cnt) (edgePosition t.des k) } }
      (Paired.congr (m := t.des) rfl rfl hprt)
      (by
        show ∀ x, x < t.des.faceVertices.length →
          t.des.faceVertices.getD x 0 < t.des.normals.length
        rw [hfvt, hnl, hE]; exact hfv)
      (e := k) (by show k < t.des.faceVertices.length; rw [hfvt]; exact hkE)
    have hbody : InsertEdgeVertices.body unit k (t, cnt)
        = some (InsertEdgeVertices.written unit k (t, cnt)) := by
      unfold InsertEdgeVertices.body
      dsimp only
      rw [hread, andThen_some, if_pos (by rw [hoht]; exact hlow), hpos, andThen_some,
        writeAt_of_lt _ (by omega), andThen_some, hnor, andThen_some,
        writeAt_of_lt _ (by omega), andThen_some,
        writeAt_of_lt _ (by omega), andThen_some,
        writeAt_of_lt _ (by rw [List.length_set, hoht]; omega), andThen_some]
      rfl
    refine ⟨_, hbody, ?_, fun _ => rfl, fun hc => absurd hlow hc⟩
    unfold InsertEdgeVertices.written
    dsimp only
    constructor
    · rw [forLoop_succ, hrun, andThen_some, hbody]
      rfl
    · show cnt + 1 = countLower s.des.otherHalf (k + 1)
      rw [countLower_succ, if_pos hlow, hcount]
    · exact h.nVerticesOld
    · exact h.faceVertices
    · exact h.otherHalf
    · show (t.des.vertices.set _ _).length = _
      rw [List.length_set]; exact hvl
    · show (t.des.normals.set _ _).length = _
      rw [List.length_set]; exact hnl
    · show ((t.edgeNewVertex.set _ _).set _ _).length = _
      rw [List.length_set, List.length_set]; exact hel
    · intro i hi
      show (t.des.vertices.set _ _)[i]? = _
      rw [List.getElem?_set_ne (by omega)]; exact h.old_vertices i hi
    · intro i hi
      show (t.des.normals.set _ _)[i]? = _
      rw [List.getElem?_set_ne (by omega)]; exact h.old_normals i hi
    · intro e he hel1 ste hste
      show (t.des.vertices.set (t.nVerticesOld + cnt) (edgePosition t.des k))[_]? = _ ∧
        (t.des.normals.set (t.nVerticesOld + cnt) (unit (edgeNormalSum t.des k)))[_]? = _
      by_cases hek : e = k
      · subst hek
        rw [hrun] at hste
        have hst : ste = (t, cnt) := (Option.some.inj hste).symm
        subst hst
        rw [hnV, hcount, List.getElem?_set_self (by omega),
          List.getElem?_set_self (by omega)]
        exact ⟨rfl, rfl⟩
      · have := countLower_lt_of_lower s.des.otherHalf (show e < k by omega) hel1
        rw [List.getElem?_set_ne (by omega), List.getElem?_set_ne (by omega)]
        exact h.kept e (by omega) hel1 ste hste
    · intro j hj hjl
      show ((t.edgeNewVertex.set _ _).set _ _)[j]? = _
      dsimp only
      have hjE : j < s.des.faceVertices.length := by omega
      have hinvj := hpr.otherHalf_invol j hjE
      rw [hoht]
      by_cases hj1 : j = s.des.otherHalf.getD k 0
      · have hl : lowerEdge s.des.otherHalf j = k := by
          rw [hj1, hpr.lower_twin hkE]
          unfold lowerEdge; rw [if_pos hlow]
        rw [hl, hj1, List.getElem?_set_self (by rw [List.length_set]; omega), hnV, hcount,
          Nat.add_comm]
      · by_cases hj2 : j = k
        · have hl : lowerEdge s.des.otherHalf j = k := by
            rw [hj2]; unfold lowerEdge; rw [if_pos hlow]
          rw [hl, List.getElem?_set_ne (by omega), hj2, List.getElem?_set_self (by omega),
            hnV, hcount, Nat.add_comm]
        · have hl : lowerEdge s.des.otherHalf j < k := by
            rcases hpr.lower_cases hjE with ⟨hc, _⟩ | ⟨hc, _⟩
            · omega
            · have : lowerEdge s.des.otherHalf j ≠ k := by
                intro hc2
                apply hj1
                rw [← hc2, hc, hinvj]
              omega
          rw [List.getElem?_set_ne (by omega), List.getElem?_set_ne (by omega)]
          exact h.edgeNewVertex j hj hl
  · have hbody : InsertEdgeVertices.body unit k (t, cnt) = some (t, cnt) := by
      unfold InsertEdgeVertices.body
      dsimp only
      rw [hread, andThen_some, if_neg (by rw [hoht]; exact hlow)]
    refine ⟨_, hbody, ?_, fun hc => absurd hc hlow, fun _ => rfl⟩
    constructor
    · rw [forLoop_succ, hrun, andThen_some, hbody]
    · show cnt = countLower s.des.otherHalf (k + 1)
      rw [countLower_succ, if_neg hlow, hcount]; rfl
    · exact h.nVerticesOld
    · exact h.faceVertices
    · exact h.otherHalf
    · exact h.vertices_length
    · exact h.normals_length
    · exact h.edgeNewVertex_length
    · exact h.old_vertices
    · exact h.old_normals
    · intro e he hel1
      have : e ≠ k := fun hc => hlow (hc ▸ hel1)
      exact h.kept e (by omega) hel1
    · intro j hj hjl
      have hjE : j < s.des.faceVertices.length := by omega
      have hll := (hpr.lower_is_lower hjE).2
      have : lowerEdge s.des.otherHalf j ≠ k := fun hc => hlow (hc ▸ hll)
      exact h.edgeNewVertex j hj (by omega)

/-- The loop of `InsertEdgeVertices` reaches, after any number `k` of
iterations up to the number of edges, a state described by `SlotsUpTo`. -/
theorem SlotsUpTo.reach (unit : Cartesian3 K → Cartesian3 K) (s : Subdivide K)
    (hpr : Paired s.des)
    (hfv : ∀ x, x < s.des.faceVertices.length →
      s.des.faceVertices.getD x 0 < s.des.vertices.length + s.des.faceVertices.length / 2)
    (k : Nat) (hk : k ≤ s.des.otherHalf.length) :
    ∃ st, SlotsUpTo unit s k st := by
  obtain ⟨st, _, hinv⟩ := forLoop_inv (InsertEdgeVertices.body unit) (SlotsUpTo unit s) k
    (InsertEdgeVertices.start s) (SlotsUpTo.start unit s)
    (fun j st hj h => by
      obtain ⟨st1, h1, h2, _⟩ := SlotsUpTo.step unit s hpr hfv j st (by omega) h
      exact ⟨st1, h1, h2⟩)
  exact ⟨st, hinv⟩

end Slots

/-! ## The claim on `InsertEdgeVertices` -/

section InsertClaim

variable {K : Type} [Field K]

/-- While the loop of `InsertEdgeVertices` runs on a mesh whose `faceVertices`
entries are old vertices, the position and the weighted normal sum of an edge
are those of the input mesh. -/
theorem SlotsUpTo.input_values {unit : Cartesian3 K → Cartesian3 K} {s : Subdivide K}
    {k : Nat} {st : Subdivide K × Nat} (hpr : Paired s.des) (h : SlotsUpTo unit s k st)
    (hfv : ∀ x, x < s.des.faceVertices.length →
      s.des.faceVertices.getD x 0 < s.des.vertices.length)
    {e : Nat} (he : e < s.des.faceVertices.length) :
    edgePosition st.1.des e = edgePosition s.des e ∧
    edgeNormalSum st.1.des e = edgeNormalSum s.des e := by
  have hoe := hpr.otherHalf_lt e he
  have n1 := nextEdge_lt hpr.triples he
  have n2 := nextEdge_lt hpr.triples hoe
  have hp : ∀ x, x < s.des.faceVertices.length →
      position st.1.des (s.des.faceVertices.getD x 0)
        = position s.des (s.des.faceVertices.getD x 0) := by
    intro x hx
    have hq := h.old_vertices _ (hfv x hx)
    unfold position
    generalize s.des.faceVertices.getD x 0 = i at hq ⊢
    rw [List.getD_eq_getElem?_getD, List.getD_eq_getElem?_getD, hq]
  have hn : ∀ x, x < s.des.faceVertices.length →
      st.1.des.normals.getD (s.des.faceVertices.getD x 0) 0
        = s.des.normals.getD (s.des.faceVertices.getD x 0) 0 :=
    fun x hx => getD_of_getElem? (h.old_normals _ (hfv x hx))
  unfold edgePosition edgeNormalSum
  rw [h.faceVertices, h.otherHalf, hp e he, hp _ hoe, hp _ n1, hp _ n2, hn e he, hn _ hoe,
    hn _ n1, hn _ n2]
  exact ⟨rfl, rfl⟩

/-- C6. On every mesh with `V` vertices whose `otherHalf` is a fixed-point-free
involution of its `E = 3 F` directed edges: exactly `E / 2` edges satisfy
`e < otherHalf[e]`, and every `k < E / 2` is the value of the counter at
exactly one of them.  When the `faceVertices` entries index the resized arrays
(the reads of the step are in range), `InsertEdgeVertices` returns the final
state `r` of its loop, with counter `E / 2`, and the entries below `V` of
`vertices` and `normals` are the old ones.  For every edge `e` the loop
reaches a state `st` with counter `countLower e`; if `e` is not a lower edge
the iteration changes nothing; if it is, the iteration makes the four writes
of `InsertEdgeVertices.written`, at slot `V + countLower e` of `vertices` and
`normals` and at `e` and its twin in `edgeNewVertex`, all in range, and what
it wrote to the slot is still there in `r` (the input's edge position and
normal sum when the `faceVertices` entries are old vertices).  So every slot
of `[V, V + E / 2)` is written at exactly one iteration and nothing is written
outside.  `edgeNewVertex[e] = edgeNewVertex[otherHalf[e]]` lies in
`[V, V + E / 2)`, every slot is the entry of exactly one lower edge, and two
edges with the same entry are equal or twins. -/
theorem C6_one_vertex_per_edge (unit : Cartesian3 K → Cartesian3 K) (s : Subdivide K)
    (hpr : Paired s.des) :
    ((Finset.range s.des.faceVertices.length).filter
      (fun e => e < s.des.otherHalf.getD e 0)).card = s.des.faceVertices.length / 2 ∧
    (∀ k, k < s.des.faceVertices.length / 2 →
      ∃! e, e < s.des.faceVertices.length ∧ e < s.des.otherHalf.getD e 0 ∧
        countLower s.des.otherHalf e = k) ∧
    ((∀ x, x < s.des.faceVertices.length →
        s.des.faceVertices.getD x 0
          < s.des.vertices.length + s.des.faceVertices.length / 2) →
      ∃ r, InsertEdgeVertices unit s = some r ∧
        forLoop s.des.otherHalf.length (InsertEdgeVertices.body unit)
          (InsertEdgeVertices.start s) = some (r, s.des.faceVertices.length / 2) ∧
        r.des.vertices.length = s.des.vertices.length + s.des.faceVertices.length / 2 ∧
        r.des.normals.length = s.des.vertices.length + s.des.faceVertices.length / 2 ∧
        r.edgeNewVertex.length = s.des.faceVertices.length ∧
        (∀ i, i < s.des.vertices.length →
          r.des.vertices[i]? = s.des.vertices[i]? ∧
          r.des.normals[i]? = some (s.des.normals.getD i 0)) ∧
        (∀ e, e < s.des.faceVertices.length →
          ∃ st, forLoop e (InsertEdgeVertices.body unit) (InsertEdgeVertices.start s)
              = some st ∧
            st.1.nVerticesOld = s.des.vertices.length ∧
            st.2 = countLower s.des.otherHalf e ∧
            st.1.des.otherHalf = s.des.otherHalf ∧
            (¬ e < s.des.otherHalf.getD e 0 →
              forLoop (e + 1) (InsertEdgeVertices.body unit) (InsertEdgeVertices.start s)
                = some st) ∧
            (e < s.des.otherHalf.getD e 0 →
              st.1.nVerticesOld + st.2 < st.1.des.vertices.length ∧
              st.1.nVerticesOld + st.2 < st.1.des.normals.length ∧
              e < st.1.edgeNewVertex.length ∧
              st.1.des.otherHalf.getD e 0 < st.1.edgeNewVertex.length ∧
              s.des.vertices.length ≤ st.1.nVerticesOld + st.2 ∧
              st.1.nVerticesOld + st.2
                < s.des.vertices.length + s.des.faceVertices.length / 2 ∧
              forLoop (e + 1) (InsertEdgeVertices.body unit) (InsertEdgeVertices.start s)
                = some (InsertEdgeVertices.written unit e st) ∧
              r.des.vertices[s.des.vertices.length + countLower s.des.otherHalf e]?
                = some (edgePosition st.1.des e) ∧
              r.des.normals[s.des.vertices.length + countLower s.des.otherHalf e]?
                = some (unit (edgeNormalSum st.1.des e)) ∧
              ((∀ x, x < s.des.faceVertices.length →
                  s.des.faceVertices.getD x 0 < s.des.vertices.length) →
                edgePosition st.1.des e = edgePosition s.des e ∧
                edgeNormalSum st.1.des e = edgeNormalSum s.des e))) ∧
        (∀ k, k < s.des.faceVertices.length / 2 →
          ∃! e, e < s.des.faceVertices.length ∧ e < s.des.otherHalf.getD e 0 ∧
            r.edgeNewVertex.getD e 0 = s.des.vertices.length + k) ∧
        (∀ e, e < s.des.faceVertices.length →
          r.edgeNewVertex.getD (s.des.otherHalf.getD e 0) 0 = r.edgeNewVertex.getD e 0 ∧
          s.des.vertices.length ≤ r.edgeNewVertex.getD e 0 ∧
          r.edgeNewVertex.getD e 0
            < s.des.vertices.length + s.des.faceVertices.length / 2) ∧
        (∀ e e1, e < s.des.faceVertices.length → e1 < s.des.faceVertices.length →
          r.edgeNewVertex.getD e 0 = r.edgeNewVertex.getD e1 0 →
          e1 = e ∨ e1 = s.des.otherHalf.getD e 0)) := by
  have hE := hpr.otherHalf_length
  have htot := hpr.lower_count
  have hslot : ∀ k, k < s.des.faceVertices.length / 2 →
      ∃! e, e < s.des.faceVertices.length ∧ e < s.des.otherHalf.getD e 0 ∧
        countLower s.des.otherHalf e = k := by
    intro k hk
    obtain ⟨e, he, hl, hc⟩ := exists_lower_of_lt_countLower s.des.otherHalf
      s.des.faceVertices.length k (by omega)
    refine ⟨e, ⟨he, hl, hc⟩, ?_⟩
    rintro e2 ⟨_, hl2, hc2⟩
    exact countLower_injective_on_lower s.des.otherHalf hl2 hl (by omega)
  refine ⟨by rw [← countLower_eq_card]; omega, hslot, ?_⟩
  intro hfv
  obtain ⟨stE, hfin⟩ := SlotsUpTo.reach unit s hpr hfv s.des.otherHalf.length (le_refl _)
  have hcE : stE.2 = s.des.faceVertices.length / 2 := by
    have := hfin.count
    rw [hE] at this
    omega
  have hrunE : forLoop s.des.otherHalf.length (InsertEdgeVertices.body unit)
      (InsertEdgeVertices.start s) = some (stE.1, s.des.faceVertices.length / 2) := by
    rw [hfin.run, ← hcE]
  have henv : ∀ j, j < s.des.faceVertices.length →
      stE.1.edgeNewVertex.getD j 0
        = s.des.vertices.length + countLower s.des.otherHalf (lowerEdge s.des.otherHalf j) :=
    fun j hj => getD_of_getElem? (hfin.edgeNewVertex j (by omega)
      (by rw [hE]; exact (hpr.lower_is_lower hj).1))
  refine ⟨stE.1, ?_, hrunE, by rw [hfin.vertices_length, hE],
    by rw [hfin.normals_length, hE], by rw [hfin.edgeNewVertex_length, hE],
    fun i hi => ⟨hfin.old_vertices i hi, hfin.old_normals i hi⟩, ?_, ?_, ?_, ?_⟩
  · rw [InsertEdgeVertices_eq_loop, hfin.run, andThen_some]
  · intro e he
    obtain ⟨st, h⟩ := SlotsUpTo.reach unit s hpr hfv e (by omega)
    obtain ⟨st1, _, h1, hw, hn⟩ := SlotsUpTo.step unit s hpr hfv e st (by omega) h
    refine ⟨st, h.run, h.nVerticesOld, h.count, h.otherHalf, ?_, ?_⟩
    · intro hlow
      rw [← hn hlow]
      exact h1.run
    · intro hlow
      have hlt := countLower_lt_of_lower s.des.otherHalf he hlow
      have hoe := hpr.otherHalf_lt e he
      have hkept := hfin.kept e (by omega) hlow st h.run
      refine ⟨?_, ?_, ?_, ?_, ?_, ?_, ?_, hkept.1, hkept.2,
        fun hfvV => h.input_values hpr hfvV he⟩
      · rw [h.nVerticesOld, h.count, h.vertices_length]; omega
      · rw [h.nVerticesOld, h.count, h.normals_length]; omega
      · rw [h.edgeNewVertex_length]; omega
      · rw [h.edgeNewVertex_length, h.otherHalf]; omega
      · rw [h.nVerticesOld]; omega
      · rw [h.nVerticesOld, h.count]; omega
      · rw [← hw hlow]
        exact h1.run
  · intro k hk
    obtain ⟨e, he, hl, hc⟩ := exists_lower_of_lt_countLower s.des.otherHalf
      s.des.faceVertices.length k (by omega)
    have hlow : ∀ x, x < s.des.otherHalf.getD x 0 → lowerEdge s.des.otherHalf x = x :=
      fun x hx => by unfold lowerEdge; rw [if_pos hx]
    refine ⟨e, ⟨he, hl, by rw [henv e he, hlow e hl, hc]⟩, ?_⟩
    rintro e2 ⟨he2, hl2, hc2⟩
    rw [henv e2 he2, hlow e2 hl2] at hc2
    exact countLower_injective_on_lower s.des.otherHalf hl2 hl (by omega)
  · intro e he
    have := hpr.countLower_lower_lt he
    rw [henv e he, henv _ (hpr.otherHalf_lt e he), hpr.lower_twin he]
    exact ⟨rfl, by omega, by omega⟩
  · intro a b ha hb hab
    rw [henv a ha, henv b hb] at hab
    have hl : lowerEdge s.des.otherHalf a = lowerEdge s.des.otherHalf b :=
      countLower_injective_on_lower s.des.otherHalf (hpr.lower_is_lower ha).2
        (hpr.lower_is_lower hb).2 (by omega)
    have ia := hpr.otherHalf_invol a ha
    have ib := hpr.otherHalf_invol b hb
    rcases hpr.lower_cases ha with ⟨h1, _⟩ | ⟨h1, _⟩ <;>
      rcases hpr.lower_cases hb with ⟨h2, _⟩ | ⟨h2, _⟩
    · left; omega
    · right; rw [← ib, ← h2, ← hl, h1]
    · right; rw [← h1, hl, h2]
    · left
      have hoo : s.des.otherHalf.getD a 0 = s.des.otherHalf.getD b 0 := by omega
      rw [← ia, ← ib, hoo]

/-- C6 at the tetrahedron, whose `faceVertices` entries index the resized arrays. -/
theorem C6_one_vertex_per_edge_witness :
    Paired (Subdivide.new tetrahedron).des ∧
    (∀ x, x < (Subdivide.new tetrahedron).des.faceVertices.length →
      (Subdivide.new tetrahedron).des.faceVertices.getD x 0
        < (Subdivide.new tetrahedron).des.vertices.length
          + (Subdivide.new tetrahedron).des.faceVertices.length / 2) ∧
    ((Finset.range (Subdivide.new tetrahedron).des.faceVertices.length).filter
      (fun e => e < (Subdivide.new tetrahedron).des.otherHalf.getD e 0)).card
        = (Subdivide.new tetrahedron).des.faceVertices.length / 2 ∧
    (∀ k, k < (Subdivide.new tetrahedron).des.faceVertices.length / 2 →
      ∃! e, e < (Subdivide.new tetrahedron).des.faceVertices.length ∧
        e < (Subdivide.new tetrahedron).des.otherHalf.getD e 0 ∧
        countLower (Subdivide.new tetrahedron).des.otherHalf e = k) ∧
    ∃ r, InsertEdgeVertices id (Subdivide.new tetrahedron) = some r ∧
      forLoop (Subdivide.new tetrahedron).des.otherHalf.length (InsertEdgeVertices.body id)
        (InsertEdgeVertices.start (Subdivide.new tetrahedron))
          = some (r, (Subdivide.new tetrahedron).des.faceVertices.length / 2) ∧
      r.des.vertices.length = (Subdivide.new tetrahedron).des.vertices.length
        + (Subdivide.new tetrahedron).des.faceVertices.length / 2 ∧
      r.des.normals.length = (Subdivide.new tetrahedron).des.vertices.length
        + (Subdivide.new tetrahedron).des.faceVertices.length / 2 ∧
      r.edgeNewVertex.length = (Subdivide.new tetrahedron).des.faceVertices.length ∧
      (∀ i, i < (Subdivide.new tetrahedron).des.vertices.length →
        r.des.vertices[i]? = (Subdivide.new tetrahedron).des.vertices[i]? ∧
        r.des.normals[i]? = some ((Subdivide.new tetrahedron).des.normals.getD i 0)) ∧
      (∀ e, e < (Subdivide.new tetrahedron).des.faceVertices.length →
        ∃ st, forLoop e (InsertEdgeVertices.body id)
          (InsertEdgeVertices.start (Subdivide.new tetrahedron))
            = some st ∧
          st.1.nVerticesOld = (Subdivide.new tetrahedron).des.vertices.length ∧
          st.2 = countLower (Subdivide.new tetrahedron).des.otherHalf e ∧
          st.1.des.otherHalf = (Subdivide.new tetrahedron).des.otherHalf ∧
          (¬ e < (Subdivide.new tetrahedron).des.otherHalf.getD e 0 →
            forLoop (e + 1) (InsertEdgeVertices.body id)
              (InsertEdgeVertices.start (Subdivide.new tetrahedron))
              = some st) ∧
          (e < (Subdivide.new tetrahedron).des.otherHalf.getD e 0 →
            st.1.nVerticesOld + st.2 < st.1.des.vertices.length ∧
            st.1.nVerticesOld + st.2 < st.1.des.normals.length ∧
            e < st.1.edgeNewVertex.length ∧
            st.1.des.otherHalf.getD e 0 < st.1.edgeNewVertex.length ∧
            (Subdivide.new tetrahedron).des.vertices.length ≤ st.1.nVerticesOld + st.2 ∧
            st.1.nVerticesOld + st.2
              < (Subdivide.new tetrahedron).des.vertices.length
                + (Subdivide.new tetrahedron).des.faceVertices.length / 2 ∧
            forLoop (e + 1) (InsertEdgeVertices.body id)
              (InsertEdgeVertices.start (Subdivide.new tetrahedron))
              = some (InsertEdgeVertices.written id e st) ∧
            r.des.vertices[(Subdivide.new tetrahedron).des.vertices.length
              + countLower (Subdivide.new tetrahedron).des.otherHalf e]?
              = some (edgePosition st.1.des e) ∧
            r.des.normals[(Subdivide.new tetrahedron).des.vertices.length
              + countLower (Subdivide.new tetrahedron).des.otherHalf e]?
              = some (id (edgeNormalSum st.1.des e)) ∧
            ((∀ x, x < (Subdivide.new tetrahedron).des.faceVertices.length →
                (Subdivide.new tetrahedron).des.faceVertices.getD x 0
                  < (Subdivide.new tetrahedron).des.vertices.length) →
              edgePosition st.1.des e = edgePosition (Subdivide.new tetrahedron).des e ∧
              edgeNormalSum st.1.des e = edgeNormalSum (Subdivide.new tetrahedron).des e))) ∧
      (∀ k, k < (Subdivide.new tetrahedron).des.faceVertices.length / 2 →
        ∃! e, e < (Subdivide.new tetrahedron).des.faceVertices.length ∧
          e < (Subdivide.new tetrahedron).des.otherHalf.getD e 0 ∧
          r.edgeNewVertex.getD e 0 = (Subdivide.new tetrahedron).des.vertices.length + k) ∧
      (∀ e, e < (Subdivide.new tetrahedron).des.faceVertices.length →
        r.edgeNewVertex.getD ((Subdivide.new tetrahedron).des.otherHalf.getD e 0) 0
          = r.edgeNewVertex.getD e 0 ∧
        (Subdivide.new tetrahedron).des.vertices.length ≤ r.edgeNewVertex.getD e 0 ∧
        r.edgeNewVertex.getD e 0
          < (Subdivide.new tetrahedron).des.vertices.length
            + (Subdivide.new tetrahedron).des.faceVertices.length / 2) ∧
      (∀ e e1, e < (Subdivide.new tetrahedron).des.faceVertices.length →
        e1 < (Subdivide.new tetrahedron).des.faceVertices.length →
        r.edgeNewVertex.getD e 0 = r.edgeNewVertex.getD e1 0 →
        e1 = e ∨ e1 = (Subdivide.new tetrahedron).des.otherHalf.getD e 0) :=
  ⟨tetrahedron_wellFormed.paired, by decide,
    (C6_one_vertex_per_edge id (Subdivide.new tetrahedron) tetrahedron_wellFormed.paired).1,
    (C6_one_vertex_per_edge id (Subdivide.new tetrahedron) tetrahedron_wellFormed.paired).2.1,
    (C6_one_vertex_per_edge id (Subdivide.new tetrahedron) tetrahedron_wellFormed.paired).2.2
      (by decide)⟩

end InsertClaim


end LoopSubdivision
